import Mathlib

/-!
Verification of the alarm-clock subsystem (alarm store, persistence codec
with legacy-key migration, single-timer scheduler, due-alarm dispatcher,
and the request parser) as a shallow embedding of
`main/services/alarm_clock.cc` and `main/services/alarm_parser.cc`.

Machine integers are modelled as `Int` with explicit range constants where
the source performs range checks; `time_t` bounds are kept as parameters
`tmin`/`tmax` of the load routine, mirroring
`std::numeric_limits<time_t>::min()/max()`.
-/

set_option maxHeartbeats 2000000

/-- Range of `int` on the target (32-bit). -/
def intMinC : Int := -(2 ^ 31)

/-- Maximum of 32-bit `int`. -/
def intMaxC : Int := 2 ^ 31 - 1

/-- Minimum of `long long` (64-bit). -/
def llMinC : Int := -(2 ^ 63)

/-- Maximum of `long long` (64-bit). -/
def llMaxC : Int := 2 ^ 63 - 1

/-! ## Characters and decimal text

The source trims with `std::isspace` (C locale), parses with
`std::from_chars` and prints with `std::to_string` / `operator<<`, all of
which work on plain ASCII decimal text.  We model those three primitives
on `List Char`. -/

/-- C-locale `isspace`: space, \t, \n, \v, \f, \r (by code point). -/
def isCSpace (c : Char) : Bool :=
  c.toNat = 32 || c.toNat = 9 || c.toNat = 10 ||
    c.toNat = 11 || c.toNat = 12 || c.toNat = 13

/-- ASCII decimal digit test (as used by `std::from_chars`). -/
def isDigitC (c : Char) : Bool :=
  48 ≤ c.toNat && c.toNat ≤ 57

/-- The decimal digit character for a value `0 ≤ d ≤ 9`. -/
def digitChar (d : Nat) : Char :=
  match d with
  | 0 => '0' | 1 => '1' | 2 => '2' | 3 => '3' | 4 => '4'
  | 5 => '5' | 6 => '6' | 7 => '7' | 8 => '8' | _ => '9'

/-- Numeric value of a decimal digit character. -/
def digitVal (c : Char) : Nat := c.toNat - 48

/-- Value of a digit string, most significant digit first. -/
def digitsVal (l : List Char) : Nat :=
  l.foldl (fun a c => 10 * a + digitVal c) 0

/-- Fuel-driven decimal printer for `Nat` (the fuel only serves
termination; `natToChars` supplies enough of it). -/
def natToCharsAux : Nat → Nat → List Char
  | 0, _ => []
  | fuel + 1, n =>
    if n < 10 then [digitChar n]
    else natToCharsAux fuel (n / 10) ++ [digitChar (n % 10)]

/-- Decimal representation of a `Nat`, as produced by `std::to_string`. -/
def natToChars (n : Nat) : List Char := natToCharsAux (n + 1) n

/-- Decimal representation of an `Int`, as produced by `std::to_string`
and `operator<<` on integers. -/
def intToChars (i : Int) : List Char :=
  if i < 0 then '-' :: natToChars i.natAbs else natToChars i.toNat

/-- String version of `intToChars`. -/
def intToString (i : Int) : String := String.mk (intToChars i)

/-- `TrimStringView` from alarm_clock.cc: strip C whitespace from both
ends. -/
def trimChars (l : List Char) : List Char :=
  ((l.dropWhile isCSpace).reverse.dropWhile isCSpace).reverse

/-- `std::from_chars` on a whole token for a signed integer type with
range `[lo, hi]`: an optional minus sign followed by one or more decimal
digits; the token must be consumed entirely and the value must be
representable, otherwise the call fails (this models the source's
`ec != errc{} || ptr != end` test, where an overflown value yields
`result_out_of_range`). -/
def fromCharsInt (lo hi : Int) (l : List Char) : Option Int :=
  match l with
  | [] => none
  | c :: cs =>
    if c = '-' then
      if cs ≠ [] ∧ cs.all isDigitC then
        if lo ≤ -(digitsVal cs : Int) ∧ -(digitsVal cs : Int) ≤ hi
        then some (-(digitsVal cs : Int)) else none
      else none
    else
      if (c :: cs).all isDigitC then
        if lo ≤ (digitsVal (c :: cs) : Int) ∧ (digitsVal (c :: cs) : Int) ≤ hi
        then some (digitsVal (c :: cs) : Int) else none
      else none

/-- `ParseIntegral<T>` from alarm_clock.cc: trim, reject empty, then
`std::from_chars` over the whole remainder. -/
def ParseIntegral (lo hi : Int) (l : List Char) : Option Int :=
  let t := trimChars l
  if t = [] then none else fromCharsInt lo hi t

/-! ## The alarm record and the ordered map of alarms -/

/-- The `Alarm` record of alarm_clock.h.  `timer_handle` is an opaque
resource pointer with no influence on the store/scheduler logic modelled
here and is omitted.  The C++ field `repeat` is spelled `repeat_` because
`repeat` is reserved in Lean. -/
structure Alarm where
  time : Int
  repeat_ : Bool
  interval : Int
  name : String
  sound : String
  id : Int
deriving DecidableEq

/-- The in-memory store `std::map<int, Alarm>`: an association list that
is well-formed when strictly sorted by key. -/
abbrev AlarmMap := List (Int × Alarm)

/-- Lookup in the ordered map (`alarms_.find`). -/
def lookupA (al : AlarmMap) (k : Int) : Option Alarm :=
  match al with
  | [] => none
  | (k', v) :: rest => if k' = k then some v else lookupA rest k

/-- Sorted insert-or-replace (`alarms_[k] = v`). -/
def insertA (k : Int) (v : Alarm) : AlarmMap → AlarmMap
  | [] => [(k, v)]
  | (k', v') :: rest =>
    if k < k' then (k, v) :: (k', v') :: rest
    else if k = k' then (k, v) :: rest
    else (k', v') :: insertA k v rest

/-- Sorted insert that keeps an existing binding (`alarms_.emplace`). -/
def insertIfAbsentA (k : Int) (v : Alarm) : AlarmMap → AlarmMap
  | [] => [(k, v)]
  | (k', v') :: rest =>
    if k < k' then (k, v) :: (k', v') :: rest
    else if k = k' then (k', v') :: rest
    else (k', v') :: insertIfAbsentA k v rest

/-- Remove a binding (`alarms_.erase`). -/
def eraseA (k : Int) (al : AlarmMap) : AlarmMap :=
  al.filter (fun p => !(p.1 = k : Bool))

/-- Well-formedness of the store: strictly ascending keys (as in
`std::map`) and every record's `id` field equal to its key. -/
def WFmap (al : AlarmMap) : Prop :=
  List.Chain' (fun p q => p.1 < q.1) al ∧ ∀ p ∈ al, p.2.id = p.1

instance : DecidablePred WFmap := fun al => by
  unfold WFmap; infer_instance

/-! ## Comma-joined id list (`JoinIds` / `ParseIdList`) -/

/-- Split a character list at commas.  `std::getline(ss, it, ',')`
produces the same tokens except that a trailing empty token after a final
comma (and the single empty token of the empty string) is not yielded;
those empty tokens are skipped by `ParseIdList` anyway, so the two
formulations give the same parse result. -/
def splitComma (l : List Char) : List (List Char) :=
  l.foldr
    (fun c acc =>
      if c = ',' then [] :: acc
      else
        match acc with
        | [] => [[c]]
        | t :: ts => (c :: t) :: ts)
    [[]]

/-- `ParseIdList` from alarm_clock.cc: split on commas, trim, skip empty
tokens, parse each remaining token as `int`, dropping unparsable ones. -/
def ParseIdList (s : String) : List Int :=
  (splitComma s.data).filterMap
    (fun tok =>
      let t := trimChars tok
      if t = [] then none else fromCharsInt intMinC intMaxC t)

/-- The comma join of `JoinIds` (the `first` flag of the source loop
becomes the one-element base case). -/
def joinTokens : List (List Char) → List Char
  | [] => []
  | [x] => x
  | x :: y :: xs => x ++ ',' :: joinTokens (y :: xs)

/-- `JoinIds` from alarm_clock.cc: the keys of the map joined with
commas, in map (ascending-key) order. -/
def JoinIds (al : AlarmMap) : String :=
  String.mk (joinTokens (al.map (fun p => intToChars p.1)))

/-! ## The settings adapter

The external `Settings` class is a namespaced typed key/value store with
string/int/bool slots, `EraseKey` and `Commit`.  We model it as an
association list from string keys to tagged values; `Commit` flushes to
flash and has no observable effect on the values read back, so it is the
identity here. -/

/-- A typed settings value (NVS slots are typed). -/
inductive SVal where
  | s (v : String)
  | i (v : Int)
  | b (v : Bool)
deriving DecidableEq

/-- The settings store. -/
abbrev Settings := List (String × SVal)

/-- Raw read of a key. -/
def getVal (st : Settings) (k : String) : Option SVal :=
  match st with
  | [] => none
  | (k', v) :: rest => if k' = k then some v else getVal rest k

/-- `Settings::EraseKey`. -/
def eraseKey (st : Settings) (k : String) : Settings :=
  st.filter (fun p => !(p.1 = k : Bool))

/-- `Settings::SetString` / `SetInt` / `SetBool` (typed write). -/
def setVal (st : Settings) (k : String) (v : SVal) : Settings :=
  (k, v) :: eraseKey st k

/-- `Settings::TryGetString`: present and string-typed. -/
def TryGetString (st : Settings) (k : String) : Option String :=
  match getVal st k with
  | some (.s v) => some v
  | _ => none

/-- `Settings::TryGetInt`. -/
def TryGetInt (st : Settings) (k : String) : Option Int :=
  match getVal st k with
  | some (.i v) => some v
  | _ => none

/-- `Settings::TryGetBool`. -/
def TryGetBool (st : Settings) (k : String) : Option Bool :=
  match getVal st k with
  | some (.b v) => some v
  | _ => none

/-- `Settings::GetString` with default. -/
def GetString (st : Settings) (k : String) (d : String) : String :=
  (TryGetString st k).getD d

/-- `Settings::GetInt` with default. -/
def GetInt (st : Settings) (k : String) (d : Int) : Int :=
  (TryGetInt st k).getD d

/-! ## Persisted key layout -/

/-- `alarm_ids` key. -/
def kAlarmIdsKey : String := "alarm_ids"

/-- `next_alarm_id` key. -/
def kNextIdKey : String := "next_alarm_id"

/-- `MakeKey` from alarm_clock.cc. -/
def MakeKey (pfx : String) (id : Int) : String := pfx ++ intToString id

/-- The five per-alarm persisted fields. -/
inductive FieldK where
  | fname | ftime | frep | fintv | fsound
deriving DecidableEq

/-- New-scheme key prefixes. -/
def newPfx : FieldK → String
  | .fname => "a_n_"
  | .ftime => "a_t_"
  | .frep => "a_r_"
  | .fintv => "a_i_"
  | .fsound => "a_s_"

/-- Legacy-scheme key prefixes. -/
def legPfx : FieldK → String
  | .fname => "alarm_"
  | .ftime => "alarm_time_"
  | .frep => "alarm_repeat_"
  | .fintv => "alarm_interval_"
  | .fsound => "alarm_sound_"

/-- New-scheme key of a field of an alarm id. -/
def newKey (f : FieldK) (id : Int) : String := MakeKey (newPfx f) id

/-- Legacy-scheme key of a field of an alarm id. -/
def legKey (f : FieldK) (id : Int) : String := MakeKey (legPfx f) id

/-! ## Sound normalization -/

/-- `IsValidSound` from alarm_clock.cc. -/
def IsValidSound (s : String) : Bool :=
  s = "ALARM1" || s = "ALARM2" || s = "ALARM3"

/-- `NormalizeSound` from alarm_clock.cc. -/
def NormalizeSound (s : String) : String :=
  if IsValidSound s then s else "ALARM1"

/-! ## Manager state and CRUD operations -/

/-- The mutable state of `AlarmManager`: the in-memory map, the id
counter and the settings store. -/
structure MState where
  alarms : AlarmMap
  next_alarm_id : Int
  settings : Settings
deriving DecidableEq

/-- A command issued to the single scheduler hardware timer. -/
inductive TimerCmd where
  | disarmed
  | armed (delay_us : Int)
deriving DecidableEq

/-- `AlarmManager::PersistAlarm`: write the five per-alarm fields under
the new-scheme keys (time as decimal text, sound normalized). -/
def PersistAlarm (a : Alarm) (st : Settings) : Settings :=
  let s1 := setVal st (newKey .fname a.id) (.s a.name)
  let s2 := setVal s1 (newKey .ftime a.id) (.s (intToString a.time))
  let s3 := setVal s2 (newKey .frep a.id) (.b a.repeat_)
  let s4 := setVal s3 (newKey .fintv a.id) (.i a.interval)
  setVal s4 (newKey .fsound a.id) (.s (NormalizeSound a.sound))

/-- `AlarmManager::PersistAlarmIds`. -/
def PersistAlarmIds (al : AlarmMap) (st : Settings) : Settings :=
  setVal st kAlarmIdsKey (.s (JoinIds al))

/-- `AlarmManager::RemoveAlarmFromStorage`: erase all ten durable keys
(new scheme and legacy scheme) of an id. -/
def RemoveAlarmFromStorage (id : Int) (st : Settings) : Settings :=
  let s1 := eraseKey st (newKey .fname id)
  let s2 := eraseKey s1 (newKey .ftime id)
  let s3 := eraseKey s2 (newKey .frep id)
  let s4 := eraseKey s3 (newKey .fintv id)
  let s5 := eraseKey s4 (newKey .fsound id)
  let s6 := eraseKey s5 (legKey .fname id)
  let s7 := eraseKey s6 (legKey .ftime id)
  let s8 := eraseKey s7 (legKey .frep id)
  let s9 := eraseKey s8 (legKey .fintv id)
  eraseKey s9 (legKey .fsound id)

/-- The running-minimum fold of `ScheduleNextLocked`'s scan loop. -/
def minTimeFold (acc : Int) (rest : AlarmMap) : Int :=
  rest.foldl (fun a p => if p.2.time < a then p.2.time else a) acc

/-- `AlarmManager::ScheduleNextLocked`: stop the timer, leave it
disarmed when the store is empty, otherwise arm a one-shot timer for the
minimum alarm time; delay in microseconds, clamped below by 1000 (one
millisecond), and 1000 when the minimum is not in the future.  The
`has_next` flag of the source is always true for a non-empty map, so the
fold below starts from the first entry. -/
def ScheduleNextLocked (al : AlarmMap) (now : Int) : TimerCmd :=
  match al with
  | [] => .disarmed
  | e :: rest =>
    let next_time := minTimeFold e.2.time rest
    let delay_us : Int :=
      if next_time > now then
        let d := (next_time - now) * 1000000
        if d < 1000 then 1000 else d
      else 1000
    .armed delay_us

/-- `AlarmManager::AddAlarm` (returns the id, the new state and the
timer command of the triggered recompute). -/
def AddAlarm (st : MState) (alarm : Alarm) (now : Int) : Int × MState × TimerCmd :=
  let stored0 := { alarm with sound := NormalizeSound alarm.sound }
  let stored :=
    if stored0.id ≤ 0 then { stored0 with id := st.next_alarm_id } else stored0
  let nid :=
    if stored0.id ≤ 0 then st.next_alarm_id + 1
    else if stored0.id ≥ st.next_alarm_id then stored0.id + 1
    else st.next_alarm_id
  let al' := insertA stored.id stored st.alarms
  let s1 := PersistAlarm stored st.settings
  let s2 := PersistAlarmIds al' s1
  let s3 := setVal s2 kNextIdKey (.i nid)
  (stored.id, ⟨al', nid, s3⟩, ScheduleNextLocked al' now)

/-- `AlarmManager::RemoveAlarm`.  Returns `(false, st, none)` for an
unknown id: no store, settings or scheduler change. -/
def RemoveAlarm (st : MState) (id : Int) (now : Int) :
    Bool × MState × Option TimerCmd :=
  match lookupA st.alarms id with
  | none => (false, st, none)
  | some _ =>
    let al' := eraseA id st.alarms
    let s1 := RemoveAlarmFromStorage id st.settings
    let s2 := PersistAlarmIds al' s1
    (true, ⟨al', st.next_alarm_id, s2⟩, some (ScheduleNextLocked al' now))

/-- `AlarmManager::UpdateAlarm`.  Not an upsert: an unknown id returns
`(false, st, none)` untouched. -/
def UpdateAlarm (st : MState) (alarm : Alarm) (now : Int) :
    Bool × MState × Option TimerCmd :=
  match lookupA st.alarms alarm.id with
  | none => (false, st, none)
  | some _ =>
    let updated := { alarm with sound := NormalizeSound alarm.sound }
    let al' := insertA updated.id updated st.alarms
    let s1 := PersistAlarm updated st.settings
    let s2 := PersistAlarmIds al' s1
    (true, ⟨al', st.next_alarm_id, s2⟩, some (ScheduleNextLocked al' now))

/-- `AlarmManager::GetAlarm`. -/
def GetAlarm (st : MState) (id : Int) : Option Alarm := lookupA st.alarms id

/-- `AlarmManager::GetAlarms`: records in ascending-id order. -/
def GetAlarms (st : MState) : List Alarm := st.alarms.map (fun p => p.2)

/-! ## Due-alarm dispatcher -/

/-- Events emitted by one dispatcher pass, in program order:
`handoff a` is the asynchronous notification job queued with a copy `a`
of the alarm; `advance id t` is the repeat-policy time advance (store
write plus persist); `remove id` is the erase of a non-repeating alarm
from store and storage. -/
inductive DispatchEvent where
  | handoff (a : Alarm)
  | advance (id : Int) (t : Int)
  | remove (id : Int)
deriving DecidableEq

/-- The repeat-advance `while` loop of `OnSchedulerTimer`
(`while (next_time <= now) next_time += interval_seconds;`), driven by
fuel; `advanceLoop` supplies enough fuel whenever the step is positive,
which is the only way the source reaches the loop. -/
def advanceLoopAux : Nat → Int → Int → Int → Int
  | 0, _, _, t => t
  | fuel + 1, ivs, now, t =>
    if t ≤ now then advanceLoopAux fuel ivs now (t + ivs) else t

/-- Entry point of the advance loop at start value `t`. -/
def advanceLoop (ivs now t : Int) : Int :=
  advanceLoopAux ((now + 1 - t).toNat + 1) ivs now t

/-- The repeat-policy time advance of `OnSchedulerTimer`:
`interval_seconds` (with its defensive `<= 0` guard, dead when
`interval > 0`), then the catch-up `while` loop starting at
`time + interval_seconds`. -/
def advancedAlarm (a : Alarm) (now : Int) : Alarm :=
  { a with
    time :=
      advanceLoop (if a.interval * 60 ≤ 0 then 60 else a.interval * 60) now
        (a.time + (if a.interval * 60 ≤ 0 then 60 else a.interval * 60)) }

/-- Phase 1 of `OnSchedulerTimer`'s body: walk the due ids; for each,
queue the notification handoff with a copy of the record, then either
advance-and-persist a repeating alarm or mark a non-repeating one for
removal.  Returns the updated map and settings, the marked ids and the
emitted events. -/
def dispatchPhase1 (now : Int) (al : AlarmMap) (st : Settings) :
    List Int → AlarmMap × Settings × List Int × List DispatchEvent
  | [] => (al, st, [], [])
  | id :: rest =>
    match lookupA al id with
    | none => dispatchPhase1 now al st rest
    | some a =>
      if a.repeat_ ∧ a.interval > 0 then
        let a' := advancedAlarm a now
        let r := dispatchPhase1 now (insertA id a' al) (PersistAlarm a' st) rest
        (r.1, r.2.1, r.2.2.1, .handoff a :: .advance id a'.time :: r.2.2.2)
      else
        let r := dispatchPhase1 now al st rest
        (r.1, r.2.1, id :: r.2.2.1, .handoff a :: r.2.2.2)

/-- Phase 2 of `OnSchedulerTimer`'s body: erase the marked alarms from
the store and from durable storage.  Returns the map, settings, whether
any id was actually removed (`ids_changed`) and the removal events. -/
def dispatchPhase2 (al : AlarmMap) (st : Settings) :
    List Int → AlarmMap × Settings × Bool × List DispatchEvent
  | [] => (al, st, false, [])
  | id :: rest =>
    match lookupA al id with
    | none => dispatchPhase2 al st rest
    | some _ =>
      let r := dispatchPhase2 (eraseA id al) (RemoveAlarmFromStorage id st) rest
      (r.1, r.2.1, true, .remove id :: r.2.2.2)

/-- The due set of one dispatcher pass: every alarm with `time <= now`,
in ascending-id (map iteration) order. -/
def dueList (st : MState) (now : Int) : List Int :=
  (st.alarms.filter (fun p => p.2.time ≤ now)).map (fun p => p.1)

/-- Phase-1 result of a dispatcher pass on a state. -/
def dispatchR1 (st : MState) (now : Int) :
    AlarmMap × Settings × List Int × List DispatchEvent :=
  dispatchPhase1 now st.alarms st.settings (dueList st now)

/-- Phase-2 result of a dispatcher pass on a state. -/
def dispatchR2 (st : MState) (now : Int) :
    AlarmMap × Settings × Bool × List DispatchEvent :=
  dispatchPhase2 (dispatchR1 st now).1 (dispatchR1 st now).2.1
    (dispatchR1 st now).2.2.1

/-- `AlarmManager::OnSchedulerTimer`: collect the due set, run the two
phases, rewrite the id list if the set of ids changed, and return the
new state with the event trace.  (The trailing `ScheduleNextLocked`
recompute is covered by `ScheduleNextLocked` itself.) -/
def OnSchedulerTimer (st : MState) (now : Int) : MState × List DispatchEvent :=
  if dueList st now = [] then (st, [])
  else
    (⟨(dispatchR2 st now).1, st.next_alarm_id,
      if (dispatchR2 st now).2.2.1 then
        PersistAlarmIds (dispatchR2 st now).1 (dispatchR2 st now).2.1
      else (dispatchR2 st now).2.1⟩,
     (dispatchR1 st now).2.2.2 ++ (dispatchR2 st now).2.2.2)

/-! ## Loading (with legacy-key migration) -/

/-- The `load_string_field` lambda of `AlarmManager::LoadAlarms`: probe
the new-scheme key (and clean up the legacy key), else migrate the
legacy value to the new key, else fall back (still erasing the legacy
key). -/
def loadStringField (st : Settings) (f : FieldK) (id : Int) (fallback : String) :
    String × Settings :=
  let key := newKey f id
  let lkey := legKey f id
  match TryGetString st key with
  | some v => (v, eraseKey st lkey)
  | none =>
    match TryGetString st lkey with
    | some lv => (lv, eraseKey (setVal st key (.s lv)) lkey)
    | none => (fallback, eraseKey st lkey)

/-- The `load_int_field` lambda of `AlarmManager::LoadAlarms`. -/
def loadIntField (st : Settings) (f : FieldK) (id : Int) (fallback : Int) :
    Int × Settings :=
  let key := newKey f id
  let lkey := legKey f id
  match TryGetInt st key with
  | some v => (v, eraseKey st lkey)
  | none =>
    match TryGetInt st lkey with
    | some lv => (lv, eraseKey (setVal st key (.i lv)) lkey)
    | none => (fallback, eraseKey st lkey)

/-- The `load_bool_field` lambda of `AlarmManager::LoadAlarms`. -/
def loadBoolField (st : Settings) (f : FieldK) (id : Int) (fallback : Bool) :
    Bool × Settings :=
  let key := newKey f id
  let lkey := legKey f id
  match TryGetBool st key with
  | some v => (v, eraseKey st lkey)
  | none =>
    match TryGetBool st lkey with
    | some lv => (lv, eraseKey (setVal st key (.b lv)) lkey)
    | none => (fallback, eraseKey st lkey)

/-- The per-id body of the load loop: load the fields in source order
(name, time, repeat, interval, sound).  A time value that fails to parse
as `long long` or falls outside `[tmin, tmax]`
(`numeric_limits<time_t>`) aborts the record (`continue`), leaving the
later fields' keys untouched. -/
def loadOne (tmin tmax : Int) (st : Settings) (id : Int) :
    Option Alarm × Settings :=
  let rn := loadStringField st .fname id ""
  let rt := loadStringField rn.2 .ftime id "0"
  match ParseIntegral llMinC llMaxC (trimChars rt.1.data) with
  | none => (none, rt.2)
  | some tv =>
    if tv < tmin ∨ tv > tmax then (none, rt.2)
    else
      let rr := loadBoolField rt.2 .frep id false
      let ri := loadIntField rr.2 .fintv id 0
      let rs := loadStringField ri.2 .fsound id "ALARM1"
      (some ⟨tv, rr.1, ri.1, rn.1,
        if IsValidSound rs.1 then rs.1 else "ALARM1", id⟩, rs.2)

/-- The load loop over the parsed id list (`alarms_.emplace` keeps the
first record of a duplicated id). -/
def loadList (tmin tmax : Int) (al : AlarmMap) (st : Settings) :
    List Int → AlarmMap × Settings
  | [] => (al, st)
  | id :: rest =>
    let r := loadOne tmin tmax st id
    loadList tmin tmax
      (match r.1 with
       | some a => insertIfAbsentA id a al
       | none => al)
      r.2 rest

/-- The id-counter restoration clamp of `LoadAlarms` (`next_alarm_id_`
defaulted to 1, clamped positive, then forced past the maximum key,
which for a sorted map is the last one, `alarms_.rbegin()`). -/
def restoreNextId (al : AlarmMap) (nid0 : Int) : Int :=
  match al.getLast? with
  | some p =>
    if (if nid0 ≤ 0 then 1 else nid0) ≤ p.1 then p.1 + 1
    else if nid0 ≤ 0 then 1 else nid0
  | none => if nid0 ≤ 0 then 1 else nid0

/-- `AlarmManager::LoadAlarms`: parse the id list (skipped when the
stored string is empty), load each record, then restore the id counter
(default 1, clamped to ≥ 1 and forced strictly above the maximum loaded
id). -/
def LoadAlarms (tmin tmax : Int) (st : Settings) : MState :=
  let ids := GetString st kAlarmIdsKey ""
  let r :=
    if ids ≠ "" then loadList tmin tmax [] st (ParseIdList ids) else ([], st)
  ⟨r.1, restoreNextId r.1 (GetInt r.2 kNextIdKey 1), r.2⟩

/-- Re-persist an alarm set unchanged: `PersistAlarm` on every record,
then `PersistAlarmIds`, then the id counter, then commit (the path every
mutating operation uses). -/
def persistAllAlarms (al : AlarmMap) (nid : Int) (st : Settings) : Settings :=
  let s1 := al.foldl (fun acc p => PersistAlarm p.2 acc) st
  let s2 := PersistAlarmIds al s1
  setVal s2 kNextIdKey (.i nid)

/-! ## Effective persisted field values

`effStr`/`effInt`/`effBool` give, for one field of one id, the value a
load observes: the new-scheme key if present, else the legacy key, else
the fallback.  `recordOf` packages the whole per-id read; the load loop
is proved equal to it. -/

/-- Effective string field. -/
def effStr (st : Settings) (f : FieldK) (id : Int) (fallback : String) : String :=
  match TryGetString st (newKey f id) with
  | some v => v
  | none =>
    match TryGetString st (legKey f id) with
    | some lv => lv
    | none => fallback

/-- Effective int field. -/
def effInt (st : Settings) (f : FieldK) (id : Int) (fallback : Int) : Int :=
  match TryGetInt st (newKey f id) with
  | some v => v
  | none =>
    match TryGetInt st (legKey f id) with
    | some lv => lv
    | none => fallback

/-- Effective bool field. -/
def effBool (st : Settings) (f : FieldK) (id : Int) (fallback : Bool) : Bool :=
  match TryGetBool st (newKey f id) with
  | some v => v
  | none =>
    match TryGetBool st (legKey f id) with
    | some lv => lv
    | none => fallback

/-- The record a load pass produces for an id, as a pure function of the
settings (none when the effective time is unparsable or out of range). -/
def recordOf (tmin tmax : Int) (st : Settings) (id : Int) : Option Alarm :=
  let name := effStr st .fname id ""
  let time_str := effStr st .ftime id "0"
  match ParseIntegral llMinC llMaxC (trimChars time_str.data) with
  | none => none
  | some tv =>
    if tv < tmin ∨ tv > tmax then none
    else
      let rep := effBool st .frep id false
      let intv := effInt st .fintv id 0
      let snd0 := effStr st .fsound id "ALARM1"
      let snd := if IsValidSound snd0 then snd0 else "ALARM1"
      some ⟨tv, rep, intv, name, snd, id⟩

/-- Build the loaded map from an id list and the per-id read. -/
def buildMap (f : Int → Option Alarm) (al : AlarmMap) : List Int → AlarmMap
  | [] => al
  | id :: rest =>
    let al' :=
      match f id with
      | some a => insertIfAbsentA id a al
      | none => al
    buildMap f al' rest

/-! ## The request parser (alarm_parser.cc)

A `cJSON` argument object is modelled by the shape each probed field can
take: absent, a number (cJSON numbers are read through `valueint`), a
boolean, or some other JSON value. -/

/-- Shape of one probed JSON field. -/
inductive JField where
  | absent
  | num (v : Int)
  | boolv (b : Bool)
  | other
deriving DecidableEq

/-- The five fields `ParseAlarmRequest` probes.  The C++ field `repeat`
is spelled `repeat_`. -/
structure JArgs where
  delay : JField
  hour : JField
  minute : JField
  repeat_ : JField
  interval : JField
deriving DecidableEq

/-- The distinct error messages of alarm_parser.cc, by tag. -/
inductive ParseErr where
  | notObject
  | notInt (field : String)
  | notBool (field : String)
  | bothDelayAndTime
  | neitherDelayNorTime
  | minuteWithoutHour
  | hourWithoutMinute
  | outOfRange (field : String)
  | repeatNeedsInterval
  | intervalWithoutRepeat
deriving DecidableEq

/-- `AlarmScheduleRequest` (alarm_parser.h), without the generated `id`
(which embeds wall-clock time and a process counter, outside this model);
`trigger_delay` is `trigger_type == kDelay`. -/
structure AlarmScheduleRequest where
  delay_seconds : Option Int
  hour : Option Int
  minute : Option Int
  repeat_ : Bool
  interval_minutes : Option Int
  trigger_delay : Bool
deriving DecidableEq

/-- `GetOptionalInt`. -/
def GetOptionalInt (f : JField) (nm : String) : Except ParseErr (Option Int) :=
  match f with
  | .absent => .ok none
  | .num v => .ok (some v)
  | _ => .error (.notInt nm)

/-- `GetOptionalBool`. -/
def GetOptionalBool (f : JField) (nm : String) : Except ParseErr (Option Bool) :=
  match f with
  | .absent => .ok none
  | .boolv b => .ok (some b)
  | _ => .error (.notBool nm)

/-- `ValidateRange`: absent passes; a present value must lie in
`[lo, hi]`. -/
def ValidateRange (v : Option Int) (lo hi : Int) (nm : String) :
    Except ParseErr Unit :=
  match v with
  | none => .ok ()
  | some x => if x < lo ∨ x > hi then .error (.outOfRange nm) else .ok ()

/-- `ParseAlarmRequest`, in source order.  `none` stands for a top-level
argument that is not a JSON object. -/
def ParseAlarmRequest (args : Option JArgs) :
    Except ParseErr AlarmScheduleRequest :=
  match args with
  | none => .error .notObject
  | some a => do
    let delay ← GetOptionalInt a.delay "delay"
    let hour ← GetOptionalInt a.hour "hour"
    let minute ← GetOptionalInt a.minute "minute"
    let rep ← GetOptionalBool a.repeat_ "repeat"
    let interval ← GetOptionalInt a.interval "interval"
    let has_delay := delay.isSome
    let has_time := hour.isSome || minute.isSome
    if has_delay && has_time then .error .bothDelayAndTime
    else if !has_delay && !has_time then .error .neitherDelayNorTime
    else if minute.isSome && !hour.isSome then .error .minuteWithoutHour
    else if hour.isSome && !minute.isSome then .error .hourWithoutMinute
    else do
      let _ ← ValidateRange delay 1 86400 "delay"
      let _ ← ValidateRange hour 0 23 "hour"
      let _ ← ValidateRange minute 0 59 "minute"
      let _ ← ValidateRange interval 1 10080 "interval"
      let repeat_value := rep.getD false
      if repeat_value && interval.isNone then .error .repeatNeedsInterval
      else if !repeat_value && interval.isSome then .error .intervalWithoutRepeat
      else
        .ok ⟨delay, hour, minute, repeat_value, interval, has_delay⟩

/-- "The supplied value, if any, is in `[lo, hi]`": absent passes, a
number must be in range, a wrongly-typed value is not in the range. -/
def fieldIn (f : JField) (lo hi : Int) : Prop :=
  match f with
  | .absent => True
  | .num v => lo ≤ v ∧ v ≤ hi
  | _ => False

instance (f : JField) (lo hi : Int) : Decidable (fieldIn f lo hi) := by
  unfold fieldIn; exact match f with
  | .absent => inferInstance
  | .num _ => inferInstance
  | .boolv _ => inferInstance
  | .other => inferInstance

/-- The validation conditions of claim C9, literally: exactly one of
delay or hour-and-minute-together supplied; each supplied value in its
range; repeat true requires an interval; repeat absent or false forbids
one. -/
def c9Conditions (a : JArgs) : Prop :=
  ((a.delay ≠ .absent ∧ ¬(a.hour ≠ .absent ∧ a.minute ≠ .absent)) ∨
      (a.delay = .absent ∧ a.hour ≠ .absent ∧ a.minute ≠ .absent)) ∧
    fieldIn a.delay 1 86400 ∧
    fieldIn a.hour 0 23 ∧
    fieldIn a.minute 0 59 ∧
    fieldIn a.interval 1 10080 ∧
    (a.repeat_ = .boolv true → a.interval ≠ .absent) ∧
    ((a.repeat_ = .absent ∨ a.repeat_ = .boolv false) → a.interval = .absent)

instance : DecidablePred c9Conditions := fun a => by
  unfold c9Conditions; infer_instance

/-! ## Lemmas about the settings store -/

theorem eraseKey_cons (pk : String) (pv : SVal) (rest : Settings) (k : String) :
    eraseKey ((pk, pv) :: rest) k =
      if pk = k then eraseKey rest k else (pk, pv) :: eraseKey rest k := by
  by_cases h : pk = k <;> simp [eraseKey, List.filter_cons, h]

theorem getVal_eraseKey (st : Settings) (k k' : String) :
    getVal (eraseKey st k) k' = if k' = k then none else getVal st k' := by
  induction st with
  | nil => simp [eraseKey, getVal]
  | cons p rest ih =>
    rcases p with ⟨pk, pv⟩
    rw [eraseKey_cons]
    by_cases hp : pk = k
    · rw [if_pos hp, ih]
      by_cases h' : k' = k
      · simp [h']
      · have hpk : ¬pk = k' := fun hh => h' (hh.symm.trans hp)
        simp [h', getVal, hpk]
    · rw [if_neg hp]
      simp only [getVal]
      by_cases h2 : pk = k'
      · have : ¬k' = k := fun h' => hp (h2.trans h')
        rw [if_pos h2, if_neg this, if_pos h2]
      · rw [if_neg h2, ih]
        by_cases h' : k' = k <;> simp [h', h2, getVal]

theorem getVal_setVal (st : Settings) (k k' : String) (v : SVal) :
    getVal (setVal st k v) k' = if k' = k then some v else getVal st k' := by
  by_cases h : k = k'
  · subst h; simp [setVal, getVal]
  · have h2 : ¬k' = k := fun hh => h hh.symm
    simp only [setVal, getVal, if_neg h, getVal_eraseKey, if_neg h2]

/-! ## Lemmas about decimal text -/

theorem digitVal_digitChar (d : Nat) (h : d < 10) :
    digitVal (digitChar d) = d := by
  interval_cases d <;> rfl

theorem isDigitC_digitChar (d : Nat) (h : d < 10) :
    isDigitC (digitChar d) = true := by
  interval_cases d <;> rfl

theorem digitsVal_append_singleton (xs : List Char) (c : Char) :
    digitsVal (xs ++ [c]) = 10 * digitsVal xs + digitVal c := by
  simp [digitsVal, List.foldl_append]

theorem natToCharsAux_spec (fuel n : Nat) (h : n < fuel) :
    natToCharsAux fuel n ≠ [] ∧
      (natToCharsAux fuel n).all isDigitC = true ∧
      digitsVal (natToCharsAux fuel n) = n := by
  induction fuel generalizing n with
  | zero => omega
  | succ fuel ih =>
    by_cases hn : n < 10
    · simp [natToCharsAux, hn, List.all_cons, isDigitC_digitChar n hn,
        digitsVal, digitVal_digitChar n hn]
    · have hd : n / 10 < fuel := by omega
      obtain ⟨h1, h2, h3⟩ := ih (n / 10) hd
      refine ⟨?_, ?_, ?_⟩
      · simp [natToCharsAux, hn]
      · simp only [natToCharsAux, if_neg hn, List.all_append, List.all_cons]
        simp [h2, isDigitC_digitChar (n % 10) (by omega)]
      · simp only [natToCharsAux, if_neg hn, digitsVal_append_singleton, h3,
          digitVal_digitChar (n % 10) (by omega)]
        omega

theorem natToChars_ne_nil (n : Nat) : natToChars n ≠ [] :=
  (natToCharsAux_spec (n + 1) n (by omega)).1

theorem natToChars_all_digits (n : Nat) :
    (natToChars n).all isDigitC = true :=
  (natToCharsAux_spec (n + 1) n (by omega)).2.1

theorem digitsVal_natToChars (n : Nat) : digitsVal (natToChars n) = n :=
  (natToCharsAux_spec (n + 1) n (by omega)).2.2

theorem isDigitC_ne_minus (c : Char) (h : isDigitC c = true) : c ≠ '-' := by
  intro hc
  subst hc
  simp [isDigitC] at h

theorem intToChars_ne_nil (i : Int) : intToChars i ≠ [] := by
  unfold intToChars
  split
  · simp
  · exact natToChars_ne_nil _

theorem mem_intToChars (i : Int) (c : Char) (h : c ∈ intToChars i) :
    c = '-' ∨ isDigitC c = true := by
  by_cases hi : i < 0
  · rw [intToChars, if_pos hi] at h
    rcases List.mem_cons.mp h with h1 | h1
    · exact Or.inl h1
    · right
      have := natToChars_all_digits i.natAbs
      rw [List.all_eq_true] at this
      exact this c h1
  · rw [intToChars, if_neg hi] at h
    right
    have := natToChars_all_digits i.toNat
    rw [List.all_eq_true] at this
    exact this c h

theorem fromCharsInt_digits (lo hi : Int) (l : List Char) (h0 : l ≠ [])
    (h1 : l.all isDigitC = true) :
    fromCharsInt lo hi l =
      if lo ≤ (digitsVal l : Int) ∧ (digitsVal l : Int) ≤ hi
      then some (digitsVal l : Int) else none := by
  match l with
  | [] => exact absurd rfl h0
  | c :: cs =>
    have hc : isDigitC c = true := by
      rw [List.all_cons] at h1
      exact (Bool.and_eq_true _ _ |>.mp h1).1
    have hcm : ¬c = '-' := isDigitC_ne_minus c hc
    rw [fromCharsInt, if_neg hcm, if_pos h1]

theorem fromCharsInt_intToChars (lo hi i : Int) (hlo : lo ≤ i) (hhi : i ≤ hi) :
    fromCharsInt lo hi (intToChars i) = some i := by
  by_cases hneg : i < 0
  · have hi' : intToChars i = '-' :: natToChars i.natAbs := by
      simp [intToChars, hneg]
    have hne : natToChars i.natAbs ≠ [] := natToChars_ne_nil _
    have hall : (natToChars i.natAbs).all isDigitC = true :=
      natToChars_all_digits _
    have hval : -(digitsVal (natToChars i.natAbs) : Int) = i := by
      rw [digitsVal_natToChars]
      omega
    rw [hi', fromCharsInt, if_pos rfl, if_pos ⟨hne, hall⟩, hval,
      if_pos ⟨hlo, hhi⟩]
  · have hi' : intToChars i = natToChars i.toNat := by
      simp [intToChars, hneg]
    rw [hi', fromCharsInt_digits lo hi _ (natToChars_ne_nil _)
      (natToChars_all_digits _), digitsVal_natToChars]
    have h2 : (i.toNat : Int) = i := by omega
    rw [h2, if_pos ⟨hlo, hhi⟩]

theorem natToChars_injective (m n : Nat) (h : natToChars m = natToChars n) :
    m = n := by
  have hm := digitsVal_natToChars m
  have hn := digitsVal_natToChars n
  rw [← hm, ← hn, h]

theorem natToChars_head_digit (n : Nat) :
    ∃ c cs, natToChars n = c :: cs ∧ isDigitC c = true := by
  rcases hl : natToChars n with _ | ⟨c, cs⟩
  · exact absurd hl (natToChars_ne_nil n)
  · refine ⟨c, cs, rfl, ?_⟩
    have := natToChars_all_digits n
    rw [hl, List.all_cons] at this
    exact (Bool.and_eq_true _ _ |>.mp this).1

theorem intToChars_injective (i j : Int) (h : intToChars i = intToChars j) :
    i = j := by
  by_cases hi : i < 0 <;> by_cases hj : j < 0
  · rw [intToChars, if_pos hi, intToChars, if_pos hj] at h
    injection h with _ h2
    have := natToChars_injective _ _ h2
    omega
  · rw [intToChars, if_pos hi, intToChars, if_neg hj] at h
    obtain ⟨c, cs, hc, hdig⟩ := natToChars_head_digit j.toNat
    rw [hc] at h
    injection h with h1 _
    exact absurd h1.symm (isDigitC_ne_minus c hdig)
  · rw [intToChars, if_neg hi, intToChars, if_pos hj] at h
    obtain ⟨c, cs, hc, hdig⟩ := natToChars_head_digit i.toNat
    rw [hc] at h
    injection h with h1 _
    exact absurd h1 (isDigitC_ne_minus c hdig)
  · rw [intToChars, if_neg hi, intToChars, if_neg hj] at h
    have := natToChars_injective _ _ h
    omega

theorem intToChars_head (i : Int) :
    ∃ c cs, intToChars i = c :: cs ∧ (c = '-' ∨ isDigitC c = true) := by
  rcases hl : intToChars i with _ | ⟨c, cs⟩
  · exact absurd hl (intToChars_ne_nil i)
  · exact ⟨c, cs, rfl, mem_intToChars i c (hl ▸ List.mem_cons_self c cs)⟩

theorem isDigitC_not_space (c : Char) (h : isDigitC c = true) :
    isCSpace c = false := by
  simp only [isDigitC, Bool.and_eq_true, decide_eq_true_eq] at h
  simp only [isCSpace, Bool.or_eq_false_iff, decide_eq_false_iff_not]
  omega

theorem minus_not_space : isCSpace '-' = false := by decide

theorem dropWhile_eq_self_of_all (p : Char → Bool) (l : List Char)
    (h : ∀ c ∈ l, p c = false) : l.dropWhile p = l := by
  cases l with
  | nil => rfl
  | cons c cs =>
    rw [List.dropWhile_cons, h c (List.mem_cons_self c cs)]
    simp

theorem trimChars_eq_self (l : List Char)
    (h : ∀ c ∈ l, isCSpace c = false) : trimChars l = l := by
  unfold trimChars
  rw [dropWhile_eq_self_of_all _ _ h,
    dropWhile_eq_self_of_all _ _ (fun c hc => h c (List.mem_reverse.mp hc)),
    List.reverse_reverse]

theorem trimChars_intToChars (i : Int) : trimChars (intToChars i) = intToChars i := by
  refine trimChars_eq_self _ (fun c hc => ?_)
  rcases mem_intToChars i c hc with h | h
  · rw [h]
    exact minus_not_space
  · exact isDigitC_not_space c h

theorem ParseIntegral_intToChars (lo hi i : Int) (hlo : lo ≤ i) (hhi : i ≤ hi) :
    ParseIntegral lo hi (intToChars i) = some i := by
  rw [ParseIntegral]
  simp only [trimChars_intToChars]
  rw [if_neg (intToChars_ne_nil i), fromCharsInt_intToChars lo hi i hlo hhi]

/-! ## Distinctness of persisted keys

Every persisted key is a fixed prefix followed by the decimal id.  The
lemmas below show that the twelve key families used by the source never
collide (prefixes differ at some character position, or one prefix
extends the other by a segment that cannot begin a decimal number). -/

theorem str_ne_append (s1 p2 t : String) (k : Nat)
    (h1 : k < s1.data.length) (h2 : k < p2.data.length)
    (hne : s1.data.get? k ≠ p2.data.get? k) : s1 ≠ p2 ++ t := by
  intro h
  have hd : s1.data = p2.data ++ t.data := congrArg String.data h
  have e2 : (p2.data ++ t.data).get? k = p2.data.get? k := List.get?_append h2
  rw [← hd] at e2
  exact hne e2

theorem append_ne_of_get_ne (p1 p2 s t : String) (k : Nat)
    (h1 : k < p1.data.length) (h2 : k < p2.data.length)
    (hne : p1.data.get? k ≠ p2.data.get? k) : p1 ++ s ≠ p2 ++ t := by
  intro h
  have hd : p1.data ++ s.data = p2.data ++ t.data := congrArg String.data h
  have e1 : (p1.data ++ s.data).get? k = p1.data.get? k := List.get?_append h1
  have e2 : (p2.data ++ t.data).get? k = p2.data.get? k := List.get?_append h2
  rw [hd] at e1
  exact hne (e1.symm.trans e2)

theorem makeKey_prefix_ne (p1 p2 : String) (i j : Int) (k : Nat)
    (h1 : k < p1.data.length) (h2 : k < p2.data.length)
    (hne : p1.data.get? k ≠ p2.data.get? k) : MakeKey p1 i ≠ MakeKey p2 j :=
  append_ne_of_get_ne p1 p2 _ _ k h1 h2 hne

theorem makeKey_same_inj (p : String) (i j : Int)
    (h : MakeKey p i = MakeKey p j) : i = j := by
  have hd : p.data ++ intToChars i = p.data ++ intToChars j :=
    congrArg String.data h
  exact intToChars_injective i j (List.append_cancel_left hd)

theorem fixed_ne_makeKey (w p : String) (r : List Char) (i : Int)
    (hw : w.data = p.data ++ r)
    (hr : ∃ c cs, r = c :: cs ∧ ¬c = '-' ∧ isDigitC c = false) :
    w ≠ MakeKey p i := by
  intro h
  have hd : p.data ++ r = p.data ++ intToChars i := by
    rw [← hw]
    exact congrArg String.data h
  have hri : r = intToChars i := List.append_cancel_left hd
  obtain ⟨c, cs, hc, hcm, hcd⟩ := hr
  obtain ⟨c', cs', hic, hhead⟩ := intToChars_head i
  rw [hc, hic] at hri
  have : c = c' := (List.cons.injEq _ _ _ _ ▸ hri).1
  rcases hhead with h' | h'
  · exact hcm (this.trans h')
  · rw [this] at hcd
    rw [hcd] at h'
    exact Bool.false_ne_true h'

theorem makeKey_ne_of_extension (p q : String) (i j : Int)
    (hq : ∃ c cs, q.data = c :: cs ∧ ¬c = '-' ∧ isDigitC c = false) :
    MakeKey p i ≠ MakeKey (p ++ q) j := by
  intro h
  have hd : p.data ++ intToChars i = (p.data ++ q.data) ++ intToChars j := by
    have := congrArg String.data h
    rw [MakeKey, MakeKey] at this
    exact this
  rw [List.append_assoc] at hd
  have hri : intToChars i = q.data ++ intToChars j := List.append_cancel_left hd
  obtain ⟨c, cs, hc, hcm, hcd⟩ := hq
  obtain ⟨c', cs', hic, hhead⟩ := intToChars_head i
  rw [hc, hic] at hri
  have hcc : c' = c := (List.cons.injEq _ _ _ _ ▸ hri).1
  rcases hhead with h' | h'
  · rw [hcc] at h'
    exact hcm h'
  · rw [hcc] at h'
    rw [hcd] at h'
    exact Bool.false_ne_true h'

theorem legName_ne_ext (q full : String) (i j : Int)
    (he : ("alarm_" : String) ++ q = full)
    (hq : ∃ c cs, q.data = c :: cs ∧ ¬c = '-' ∧ isDigitC c = false) :
    MakeKey "alarm_" i ≠ MakeKey full j :=
  he ▸ makeKey_ne_of_extension "alarm_" q i j hq

theorem newKey_inj (f g : FieldK) (i j : Int) (h : newKey f i = newKey g j) :
    f = g ∧ i = j := by
  cases f <;> cases g <;> simp only [newKey, newPfx] at h <;>
    first
      | exact ⟨rfl, makeKey_same_inj _ i j h⟩
      | exact absurd h (makeKey_prefix_ne _ _ i j 2 (by decide) (by decide)
          (by decide))

theorem legKey_inj (f g : FieldK) (i j : Int) (h : legKey f i = legKey g j) :
    f = g ∧ i = j := by
  cases f <;> cases g <;> simp only [legKey, legPfx] at h <;>
    first
      | exact ⟨rfl, makeKey_same_inj _ i j h⟩
      | exact absurd h (makeKey_prefix_ne _ _ i j 6 (by decide) (by decide)
          (by decide))
      | exact absurd h (legName_ne_ext "time_" _ i j (by decide)
          ⟨'t', ['i', 'm', 'e', '_'], by decide, by decide, by decide⟩)
      | exact absurd h (legName_ne_ext "repeat_" _ i j (by decide)
          ⟨'r', ['e', 'p', 'e', 'a', 't', '_'], by decide, by decide, by decide⟩)
      | exact absurd h (legName_ne_ext "interval_" _ i j (by decide)
          ⟨'i', ['n', 't', 'e', 'r', 'v', 'a', 'l', '_'], by decide, by decide,
            by decide⟩)
      | exact absurd h (legName_ne_ext "sound_" _ i j (by decide)
          ⟨'s', ['o', 'u', 'n', 'd', '_'], by decide, by decide, by decide⟩)
      | exact absurd h (Ne.symm (legName_ne_ext "time_" _ j i (by decide)
          ⟨'t', ['i', 'm', 'e', '_'], by decide, by decide, by decide⟩))
      | exact absurd h (Ne.symm (legName_ne_ext "repeat_" _ j i (by decide)
          ⟨'r', ['e', 'p', 'e', 'a', 't', '_'], by decide, by decide,
            by decide⟩))
      | exact absurd h (Ne.symm (legName_ne_ext "interval_" _ j i (by decide)
          ⟨'i', ['n', 't', 'e', 'r', 'v', 'a', 'l', '_'], by decide, by decide,
            by decide⟩))
      | exact absurd h (Ne.symm (legName_ne_ext "sound_" _ j i (by decide)
          ⟨'s', ['o', 'u', 'n', 'd', '_'], by decide, by decide, by decide⟩))

theorem newKey_ne_legKey (f g : FieldK) (i j : Int) : newKey f i ≠ legKey g j := by
  cases f <;> cases g <;> simp only [newKey, newPfx, legKey, legPfx] <;>
    exact makeKey_prefix_ne _ _ i j 1 (by decide) (by decide) (by decide)

theorem idsKey_ne_newKey (f : FieldK) (i : Int) : kAlarmIdsKey ≠ newKey f i := by
  cases f <;> simp only [newKey, newPfx, kAlarmIdsKey, MakeKey] <;>
    exact str_ne_append _ _ _ 1 (by decide) (by decide) (by decide)

theorem idsKey_ne_legKey (f : FieldK) (i : Int) : kAlarmIdsKey ≠ legKey f i := by
  cases f <;> simp only [legKey, legPfx, kAlarmIdsKey]
  · exact fixed_ne_makeKey _ _ ['i', 'd', 's'] i (by decide)
      ⟨'i', ['d', 's'], rfl, by decide, by decide⟩
  · exact str_ne_append _ _ _ 6 (by decide) (by decide) (by decide)
  · exact str_ne_append _ _ _ 6 (by decide) (by decide) (by decide)
  · exact str_ne_append _ _ _ 7 (by decide) (by decide) (by decide)
  · exact str_ne_append _ _ _ 6 (by decide) (by decide) (by decide)

theorem nextIdKey_ne_newKey (f : FieldK) (i : Int) : kNextIdKey ≠ newKey f i := by
  cases f <;> simp only [newKey, newPfx, kNextIdKey, MakeKey] <;>
    exact str_ne_append _ _ _ 0 (by decide) (by decide) (by decide)

theorem nextIdKey_ne_legKey (f : FieldK) (i : Int) : kNextIdKey ≠ legKey f i := by
  cases f <;> simp only [legKey, legPfx, kNextIdKey, MakeKey] <;>
    exact str_ne_append _ _ _ 0 (by decide) (by decide) (by decide)

theorem nextIdKey_ne_idsKey : kNextIdKey ≠ kAlarmIdsKey := by decide

/-! ## Claim C1: the scheduler recompute -/

theorem minTimeFold_le (rest : AlarmMap) (acc : Int) :
    minTimeFold acc rest ≤ acc ∧ ∀ p ∈ rest, minTimeFold acc rest ≤ p.2.time := by
  induction rest generalizing acc with
  | nil => exact ⟨le_refl _, fun p hp => absurd hp (List.not_mem_nil p)⟩
  | cons q rest ih =>
    have step : minTimeFold acc (q :: rest) =
        minTimeFold (if q.2.time < acc then q.2.time else acc) rest := rfl
    obtain ⟨h1, h2⟩ := ih (if q.2.time < acc then q.2.time else acc)
    constructor
    · rw [step]
      refine le_trans h1 ?_
      split <;> omega
    · intro p hp
      rcases List.mem_cons.mp hp with h | h
      · rw [step, h]
        refine le_trans h1 ?_
        split <;> omega
      · rw [step]
        exact h2 p h

theorem minTimeFold_mem (rest : AlarmMap) (acc : Int) :
    minTimeFold acc rest = acc ∨ ∃ p ∈ rest, p.2.time = minTimeFold acc rest := by
  induction rest generalizing acc with
  | nil => exact Or.inl rfl
  | cons q rest ih =>
    have step : minTimeFold acc (q :: rest) =
        minTimeFold (if q.2.time < acc then q.2.time else acc) rest := rfl
    rcases ih (if q.2.time < acc then q.2.time else acc) with h | ⟨p, hp, hpt⟩
    · by_cases hq : q.2.time < acc
      · right
        refine ⟨q, List.mem_cons_self q rest, ?_⟩
        rw [step, h, if_pos hq]
      · left
        rw [step, h, if_neg hq]
    · right
      exact ⟨p, List.mem_cons_of_mem q hp, by rw [step]; exact hpt⟩

/-- C1: a scheduler recompute arms the single wake timer for the minimum
`time` over all alarms in the store, with delay (in microseconds) equal
to `max(1 ms, (minimum_time - now) seconds)`; a minimum at or before
`now` thus yields the minimal 1 ms delay, never zero or negative; an
empty store leaves the timer disarmed. -/
theorem c1_scheduler_recompute (al : AlarmMap) (now : Int) :
    (al = [] → ScheduleNextLocked al now = .disarmed) ∧
    (al ≠ [] →
      ∃ m, (∀ p ∈ al, m ≤ p.2.time) ∧ (∃ p ∈ al, p.2.time = m) ∧
        ScheduleNextLocked al now = .armed (max 1000 ((m - now) * 1000000)) ∧
        (m ≤ now → ScheduleNextLocked al now = .armed 1000) ∧
        1000 ≤ max 1000 ((m - now) * 1000000)) := by
  cases al with
  | nil => exact ⟨fun _ => rfl, fun h => absurd rfl h⟩
  | cons e rest =>
    refine ⟨fun h => absurd h (List.cons_ne_nil e rest), fun _ => ?_⟩
    refine ⟨minTimeFold e.2.time rest, ?_, ?_, ?_, ?_, le_max_left _ _⟩
    · intro p hp
      rcases List.mem_cons.mp hp with h | h
      · rw [h]
        exact (minTimeFold_le rest e.2.time).1
      · exact (minTimeFold_le rest e.2.time).2 p h
    · rcases minTimeFold_mem rest e.2.time with h | ⟨p, hp, hpt⟩
      · exact ⟨e, List.mem_cons_self e rest, h.symm⟩
      · exact ⟨p, List.mem_cons_of_mem e hp, hpt⟩
    · show TimerCmd.armed _ = _
      congr 1
      by_cases hgt : minTimeFold e.2.time rest > now
      · rw [if_pos hgt]
        have : ¬(minTimeFold e.2.time rest - now) * 1000000 < 1000 := by omega
        rw [if_neg this]
        omega
      · rw [if_neg hgt]
        omega
    · intro hle
      show TimerCmd.armed _ = _
      have : ¬minTimeFold e.2.time rest > now := by omega
      rw [if_neg this]

/-- Witness for C1 at a concrete two-alarm store. -/
theorem c1_scheduler_recompute_witness :
    (([(1, ⟨50, false, 0, "a", "ALARM1", 1⟩),
       (2, ⟨20, false, 0, "b", "ALARM1", 2⟩)] : AlarmMap) ≠ []) ∧
    (∃ m, (∀ p ∈ ([(1, ⟨50, false, 0, "a", "ALARM1", 1⟩),
       (2, ⟨20, false, 0, "b", "ALARM1", 2⟩)] : AlarmMap), m ≤ p.2.time) ∧
      (∃ p ∈ ([(1, ⟨50, false, 0, "a", "ALARM1", 1⟩),
       (2, ⟨20, false, 0, "b", "ALARM1", 2⟩)] : AlarmMap), p.2.time = m) ∧
      ScheduleNextLocked [(1, ⟨50, false, 0, "a", "ALARM1", 1⟩),
       (2, ⟨20, false, 0, "b", "ALARM1", 2⟩)] 10 =
        .armed (max 1000 ((m - 10) * 1000000)) ∧
      (m ≤ 10 → ScheduleNextLocked [(1, ⟨50, false, 0, "a", "ALARM1", 1⟩),
       (2, ⟨20, false, 0, "b", "ALARM1", 2⟩)] 10 = .armed 1000) ∧
      1000 ≤ max 1000 ((m - 10) * 1000000)) :=
  ⟨by simp,
   (c1_scheduler_recompute
     [(1, ⟨50, false, 0, "a", "ALARM1", 1⟩),
      (2, ⟨20, false, 0, "b", "ALARM1", 2⟩)] 10).2 (by simp)⟩

/-! ## Claim C10: the id-list round trip -/

theorem intToChars_no_comma (i : Int) (c : Char) (h : c ∈ intToChars i) :
    ¬c = ',' := by
  rcases mem_intToChars i c h with h1 | h1
  · rw [h1]
    decide
  · intro hc
    rw [hc] at h1
    simp [isDigitC] at h1

theorem splitComma_nil : splitComma [] = [[]] := rfl

theorem splitComma_cons (c : Char) (cs : List Char) :
    splitComma (c :: cs) =
      (if c = ',' then [] :: splitComma cs
       else
         match splitComma cs with
         | [] => [[c]]
         | t :: ts => (c :: t) :: ts) := rfl

theorem splitComma_ne_nil (l : List Char) : splitComma l ≠ [] := by
  cases l with
  | nil => simp [splitComma_nil]
  | cons c cs =>
    rw [splitComma_cons]
    by_cases h : c = ','
    · simp [h]
    · rw [if_neg h]
      rcases hs : splitComma cs with _ | ⟨t, ts⟩ <;> simp

theorem splitComma_no_comma (p : List Char) (h : ∀ c ∈ p, ¬c = ',') :
    splitComma p = [p] := by
  induction p with
  | nil => rfl
  | cons c cs ih =>
    rw [splitComma_cons,
      if_neg (h c (List.mem_cons_self c cs)),
      ih (fun x hx => h x (List.mem_cons_of_mem c hx))]

theorem splitComma_append_comma (p rest : List Char) (h : ∀ c ∈ p, ¬c = ',') :
    splitComma (p ++ ',' :: rest) = p :: splitComma rest := by
  induction p with
  | nil =>
    rw [List.nil_append, splitComma_cons, if_pos rfl]
  | cons c cs ih =>
    rw [List.cons_append, splitComma_cons,
      if_neg (h c (List.mem_cons_self c cs)),
      ih (fun x hx => h x (List.mem_cons_of_mem c hx))]

theorem splitComma_joinTokens (toks : List (List Char)) (hne : toks ≠ [])
    (h : ∀ t ∈ toks, ∀ c ∈ t, ¬c = ',') :
    splitComma (joinTokens toks) = toks := by
  induction toks with
  | nil => exact absurd rfl hne
  | cons x rest ih =>
    cases rest with
    | nil => exact splitComma_no_comma x (h x (List.mem_cons_self x []))
    | cons y xs =>
      rw [show joinTokens (x :: y :: xs) = x ++ ',' :: joinTokens (y :: xs)
          from rfl,
        splitComma_append_comma x _ (h x (List.mem_cons_self x (y :: xs))),
        ih (List.cons_ne_nil y xs)
          (fun t ht c hc => h t (List.mem_cons_of_mem x ht) c hc)]

theorem filterMap_congr_some {α β : Type} (f : α → Option β) (g : α → β)
    (l : List α) (h : ∀ x ∈ l, f x = some (g x)) :
    l.filterMap f = l.map g := by
  induction l with
  | nil => rfl
  | cons x xs ih =>
    rw [List.filterMap_cons, h x (List.mem_cons_self x xs), List.map_cons,
      ih (fun y hy => h y (List.mem_cons_of_mem x hy))]

/-- Core of the id-list round trip: the join of an `int`-ranged key list
parses back to exactly the key list (shared by the C10 statement and the
persistence round trip). -/
theorem idlist_joinIds_eq (al : AlarmMap)
    (hr : ∀ p ∈ al, intMinC ≤ p.1 ∧ p.1 ≤ intMaxC) :
    ParseIdList (JoinIds al) = al.map (fun p => p.1) := by
  cases al with
    | nil => rfl
    | cons p al' =>
      show ((splitComma (joinTokens ((p :: al').map (fun p => intToChars p.1)))).filterMap _) = _
      rw [splitComma_joinTokens _ (by simp)
        (fun t ht c hc => by
          obtain ⟨q, _, rfl⟩ := List.mem_map.mp ht
          exact intToChars_no_comma q.1 c hc)]
      rw [List.filterMap_map]
      refine filterMap_congr_some _ _ _ (fun q hq => ?_)
      have hb := hr q hq
      show (if trimChars (intToChars q.1) = [] then none
        else fromCharsInt intMinC intMaxC (trimChars (intToChars q.1))) = some q.1
      rw [trimChars_intToChars, if_neg (intToChars_ne_nil q.1),
        fromCharsInt_intToChars _ _ _ hb.1 hb.2]

/-- C10: comma-joining the keys of a well-formed (sorted, `int`-ranged)
map and parsing the result with the id-list parser returns exactly the
key list, ascending and duplicate-free. -/
theorem c10_idlist_roundtrip (al : AlarmMap)
    (hs : List.Chain' (fun p q => p.1 < q.1) al)
    (hr : ∀ p ∈ al, intMinC ≤ p.1 ∧ p.1 ≤ intMaxC) :
    ParseIdList (JoinIds al) = al.map (fun p => p.1) ∧
    List.Chain' (· < ·) (ParseIdList (JoinIds al)) ∧
    (ParseIdList (JoinIds al)).Nodup := by
  have main : ParseIdList (JoinIds al) = al.map (fun p => p.1) :=
    idlist_joinIds_eq al hr
  have sorted : List.Chain' (· < ·) (ParseIdList (JoinIds al)) := by
    rw [main]
    exact (List.chain'_map _).mpr hs
  refine ⟨main, sorted, ?_⟩
  have pw : List.Pairwise (· < ·) (ParseIdList (JoinIds al)) :=
    List.chain'_iff_pairwise.mp sorted
  exact List.Pairwise.imp (fun h => ne_of_lt h) pw

/-- Witness for C10 at a concrete three-alarm map. -/
theorem c10_idlist_roundtrip_witness :
    (List.Chain' (fun p q => p.1 < q.1)
      ([(-3, ⟨0, false, 0, "x", "ALARM1", -3⟩),
        (1, ⟨0, false, 0, "y", "ALARM2", 1⟩),
        (12, ⟨0, false, 0, "z", "ALARM3", 12⟩)] : AlarmMap)) ∧
    (∀ p ∈ ([(-3, ⟨0, false, 0, "x", "ALARM1", -3⟩),
        (1, ⟨0, false, 0, "y", "ALARM2", 1⟩),
        (12, ⟨0, false, 0, "z", "ALARM3", 12⟩)] : AlarmMap),
      intMinC ≤ p.1 ∧ p.1 ≤ intMaxC) ∧
    ParseIdList (JoinIds [(-3, ⟨0, false, 0, "x", "ALARM1", -3⟩),
        (1, ⟨0, false, 0, "y", "ALARM2", 1⟩),
        (12, ⟨0, false, 0, "z", "ALARM3", 12⟩)]) = [-3, 1, 12] :=
  ⟨by simp [List.chain'_cons], by decide,
    (c10_idlist_roundtrip _ (by simp [List.chain'_cons]) (by decide)).1⟩

/-! ## Claim C7: unknown-id mutations fail without side effects -/

/-- C7: for an id not in the store, `RemoveAlarm` returns false and
`UpdateAlarm` (on an alarm carrying that id) returns false, and both
leave the whole state (store, durable keys) untouched and do not touch
the scheduler. -/
theorem c7_unknown_id_mutations (st : MState) (id : Int) (alarm : Alarm)
    (now : Int) (h : lookupA st.alarms id = none) (ha : alarm.id = id) :
    RemoveAlarm st id now = (false, st, none) ∧
    UpdateAlarm st alarm now = (false, st, none) := by
  constructor
  · simp [RemoveAlarm, h]
  · simp [UpdateAlarm, ha, h]

/-- Witness for C7: removing and updating id 5 in a one-alarm store that
only holds id 2. -/
theorem c7_unknown_id_mutations_witness :
    lookupA ([(2, ⟨9, false, 0, "t", "ALARM1", 2⟩)] : AlarmMap) 5 = none ∧
    (⟨7, true, 3, "u", "ALARM2", 5⟩ : Alarm).id = 5 ∧
    (RemoveAlarm ⟨[(2, ⟨9, false, 0, "t", "ALARM1", 2⟩)], 3, []⟩ 5 100 =
      (false, ⟨[(2, ⟨9, false, 0, "t", "ALARM1", 2⟩)], 3, []⟩, none) ∧
     UpdateAlarm ⟨[(2, ⟨9, false, 0, "t", "ALARM1", 2⟩)], 3, []⟩
        ⟨7, true, 3, "u", "ALARM2", 5⟩ 100 =
      (false, ⟨[(2, ⟨9, false, 0, "t", "ALARM1", 2⟩)], 3, []⟩, none)) :=
  ⟨by decide, by decide,
    c7_unknown_id_mutations ⟨[(2, ⟨9, false, 0, "t", "ALARM1", 2⟩)], 3, []⟩ 5
      ⟨7, true, 3, "u", "ALARM2", 5⟩ 100 (by decide) (by decide)⟩

/-! ## Claim C9: parser validation -/

theorem c9_success_implies (a : JArgs) (r : AlarmScheduleRequest)
    (hr : ParseAlarmRequest (some a) = .ok r) : c9Conditions a := by
  rcases a with ⟨d, h, m, rp, iv⟩
  cases d <;> cases h <;> cases m <;> cases rp <;> cases iv <;>
    simp only [ParseAlarmRequest, GetOptionalInt, GetOptionalBool,
      ValidateRange, c9Conditions, fieldIn, bind, Except.bind, Option.isSome,
      Option.getD, Bool.and_true, Bool.and_false, Bool.or_true, Bool.or_false,
      Bool.true_and, Bool.false_and, Bool.true_or, Bool.false_or, Bool.not_true,
      Bool.not_false, if_true, if_false, reduceCtorEq, reduceIte] at hr ⊢ <;>
    first
      | exact hr.elim
      | (split_ifs at hr <;> simp_all <;> omega)
      | simp_all

/-- C9: the parser succeeds only when the claim's validation conditions
hold (exactly one of delay or hour-and-minute, ranges, and the
repeat/interval coupling), returns a descriptive error whenever they do
not, and rejects a non-object argument. -/
theorem c9_parser_validation (oa : Option JArgs) :
    ((∃ r, ParseAlarmRequest oa = .ok r) → ∃ a, oa = some a ∧ c9Conditions a) ∧
    (∀ a, oa = some a → ¬c9Conditions a →
      ∃ e, ParseAlarmRequest oa = .error e) ∧
    (oa = none → ParseAlarmRequest oa = .error .notObject) := by
  refine ⟨?_, ?_, ?_⟩
  · rintro ⟨r, hr⟩
    cases oa with
    | none => exact absurd hr (by simp [ParseAlarmRequest])
    | some a => exact ⟨a, rfl, c9_success_implies a r hr⟩
  · intro a ha hc
    subst ha
    rcases hp : ParseAlarmRequest (some a) with e | r
    · exact ⟨e, rfl⟩
    · exact absurd (c9_success_implies a r hp) hc
  · intro h
    subst h
    rfl

/-- Witness for C9: a request with `repeat = true` but no interval is
rejected. -/
theorem c9_parser_validation_witness :
    (some (⟨.num 5, .absent, .absent, .boolv true, .absent⟩ : JArgs) =
      some (⟨.num 5, .absent, .absent, .boolv true, .absent⟩ : JArgs)) ∧
    ¬c9Conditions ⟨.num 5, .absent, .absent, .boolv true, .absent⟩ ∧
    (∃ e, ParseAlarmRequest
      (some ⟨.num 5, .absent, .absent, .boolv true, .absent⟩) = .error e) :=
  ⟨rfl, by decide,
    (c9_parser_validation
        (some ⟨.num 5, .absent, .absent, .boolv true, .absent⟩)).2.1
      _ rfl (by decide)⟩

/-! ## Lemmas about the ordered alarm map -/

theorem mem_insertA (k : Int) (v : Alarm) (al : AlarmMap) (q : Int × Alarm)
    (h : q ∈ insertA k v al) : q = (k, v) ∨ q ∈ al := by
  induction al with
  | nil =>
    rw [insertA] at h
    rcases List.mem_singleton.mp h with h
    exact Or.inl h
  | cons p rest ih =>
    rw [insertA] at h
    split_ifs at h with h1 h2
    · rcases List.mem_cons.mp h with h | h
      · exact Or.inl h
      · exact Or.inr h
    · rcases List.mem_cons.mp h with h | h
      · exact Or.inl h
      · exact Or.inr (List.mem_cons_of_mem p h)
    · rcases List.mem_cons.mp h with h | h
      · exact Or.inr (h ▸ List.mem_cons_self p rest)
      · rcases ih h with h | h
        · exact Or.inl h
        · exact Or.inr (List.mem_cons_of_mem p h)

theorem mem_insertIfAbsentA (k : Int) (v : Alarm) (al : AlarmMap)
    (q : Int × Alarm) (h : q ∈ insertIfAbsentA k v al) : q = (k, v) ∨ q ∈ al := by
  induction al with
  | nil =>
    rw [insertIfAbsentA] at h
    exact Or.inl (List.mem_singleton.mp h)
  | cons p rest ih =>
    rw [insertIfAbsentA] at h
    split_ifs at h with h1 h2
    · rcases List.mem_cons.mp h with h | h
      · exact Or.inl h
      · exact Or.inr h
    · exact Or.inr h
    · rcases List.mem_cons.mp h with h | h
      · exact Or.inr (h ▸ List.mem_cons_self p rest)
      · rcases ih h with h | h
        · exact Or.inl h
        · exact Or.inr (List.mem_cons_of_mem p h)

theorem mem_eraseA (k : Int) (al : AlarmMap) (q : Int × Alarm)
    (h : q ∈ eraseA k al) : q ∈ al :=
  List.mem_of_mem_filter h

/-- The key-ordering relation of the store. -/
def keyLt (p q : Int × Alarm) : Prop := p.1 < q.1

instance : IsTrans (Int × Alarm) keyLt :=
  ⟨fun _ _ _ h1 h2 => lt_trans h1 h2⟩

theorem chain'_iff_pairwise_key (al : AlarmMap) :
    List.Chain' (fun p q => p.1 < q.1) al ↔ List.Pairwise keyLt al := by
  rw [show (fun (p q : Int × Alarm) => p.1 < q.1) = keyLt from rfl]
  exact List.chain'_iff_pairwise

theorem pairwise_insertA (k : Int) (v : Alarm) (al : AlarmMap)
    (hp : List.Pairwise keyLt al) : List.Pairwise keyLt (insertA k v al) := by
  induction al with
  | nil => exact List.pairwise_singleton keyLt (k, v)
  | cons p rest ih =>
    rw [List.pairwise_cons] at hp
    obtain ⟨hhead, hrest⟩ := hp
    rw [insertA]
    split_ifs with h1 h2
    · exact List.Pairwise.cons
        (fun q hq => by
          rcases List.mem_cons.mp hq with h | h
          · exact h ▸ h1
          · exact lt_trans h1 (hhead q h))
        (List.Pairwise.cons hhead hrest)
    · exact List.Pairwise.cons (fun q hq => h2 ▸ hhead q hq) hrest
    · refine List.Pairwise.cons (fun q hq => ?_) (ih hrest)
      rcases mem_insertA k v rest q hq with h | h
      · rw [h]
        show p.1 < k
        omega
      · exact hhead q h

theorem pairwise_insertIfAbsentA (k : Int) (v : Alarm) (al : AlarmMap)
    (hp : List.Pairwise keyLt al) :
    List.Pairwise keyLt (insertIfAbsentA k v al) := by
  induction al with
  | nil => exact List.pairwise_singleton keyLt (k, v)
  | cons p rest ih =>
    rw [List.pairwise_cons] at hp
    obtain ⟨hhead, hrest⟩ := hp
    rw [insertIfAbsentA]
    split_ifs with h1 h2
    · exact List.Pairwise.cons
        (fun q hq => by
          rcases List.mem_cons.mp hq with h | h
          · exact h ▸ h1
          · exact lt_trans h1 (hhead q h))
        (List.Pairwise.cons hhead hrest)
    · exact List.Pairwise.cons hhead hrest
    · refine List.Pairwise.cons (fun q hq => ?_) (ih hrest)
      rcases mem_insertIfAbsentA k v rest q hq with h | h
      · rw [h]
        show p.1 < k
        omega
      · exact hhead q h

theorem pairwise_eraseA (k : Int) (al : AlarmMap)
    (hp : List.Pairwise keyLt al) : List.Pairwise keyLt (eraseA k al) :=
  List.Pairwise.filter _ hp

theorem lookupA_insertA (k : Int) (v : Alarm) (al : AlarmMap) (k' : Int) :
    lookupA (insertA k v al) k' = if k' = k then some v else lookupA al k' := by
  induction al with
  | nil =>
    by_cases h : k' = k
    · subst h
      simp [insertA, lookupA]
    · simp [insertA, lookupA, h, Ne.symm h]
  | cons p rest ih =>
    rcases p with ⟨pk, pv⟩
    by_cases h1 : k < pk
    · rw [insertA, if_pos h1]
      by_cases h : k' = k
      · subst h
        simp [lookupA]
      · simp only [lookupA, if_neg (fun hh => h hh.symm : ¬k = k'), if_neg h]
    · by_cases h2 : k = pk
      · rw [insertA, if_neg h1, if_pos h2]
        subst h2
        by_cases h : k' = k
        · subst h
          simp [lookupA]
        · simp only [lookupA, if_neg (fun hh => h hh.symm : ¬k = k'), if_neg h]
      · rw [insertA, if_neg h1, if_neg h2]
        by_cases h : pk = k'
        · subst h
          have hnk : ¬pk = k := by omega
          rw [if_neg hnk, lookupA, if_pos rfl, lookupA, if_pos rfl]
        · simp only [lookupA, if_neg h, ih]

theorem lookupA_eraseA (k : Int) (al : AlarmMap) (k' : Int) :
    lookupA (eraseA k al) k' = if k' = k then none else lookupA al k' := by
  induction al with
  | nil =>
    by_cases h : k' = k <;> simp [eraseA, lookupA, h]
  | cons p rest ih =>
    rcases p with ⟨pk, pv⟩
    by_cases hp : pk = k
    · have he : eraseA k ((pk, pv) :: rest) = eraseA k rest := by
        simp [eraseA, List.filter_cons, hp]
      rw [he, ih]
      by_cases h : k' = k
      · rw [if_pos h, if_pos h]
      · rw [if_neg h, if_neg h, lookupA, if_neg (by omega : ¬pk = k')]
    · have he : eraseA k ((pk, pv) :: rest) = (pk, pv) :: eraseA k rest := by
        simp [eraseA, List.filter_cons, hp]
      rw [he]
      by_cases h : pk = k'
      · rw [lookupA, if_pos h, if_neg (by omega : ¬k' = k), lookupA, if_pos h]
      · rw [lookupA, if_neg h, ih]
        by_cases hk : k' = k
        · rw [if_pos hk, if_pos hk]
        · rw [if_neg hk, if_neg hk, lookupA, if_neg h]

theorem lookupA_none_of_head_gt (k : Int) (p : Int × Alarm) (rest : AlarmMap)
    (hp : List.Pairwise keyLt (p :: rest)) (hk : k < p.1) :
    lookupA (p :: rest) k = none := by
  induction rest generalizing p with
  | nil =>
    rcases p with ⟨pk, pv⟩
    have hk' : k < pk := hk
    rw [lookupA, if_neg (by omega : ¬pk = k), lookupA]
  | cons q rest ih =>
    rcases p with ⟨pk, pv⟩
    rw [List.pairwise_cons] at hp
    obtain ⟨hhead, hrest⟩ := hp
    have hk' : k < pk := hk
    rw [lookupA, if_neg (by omega : ¬pk = k)]
    exact ih q hrest (lt_trans hk' (hhead q (List.mem_cons_self q rest)))

theorem lookupA_insertIfAbsentA (k : Int) (v : Alarm) (al : AlarmMap)
    (k' : Int) (hp : List.Pairwise keyLt al) :
    lookupA (insertIfAbsentA k v al) k' =
      if k' = k then some ((lookupA al k).getD v) else lookupA al k' := by
  induction al with
  | nil =>
    by_cases h : k' = k
    · subst h
      simp [insertIfAbsentA, lookupA]
    · simp [insertIfAbsentA, lookupA, h, Ne.symm h]
  | cons p rest ih =>
    rcases p with ⟨pk, pv⟩
    rw [List.pairwise_cons] at hp
    obtain ⟨hhead, hrest⟩ := hp
    by_cases h1 : k < pk
    · rw [insertIfAbsentA, if_pos h1]
      have hnone : lookupA ((pk, pv) :: rest) k = none :=
        lookupA_none_of_head_gt k (pk, pv) rest
          (List.Pairwise.cons hhead hrest) h1
      by_cases h : k' = k
      · subst h
        rw [lookupA, if_pos rfl, if_pos rfl, hnone]
        rfl
      · rw [lookupA, if_neg (fun hh => h hh.symm : ¬k = k'), if_neg h]
    · by_cases h2 : k = pk
      · rw [insertIfAbsentA, if_neg h1, if_pos h2]
        subst h2
        by_cases h : k' = k
        · subst h
          simp [lookupA]
        · rw [if_neg h]
      · rw [insertIfAbsentA, if_neg h1, if_neg h2]
        by_cases h : pk = k'
        · subst h
          have hnk : ¬pk = k := by omega
          simp [lookupA, hnk]
        · rw [lookupA, if_neg h, ih hrest]
          by_cases hk : k' = k
          · rw [if_pos hk, if_pos hk, lookupA, if_neg (by omega : ¬pk = k)]
          · rw [if_neg hk, if_neg hk, lookupA, if_neg h]

theorem lookupA_mem (al : AlarmMap) (k : Int) (v : Alarm)
    (h : lookupA al k = some v) : (k, v) ∈ al := by
  induction al with
  | nil => exact absurd h (by rw [lookupA]; simp)
  | cons p rest ih =>
    rcases p with ⟨pk, pv⟩
    rw [lookupA] at h
    by_cases hh : pk = k
    · rw [if_pos hh] at h
      injection h with h
      subst hh
      subst h
      exact List.mem_cons_self _ _
    · rw [if_neg hh] at h
      exact List.mem_cons_of_mem _ (ih h)

theorem mem_lookupA (al : AlarmMap) (k : Int) (v : Alarm)
    (hp : List.Pairwise keyLt al) (h : (k, v) ∈ al) : lookupA al k = some v := by
  induction al with
  | nil => exact absurd h (List.not_mem_nil _)
  | cons p rest ih =>
    rcases p with ⟨pk, pv⟩
    rw [List.pairwise_cons] at hp
    obtain ⟨hhead, hrest⟩ := hp
    rcases List.mem_cons.mp h with h1 | h1
    · injection h1 with h1 h2
      rw [lookupA, if_pos h1.symm, h2]
    · have hne : pk ≠ k := by
        have h2 := hhead (k, v) h1
        simp only [keyLt] at h2
        omega
      rw [lookupA, if_neg hne]
      exact ih hrest h1

/-! ## Claim C4: the id-counter invariant and allocation rule -/

/-- The id invariant: the counter is positive and strictly greater than
every id in the store. -/
def IdInv (st : MState) : Prop :=
  1 ≤ st.next_alarm_id ∧ ∀ p ∈ st.alarms, p.1 < st.next_alarm_id

instance : DecidablePred IdInv := fun st => by
  unfold IdInv; infer_instance

theorem mem_dispatchPhase1 (now : Int) (al : AlarmMap) (st : Settings)
    (due : List Int) (q : Int × Alarm)
    (h : q ∈ (dispatchPhase1 now al st due).1) : q.1 ∈ due ∨ q ∈ al := by
  induction due generalizing al st with
  | nil => exact Or.inr h
  | cons id rest ih =>
    rw [dispatchPhase1] at h
    rcases hl : lookupA al id with _ | a
    · simp only [hl] at h
      rcases ih al st h with h | h
      · exact Or.inl (List.mem_cons_of_mem id h)
      · exact Or.inr h
    · simp only [hl] at h
      by_cases hc : a.repeat_ = true ∧ a.interval > 0
      · rw [if_pos hc] at h
        simp only at h
        rcases ih _ _ h with h | h
        · exact Or.inl (List.mem_cons_of_mem id h)
        · rcases mem_insertA _ _ _ _ h with h | h
          · exact Or.inl (by rw [h]; exact List.mem_cons_self id rest)
          · exact Or.inr h
      · rw [if_neg hc] at h
        simp only at h
        rcases ih al st h with h | h
        · exact Or.inl (List.mem_cons_of_mem id h)
        · exact Or.inr h

theorem mem_dispatchPhase2 (al : AlarmMap) (st : Settings) (rids : List Int)
    (q : Int × Alarm) (h : q ∈ (dispatchPhase2 al st rids).1) : q ∈ al := by
  induction rids generalizing al st with
  | nil => exact h
  | cons id rest ih =>
    rw [dispatchPhase2] at h
    rcases hl : lookupA al id with _ | a
    · simp only [hl] at h
      exact ih al st h
    · simp only [hl] at h
      exact mem_eraseA id al q (ih _ _ h)

theorem mem_OnSchedulerTimer (st : MState) (now : Int) (q : Int × Alarm)
    (h : q ∈ (OnSchedulerTimer st now).1.alarms) :
    ∃ p ∈ st.alarms, q.1 = p.1 ∨ q = p := by
  rw [OnSchedulerTimer] at h
  by_cases hd : dueList st now = []
  · rw [if_pos hd] at h
    exact ⟨q, h, Or.inr rfl⟩
  · rw [if_neg hd] at h
    simp only [dispatchR2, dispatchR1] at h
    have h2 := mem_dispatchPhase2 _ _ _ q h
    rcases mem_dispatchPhase1 now st.alarms st.settings _ q h2 with h3 | h3
    · obtain ⟨p, hp, hpq⟩ := List.mem_map.mp h3
      exact ⟨p, List.mem_of_mem_filter hp, Or.inl hpq.symm⟩
    · exact ⟨q, h3, Or.inr rfl⟩

theorem loadList_pairwise (tmin tmax : Int) (al : AlarmMap) (st : Settings)
    (ids : List Int) (hp : List.Pairwise keyLt al) :
    List.Pairwise keyLt (loadList tmin tmax al st ids).1 := by
  induction ids generalizing al st with
  | nil => exact hp
  | cons id rest ih =>
    rw [loadList]
    rcases ho : (loadOne tmin tmax st id).1 with _ | a
    · simp only [ho]
      exact ih al _ hp
    · simp only [ho]
      exact ih _ _ (pairwise_insertIfAbsentA id a al hp)

theorem mem_le_getLast (al : AlarmMap) (hp : List.Pairwise keyLt al)
    (p : Int × Alarm) (hl : al.getLast? = some p) :
    ∀ q ∈ al, q.1 ≤ p.1 := by
  induction al with
  | nil => simp at hl
  | cons x rest ih =>
    rw [List.pairwise_cons] at hp
    obtain ⟨hhead, hrest⟩ := hp
    intro q hq
    cases rest with
    | nil =>
      rw [List.getLast?_singleton] at hl
      injection hl with hl
      rcases List.mem_cons.mp hq with h | h
      · rw [h, ← hl]
      · exact absurd h (List.not_mem_nil q)
    | cons y rest' =>
      rw [List.getLast?_cons_cons] at hl
      rcases List.mem_cons.mp hq with h | h
      · have hpm : p ∈ y :: rest' := List.mem_of_mem_getLast? hl
        have := hhead p hpm
        simp only [keyLt] at this
        rw [h]
        omega
      · exact ih hrest hl q h

theorem restoreNextId_spec (al : AlarmMap) (nid0 : Int)
    (hp : List.Pairwise keyLt al) :
    1 ≤ restoreNextId al nid0 ∧ ∀ q ∈ al, q.1 < restoreNextId al nid0 := by
  rcases hgl : al.getLast? with _ | p
  · have hnil : al = [] := List.getLast?_eq_none.mp hgl
    subst hnil
    constructor
    · simp only [restoreNextId, hgl]
      split_ifs <;> omega
    · intro q hq
      exact absurd hq (List.not_mem_nil q)
  · have hle := mem_le_getLast al hp p hgl
    constructor
    · simp only [restoreNextId, hgl]
      split_ifs <;> omega
    · intro q hq
      have hq1 := hle q hq
      simp only [restoreNextId, hgl]
      split_ifs <;> omega

theorem mem_AddAlarm (st : MState) (alarm : Alarm) (now : Int)
    (q : Int × Alarm) (h : q ∈ (AddAlarm st alarm now).2.1.alarms) :
    q.1 = (AddAlarm st alarm now).1 ∨ q ∈ st.alarms := by
  simp only [AddAlarm] at h ⊢
  rcases mem_insertA _ _ _ _ h with h | h
  · exact Or.inl (by rw [h])
  · exact Or.inr h

theorem mem_UpdateAlarm (st : MState) (alarm : Alarm) (now : Int)
    (q : Int × Alarm) (h : q ∈ (UpdateAlarm st alarm now).2.1.alarms) :
    q.1 = alarm.id ∨ q ∈ st.alarms := by
  rcases hl : lookupA st.alarms alarm.id with _ | a
  · simp only [UpdateAlarm, hl] at h
    exact Or.inr h
  · simp only [UpdateAlarm, hl] at h
    rcases mem_insertA _ _ _ _ h with h | h
    · left
      rw [h]
  
    · exact Or.inr h

/-- C4: `next_id` stays strictly greater than every stored id (and is at
least 1) across AddAlarm, RemoveAlarm, UpdateAlarm, a full load and a
dispatcher pass; AddAlarm allocates per the rule (non-positive caller id
gets the counter value and bumps it, a caller id at or past the counter
advances the counter to id + 1, and the returned id is positive). -/
theorem c4_next_id_invariant :
    (∀ st alarm now, IdInv st →
      IdInv (AddAlarm st alarm now).2.1 ∧
      0 < (AddAlarm st alarm now).1 ∧
      (alarm.id ≤ 0 →
        (AddAlarm st alarm now).1 = st.next_alarm_id ∧
        (AddAlarm st alarm now).2.1.next_alarm_id = st.next_alarm_id + 1) ∧
      (st.next_alarm_id ≤ alarm.id →
        (AddAlarm st alarm now).1 = alarm.id ∧
        (AddAlarm st alarm now).2.1.next_alarm_id = alarm.id + 1) ∧
      (0 < alarm.id → alarm.id < st.next_alarm_id →
        (AddAlarm st alarm now).1 = alarm.id ∧
        (AddAlarm st alarm now).2.1.next_alarm_id = st.next_alarm_id)) ∧
    (∀ st id now, IdInv st → IdInv (RemoveAlarm st id now).2.1) ∧
    (∀ st alarm now, IdInv st → IdInv (UpdateAlarm st alarm now).2.1) ∧
    (∀ tmin tmax s, IdInv (LoadAlarms tmin tmax s)) ∧
    (∀ st now, IdInv st → IdInv (OnSchedulerTimer st now).1) := by
  refine ⟨?_, ?_, ?_, ?_, ?_⟩
  · intro st alarm now hinv
    obtain ⟨h1, h2⟩ := hinv
    have key : ∀ q ∈ (AddAlarm st alarm now).2.1.alarms,
        q.1 = (AddAlarm st alarm now).1 ∨ q ∈ st.alarms :=
      fun q hq => mem_AddAlarm st alarm now q hq
    by_cases h0 : alarm.id ≤ 0
    · have e1 : (AddAlarm st alarm now).1 = st.next_alarm_id := by
        simp [AddAlarm, h0]
      have e2 : (AddAlarm st alarm now).2.1.next_alarm_id =
          st.next_alarm_id + 1 := by
        simp [AddAlarm, h0]
      refine ⟨⟨by omega, ?_⟩, by omega, fun _ => ⟨e1, e2⟩,
        fun hge => by omega, fun hpos _ => by omega⟩
      intro q hq
      rw [e2]
      rcases key q hq with h | h
      · rw [h, e1]
        omega
      · have := h2 q h
        omega
    · by_cases hg : st.next_alarm_id ≤ alarm.id
      · have e1 : (AddAlarm st alarm now).1 = alarm.id := by
          simp [AddAlarm, h0, hg]
        have e2 : (AddAlarm st alarm now).2.1.next_alarm_id = alarm.id + 1 := by
          simp [AddAlarm, h0, hg]
        refine ⟨⟨by omega, ?_⟩, by omega, fun hle => by omega,
          fun _ => ⟨e1, e2⟩, fun _ hlt => by omega⟩
        intro q hq
        rw [e2]
        rcases key q hq with h | h
        · rw [h, e1]
          omega
        · have := h2 q h
          omega
      · have e1 : (AddAlarm st alarm now).1 = alarm.id := by
          simp [AddAlarm, h0, hg]
        have e2 : (AddAlarm st alarm now).2.1.next_alarm_id =
            st.next_alarm_id := by
          simp [AddAlarm, h0, hg]
        refine ⟨⟨by omega, ?_⟩, by omega, fun hle => by omega,
          fun hge => by omega, fun _ _ => ⟨e1, e2⟩⟩
        intro q hq
        rw [e2]
        rcases key q hq with h | h
        · rw [h, e1]
          omega
        · exact h2 q h
  · intro st id now hinv
    obtain ⟨h1, h2⟩ := hinv
    rcases hl : lookupA st.alarms id with _ | a
    · simpa [RemoveAlarm, hl] using ⟨h1, h2⟩
    · refine ⟨?_, ?_⟩ <;> simp only [RemoveAlarm, hl]
      · exact h1
      · intro q hq
        exact h2 q (mem_eraseA id st.alarms q hq)
  · intro st alarm now hinv
    obtain ⟨h1, h2⟩ := hinv
    rcases hl : lookupA st.alarms alarm.id with _ | a
    · simpa [UpdateAlarm, hl] using ⟨h1, h2⟩
    · have e2 : (UpdateAlarm st alarm now).2.1.next_alarm_id =
          st.next_alarm_id := by
        simp [UpdateAlarm, hl]
      refine ⟨by rw [e2]; exact h1, ?_⟩
      intro q hq
      rw [e2]
      rcases mem_UpdateAlarm st alarm now q hq with h | h
      · rw [h]
        exact h2 (alarm.id, a) (lookupA_mem _ _ _ hl)
      · exact h2 q h
  · intro tmin tmax s
    have hpw : List.Pairwise keyLt (LoadAlarms tmin tmax s).alarms := by
      by_cases hids : GetString s kAlarmIdsKey "" ≠ ""
      · simp only [LoadAlarms, if_pos hids]
        exact loadList_pairwise _ _ _ _ _ List.Pairwise.nil
      · simp only [LoadAlarms, if_neg hids]
        exact List.Pairwise.nil
    have hnid : (LoadAlarms tmin tmax s).next_alarm_id =
        restoreNextId (LoadAlarms tmin tmax s).alarms
          (GetInt (LoadAlarms tmin tmax s).settings kNextIdKey 1) := by
      simp only [LoadAlarms]
    obtain ⟨hs1, hs2⟩ := restoreNextId_spec (LoadAlarms tmin tmax s).alarms
      (GetInt (LoadAlarms tmin tmax s).settings kNextIdKey 1) hpw
    exact ⟨by rw [hnid]; exact hs1, fun q hq => by rw [hnid]; exact hs2 q hq⟩
  · intro st now hinv
    obtain ⟨h1, h2⟩ := hinv
    have e2 : (OnSchedulerTimer st now).1.next_alarm_id = st.next_alarm_id := by
      rw [OnSchedulerTimer]
      split <;> rfl
    refine ⟨by rw [e2]; exact h1, ?_⟩
    intro q hq
    rw [e2]
    obtain ⟨p, hp, hqp⟩ := mem_OnSchedulerTimer st now q hq
    rcases hqp with h | h
    · rw [h]
      exact h2 p hp
    · rw [h]
      exact h2 p hp

/-- Witness for C4: adding an alarm with caller id 0 to a store holding
id 2 with counter 3. -/
theorem c4_next_id_invariant_witness :
    IdInv ⟨[(2, ⟨9, false, 0, "t", "ALARM1", 2⟩)], 3, []⟩ ∧
    IdInv (AddAlarm ⟨[(2, ⟨9, false, 0, "t", "ALARM1", 2⟩)], 3, []⟩
      ⟨8, false, 0, "n", "ALARM2", 0⟩ 100).2.1 ∧
    0 < (AddAlarm ⟨[(2, ⟨9, false, 0, "t", "ALARM1", 2⟩)], 3, []⟩
      ⟨8, false, 0, "n", "ALARM2", 0⟩ 100).1 :=
  have h := (c4_next_id_invariant.1 ⟨[(2, ⟨9, false, 0, "t", "ALARM1", 2⟩)], 3, []⟩
    ⟨8, false, 0, "n", "ALARM2", 0⟩ 100 (by decide))
  ⟨by decide, h.1, h.2.1⟩

/-! ## Settings effects of PersistAlarm and RemoveAlarmFromStorage -/

/-- The typed value `PersistAlarm` writes for each field. -/
def persistVal (f : FieldK) (a : Alarm) : SVal :=
  match f with
  | .fname => .s a.name
  | .ftime => .s (intToString a.time)
  | .frep => .b a.repeat_
  | .fintv => .i a.interval
  | .fsound => .s (NormalizeSound a.sound)

theorem getVal_PersistAlarm_own (a : Alarm) (st : Settings) (f : FieldK) :
    getVal (PersistAlarm a st) (newKey f a.id) = some (persistVal f a) := by
  have hne : ∀ (f g : FieldK), f ≠ g → newKey f a.id ≠ newKey g a.id :=
    fun f g hfg h => hfg (newKey_inj f g _ _ h).1
  cases f <;>
    simp only [PersistAlarm, persistVal, getVal_setVal] <;>
    split_ifs <;> simp_all <;>
    exact absurd (newKey_inj _ _ _ _ (by assumption)).1 (by decide)

theorem getVal_PersistAlarm_other (a : Alarm) (st : Settings) (k : String)
    (hk : ∀ f, k ≠ newKey f a.id) :
    getVal (PersistAlarm a st) k = getVal st k := by
  simp only [PersistAlarm, getVal_setVal]
  rw [if_neg (hk .fsound), if_neg (hk .fintv), if_neg (hk .frep),
    if_neg (hk .ftime), if_neg (hk .fname)]

theorem getVal_RFS_new (id : Int) (st : Settings) (f : FieldK) :
    getVal (RemoveAlarmFromStorage id st) (newKey f id) = none := by
  cases f <;>
    simp only [RemoveAlarmFromStorage, getVal_eraseKey] <;>
    split_ifs <;> simp_all

theorem getVal_RFS_leg (id : Int) (st : Settings) (f : FieldK) :
    getVal (RemoveAlarmFromStorage id st) (legKey f id) = none := by
  cases f <;>
    simp only [RemoveAlarmFromStorage, getVal_eraseKey] <;>
    split_ifs <;> simp_all

theorem getVal_RFS_other (id : Int) (st : Settings) (k : String)
    (hk : ∀ f, k ≠ newKey f id ∧ k ≠ legKey f id) :
    getVal (RemoveAlarmFromStorage id st) k = getVal st k := by
  simp only [RemoveAlarmFromStorage, getVal_eraseKey]
  rw [if_neg (hk .fsound).2, if_neg (hk .fintv).2, if_neg (hk .frep).2,
    if_neg (hk .ftime).2, if_neg (hk .fname).2, if_neg (hk .fsound).1,
    if_neg (hk .fintv).1, if_neg (hk .frep).1, if_neg (hk .ftime).1,
    if_neg (hk .fname).1]

/-! ## The advance loop -/

theorem advanceLoopAux_spec (fuel : Nat) : ∀ (ivs now t : Int), 0 < ivs →
    (now + 1 - t).toNat < fuel →
    ∃ k : Nat, advanceLoopAux fuel ivs now t = t + k * ivs ∧
      now < t + k * ivs ∧ (k = 0 ∨ t + k * ivs - ivs ≤ now) := by
  induction fuel with
  | zero =>
    intro ivs now t _ h
    omega
  | succ fuel ih =>
    intro ivs now t hiv hf
    rw [advanceLoopAux]
    by_cases ht : t ≤ now
    · rw [if_pos ht]
      obtain ⟨k, e, h2, h3⟩ := ih ivs now (t + ivs) hiv (by omega)
      have hexp : ((k : Int) + 1) * ivs = (k : Int) * ivs + ivs := by ring
      refine ⟨k + 1, ?_, ?_, Or.inr ?_⟩
      · rw [e]
        push_cast
        ring
      · push_cast
        rw [hexp]
        linarith
    
      · push_cast
        rw [hexp]
        rcases h3 with h3 | h3
        · subst h3
          simp only [Nat.cast_zero, zero_mul, add_zero] at h2 ⊢
          linarith
        · linarith
    · rw [if_neg ht]
      exact ⟨0, by push_cast; ring, by push_cast; omega, Or.inl rfl⟩

theorem advanceLoop_spec (ivs now t : Int) (hiv : 0 < ivs) :
    ∃ k : Nat, advanceLoop ivs now t = t + k * ivs ∧
      now < t + k * ivs ∧ (k = 0 ∨ t + k * ivs - ivs ≤ now) :=
  advanceLoopAux_spec _ ivs now t hiv (by omega)

theorem advancedAlarm_spec (a : Alarm) (now : Int) (hrep : 0 < a.interval)
    (hdue : a.time ≤ now) :
    ∃ k : Nat, 1 ≤ k ∧
      (advancedAlarm a now).time = a.time + k * (a.interval * 60) ∧
      now < (advancedAlarm a now).time ∧
      (advancedAlarm a now).time - a.interval * 60 ≤ now := by
  have hiv : (0 : Int) < a.interval * 60 := by omega
  have hgu : (if a.interval * 60 ≤ 0 then (60 : Int) else a.interval * 60) =
      a.interval * 60 := if_neg (by omega)
  have e : (advancedAlarm a now).time =
      advanceLoop (a.interval * 60) now (a.time + a.interval * 60) := by
    simp only [advancedAlarm, hgu]
  obtain ⟨k, e2, h2, h3⟩ :=
    advanceLoop_spec (a.interval * 60) now (a.time + a.interval * 60) hiv
  have hexp : a.time + a.interval * 60 + (k : Int) * (a.interval * 60) =
      a.time + ((k : Int) + 1) * (a.interval * 60) := by ring
  refine ⟨k + 1, by omega, ?_, ?_, ?_⟩
  · rw [e, e2]
    push_cast
    ring
  · rw [e, e2, hexp]
    push_cast
    rw [hexp] at h2
    push_cast at h2
    exact h2
  · rw [e, e2]
    rcases h3 with h3 | h3
    · subst h3
      simp only [Nat.cast_zero, zero_mul, add_zero]
      omega
    · push_cast
      linarith

/-! ## Per-alarm analysis of the dispatcher -/

theorem WFids_insertA (al : AlarmMap) (k : Int) (v : Alarm)
    (hwf : ∀ p ∈ al, p.2.id = p.1) (hv : v.id = k) :
    ∀ p ∈ insertA k v al, p.2.id = p.1 := by
  intro p hp
  rcases mem_insertA _ _ _ _ hp with h | h
  · rw [h]
    exact hv
  · exact hwf p h

theorem dispatchPhase1_lookup_notin (now : Int) (al : AlarmMap) (st : Settings)
    (due : List Int) (id : Int) (hid : id ∉ due) :
    lookupA (dispatchPhase1 now al st due).1 id = lookupA al id := by
  induction due generalizing al st with
  | nil => rfl
  | cons id0 rest ih =>
    have hne : id ≠ id0 := fun h => hid (h ▸ List.mem_cons_self id0 rest)
    have hrest : id ∉ rest := fun h => hid (List.mem_cons_of_mem id0 h)
    rw [dispatchPhase1]
    rcases hl : lookupA al id0 with _ | a
    · simp only [hl]
      exact ih al st hrest
    · simp only [hl]
      by_cases hc : a.repeat_ = true ∧ a.interval > 0
      · rw [if_pos hc]
        simp only []
        rw [ih _ _ hrest, lookupA_insertA, if_neg hne]
      · rw [if_neg hc]
        simp only []
        exact ih al st hrest

theorem dispatchPhase1_getVal_frame (now : Int) (al : AlarmMap) (st : Settings)
    (due : List Int) (hwf : ∀ p ∈ al, p.2.id = p.1) (k : String)
    (hk : ∀ (f : FieldK), ∀ id' ∈ due, k ≠ newKey f id') :
    getVal (dispatchPhase1 now al st due).2.1 k = getVal st k := by
  induction due generalizing al st with
  | nil => rfl
  | cons id0 rest ih =>
    rw [dispatchPhase1]
    rcases hl : lookupA al id0 with _ | a
    · simp only [hl]
      exact ih al st hwf (fun f id' h => hk f id' (List.mem_cons_of_mem id0 h))
    · simp only [hl]
      have haid : a.id = id0 := hwf (id0, a) (lookupA_mem _ _ _ hl)
      have haid' : (advancedAlarm a now).id = id0 := by
        simp only [advancedAlarm]
        exact haid
      by_cases hc : a.repeat_ = true ∧ a.interval > 0
      · rw [if_pos hc]
        simp only []
        rw [ih _ _
          (WFids_insertA al id0 (advancedAlarm a now) hwf haid')
          (fun f id' h => hk f id' (List.mem_cons_of_mem id0 h))]
        refine getVal_PersistAlarm_other _ _ _ (fun f => ?_)
        rw [haid']
        exact hk f id0 (List.mem_cons_self id0 rest)
      · rw [if_neg hc]
        simp only []
        exact ih al st hwf (fun f id' h => hk f id' (List.mem_cons_of_mem id0 h))

theorem dispatchPhase1_rids (now : Int) (al : AlarmMap) (st : Settings)
    (due : List Int) (hnd : due.Nodup) :
    (dispatchPhase1 now al st due).2.2.1 ⊆ due ∧
    (dispatchPhase1 now al st due).2.2.1.Nodup := by
  induction due generalizing al st with
  | nil => exact ⟨fun x h => h, List.nodup_nil⟩
  | cons id0 rest ih =>
    rw [List.nodup_cons] at hnd
    obtain ⟨hni, hnd'⟩ := hnd
    rw [dispatchPhase1]
    rcases hl : lookupA al id0 with _ | a
    · simp only [hl]
      obtain ⟨h1, h2⟩ := ih al st hnd'
      exact ⟨fun x h => List.mem_cons_of_mem id0 (h1 h), h2⟩
    · simp only [hl]
      by_cases hc : a.repeat_ = true ∧ a.interval > 0
      · rw [if_pos hc]
        simp only []
        obtain ⟨h1, h2⟩ := ih _ _ hnd'
        exact ⟨fun x h => List.mem_cons_of_mem id0 (h1 h), h2⟩
      · rw [if_neg hc]
        simp only []
        obtain ⟨h1, h2⟩ := ih al st hnd'
        refine ⟨?_, ?_⟩
        · intro x h
          rcases List.mem_cons.mp h with h | h
          · exact h ▸ List.mem_cons_self id0 rest
          · exact List.mem_cons_of_mem id0 (h1 h)
        · exact List.Nodup.cons (fun h => hni (h1 h)) h2

theorem dispatchPhase1_process (now : Int) (al : AlarmMap) (st : Settings)
    (due : List Int) (hnd : due.Nodup) (hwf : ∀ p ∈ al, p.2.id = p.1)
    (id : Int) (hid : id ∈ due) (a : Alarm) (hl : lookupA al id = some a) :
    (a.repeat_ = true ∧ a.interval > 0 →
      lookupA (dispatchPhase1 now al st due).1 id = some (advancedAlarm a now) ∧
      id ∉ (dispatchPhase1 now al st due).2.2.1 ∧
      (∀ f, getVal (dispatchPhase1 now al st due).2.1 (newKey f id) =
        some (persistVal f (advancedAlarm a now))) ∧
      (∀ f, getVal (dispatchPhase1 now al st due).2.1 (legKey f id) =
        getVal st (legKey f id))) ∧
    (¬(a.repeat_ = true ∧ a.interval > 0) →
      lookupA (dispatchPhase1 now al st due).1 id = some a ∧
      id ∈ (dispatchPhase1 now al st due).2.2.1 ∧
      (∀ f, getVal (dispatchPhase1 now al st due).2.1 (newKey f id) =
          getVal st (newKey f id) ∧
        getVal (dispatchPhase1 now al st due).2.1 (legKey f id) =
          getVal st (legKey f id))) := by
  induction due generalizing al st with
  | nil => exact absurd hid (List.not_mem_nil id)
  | cons id0 rest ih =>
    rw [List.nodup_cons] at hnd
    obtain ⟨hni, hnd'⟩ := hnd
    by_cases hhead : id = id0
    · subst hhead
      rw [dispatchPhase1]
      simp only [hl]
      have haid : a.id = id := hwf (id, a) (lookupA_mem _ _ _ hl)
      have haid' : (advancedAlarm a now).id = id := by
        simp only [advancedAlarm]
        exact haid
      constructor
      · intro hc
        rw [if_pos hc]
        simp only []
        refine ⟨?_, ?_, ?_, ?_⟩
        · rw [dispatchPhase1_lookup_notin now _ _ rest id hni,
            lookupA_insertA, if_pos rfl]
        · intro hmem
          exact hni ((dispatchPhase1_rids now _ _ rest hnd').1 hmem)
        · intro f
          rw [dispatchPhase1_getVal_frame now _ _ rest
            (WFids_insertA al id (advancedAlarm a now) hwf haid')
            (newKey f id) (fun g id' hid' h => hni (by
              rcases newKey_inj f g id id' h with ⟨_, h2⟩
              exact h2 ▸ hid'))]
          have := getVal_PersistAlarm_own (advancedAlarm a now) st f
          rw [haid'] at this
          exact this
        · intro f
          rw [dispatchPhase1_getVal_frame now _ _ rest
            (WFids_insertA al id (advancedAlarm a now) hwf haid')
            (legKey f id) (fun g id' hid' h =>
              newKey_ne_legKey g f id' id h.symm)]
          refine getVal_PersistAlarm_other _ _ _ (fun g => ?_)
          rw [haid']
          exact fun h => newKey_ne_legKey g f id id h.symm
      · intro hc
        rw [if_neg hc]
        simp only []
        refine ⟨?_, ?_, ?_⟩
        · rw [dispatchPhase1_lookup_notin now _ _ rest id hni]
          exact hl
        · exact List.mem_cons_self id _
        · intro f
          constructor
          · exact dispatchPhase1_getVal_frame now _ _ rest hwf _
              (fun g id' hid' h => hni (by
                rcases newKey_inj f g id id' h with ⟨_, h2⟩
                exact h2 ▸ hid'))
          · exact dispatchPhase1_getVal_frame now _ _ rest hwf _
              (fun g id' hid' h => newKey_ne_legKey g f id' id h.symm)
    · have hidr : id ∈ rest := by
        rcases List.mem_cons.mp hid with h | h
        · exact absurd h hhead
        · exact h
      rw [dispatchPhase1]
      rcases hl0 : lookupA al id0 with _ | a0
      · simp only [hl0]
        exact ih al st hnd' hwf hidr hl
      · simp only [hl0]
        have ha0id : a0.id = id0 := hwf (id0, a0) (lookupA_mem _ _ _ hl0)
        have ha0id' : (advancedAlarm a0 now).id = id0 := by
          simp only [advancedAlarm]
          exact ha0id
        by_cases hc0 : a0.repeat_ = true ∧ a0.interval > 0
        · rw [if_pos hc0]
          simp only []
          have hl' : lookupA (insertA id0 (advancedAlarm a0 now) al) id =
              some a := by
            rw [lookupA_insertA, if_neg hhead]
            exact hl
          have hwf' := WFids_insertA al id0 (advancedAlarm a0 now) hwf ha0id'
          have hres := ih _ (PersistAlarm (advancedAlarm a0 now) st) hnd'
            hwf' hidr hl'
          have hkeysn : ∀ f, getVal (PersistAlarm (advancedAlarm a0 now) st)
              (newKey f id) = getVal st (newKey f id) := by
            intro f
            refine getVal_PersistAlarm_other _ _ _ (fun g => ?_)
            rw [ha0id']
            intro h
            rcases newKey_inj f g id id0 h with ⟨_, h2⟩
            exact hhead h2
          have hkeysl : ∀ f, getVal (PersistAlarm (advancedAlarm a0 now) st)
              (legKey f id) = getVal st (legKey f id) := by
            intro f
            refine getVal_PersistAlarm_other _ _ _ (fun g => ?_)
            rw [ha0id']
            exact fun h => newKey_ne_legKey g f id0 id h.symm
          constructor
          · intro hc
            obtain ⟨e1, e2, e3, e4⟩ := hres.1 hc
            exact ⟨e1, e2, fun f => by rw [e3 f], fun f => by
              rw [e4 f, hkeysl f]⟩
          · intro hc
            obtain ⟨e1, e2, e3⟩ := hres.2 hc
            exact ⟨e1, e2, fun f => ⟨by rw [(e3 f).1, hkeysn f],
              by rw [(e3 f).2, hkeysl f]⟩⟩
        · rw [if_neg hc0]
          simp only []
          have hres := ih al st hnd' hwf hidr hl
          constructor
          · intro hc
            obtain ⟨e1, e2, e3, e4⟩ := hres.1 hc
            refine ⟨e1, ?_, e3, e4⟩
            intro hmem
            rcases List.mem_cons.mp hmem with h | h
            · exact hhead h
            · exact e2 h
          · intro hc
            obtain ⟨e1, e2, e3⟩ := hres.2 hc
            exact ⟨e1, List.mem_cons_of_mem id0 e2, e3⟩

theorem getVal_eraseKey_none_mono (st : Settings) (k0 k : String)
    (h : getVal st k = none) : getVal (eraseKey st k0) k = none := by
  rw [getVal_eraseKey]
  split
  · rfl
  · exact h

theorem getVal_RFS_none_mono (id : Int) (st : Settings) (k : String)
    (h : getVal st k = none) : getVal (RemoveAlarmFromStorage id st) k = none := by
  simp only [RemoveAlarmFromStorage]
  exact getVal_eraseKey_none_mono _ _ _ (getVal_eraseKey_none_mono _ _ _
    (getVal_eraseKey_none_mono _ _ _ (getVal_eraseKey_none_mono _ _ _
    (getVal_eraseKey_none_mono _ _ _ (getVal_eraseKey_none_mono _ _ _
    (getVal_eraseKey_none_mono _ _ _ (getVal_eraseKey_none_mono _ _ _
    (getVal_eraseKey_none_mono _ _ _ (getVal_eraseKey_none_mono _ _ _ h)))))))))

theorem dispatchPhase2_lookup_notin (al : AlarmMap) (st : Settings)
    (rids : List Int) (id : Int) (hid : id ∉ rids) :
    lookupA (dispatchPhase2 al st rids).1 id = lookupA al id := by
  induction rids generalizing al st with
  | nil => rfl
  | cons id0 rest ih =>
    have hne : id ≠ id0 := fun h => hid (h ▸ List.mem_cons_self id0 rest)
    have hrest : id ∉ rest := fun h => hid (List.mem_cons_of_mem id0 h)
    rw [dispatchPhase2]
    rcases hl : lookupA al id0 with _ | a
    · simp only [hl]
      exact ih al st hrest
    · simp only [hl]
      rw [ih _ _ hrest, lookupA_eraseA, if_neg hne]

theorem dispatchPhase2_getVal_frame (al : AlarmMap) (st : Settings)
    (rids : List Int) (k : String)
    (hk : ∀ (f : FieldK), ∀ id' ∈ rids, k ≠ newKey f id' ∧ k ≠ legKey f id') :
    getVal (dispatchPhase2 al st rids).2.1 k = getVal st k := by
  induction rids generalizing al st with
  | nil => rfl
  | cons id0 rest ih =>
    rw [dispatchPhase2]
    rcases hl : lookupA al id0 with _ | a
    · simp only [hl]
      exact ih al st (fun f id' h => hk f id' (List.mem_cons_of_mem id0 h))
    · simp only [hl]
      rw [ih _ _ (fun f id' h => hk f id' (List.mem_cons_of_mem id0 h))]
      exact getVal_RFS_other id0 st k
        (fun f => hk f id0 (List.mem_cons_self id0 rest))

theorem dispatchPhase2_lookup_none_mono (al : AlarmMap) (st : Settings)
    (rids : List Int) (id : Int) (h : lookupA al id = none) :
    lookupA (dispatchPhase2 al st rids).1 id = none := by
  induction rids generalizing al st with
  | nil => exact h
  | cons id0 rest ih =>
    rw [dispatchPhase2]
    rcases hl : lookupA al id0 with _ | a
    · simp only [hl]
      exact ih al st h
    · simp only [hl]
      refine ih _ _ ?_
      rw [lookupA_eraseA]
      split
      · rfl
      · exact h

theorem dispatchPhase2_getVal_none_mono (al : AlarmMap) (st : Settings)
    (rids : List Int) (k : String) (h : getVal st k = none) :
    getVal (dispatchPhase2 al st rids).2.1 k = none := by
  induction rids generalizing al st with
  | nil => exact h
  | cons id0 rest ih =>
    rw [dispatchPhase2]
    rcases hl : lookupA al id0 with _ | a
    · simp only [hl]
      exact ih al st h
    · simp only [hl]
      exact ih _ _ (getVal_RFS_none_mono id0 st k h)

theorem dispatchPhase2_removed (al : AlarmMap) (st : Settings)
    (rids : List Int) (hnd : rids.Nodup) (id : Int) (hid : id ∈ rids)
    (a : Alarm) (hl : lookupA al id = some a) :
    lookupA (dispatchPhase2 al st rids).1 id = none ∧
    (∀ f, getVal (dispatchPhase2 al st rids).2.1 (newKey f id) = none ∧
      getVal (dispatchPhase2 al st rids).2.1 (legKey f id) = none) := by
  induction rids generalizing al st with
  | nil => exact absurd hid (List.not_mem_nil id)
  | cons id0 rest ih =>
    rw [List.nodup_cons] at hnd
    obtain ⟨hni, hnd'⟩ := hnd
    by_cases hhead : id = id0
    · subst hhead
      rw [dispatchPhase2]
      simp only [hl]
      refine ⟨?_, ?_⟩
      · rw [dispatchPhase2_lookup_notin _ _ rest id hni, lookupA_eraseA,
          if_pos rfl]
      · intro f
        exact ⟨dispatchPhase2_getVal_none_mono _ _ rest _
            (getVal_RFS_new id st f),
          dispatchPhase2_getVal_none_mono _ _ rest _
            (getVal_RFS_leg id st f)⟩
    · have hidr : id ∈ rest := by
        rcases List.mem_cons.mp hid with h | h
        · exact absurd h hhead
        · exact h
      rw [dispatchPhase2]
      rcases hl0 : lookupA al id0 with _ | a0
      · simp only [hl0]
        exact ih al st hnd' hidr hl
      · simp only [hl0]
        refine ih _ _ hnd' hidr ?_
        rw [lookupA_eraseA, if_neg hhead]
        exact hl

theorem dispatchPhase1_pairwise (now : Int) (al : AlarmMap) (st : Settings)
    (due : List Int) (hp : List.Pairwise keyLt al) :
    List.Pairwise keyLt (dispatchPhase1 now al st due).1 := by
  induction due generalizing al st with
  | nil => exact hp
  | cons id0 rest ih =>
    rw [dispatchPhase1]
    rcases hl : lookupA al id0 with _ | a
    · simp only [hl]
      exact ih al st hp
    · simp only [hl]
      by_cases hc : a.repeat_ = true ∧ a.interval > 0
      · rw [if_pos hc]
        simp only []
        exact ih _ _ (pairwise_insertA _ _ _ hp)
      · rw [if_neg hc]
        simp only []
        exact ih al st hp

theorem dispatchPhase1_WFids (now : Int) (al : AlarmMap) (st : Settings)
    (due : List Int) (hwf : ∀ p ∈ al, p.2.id = p.1) :
    ∀ p ∈ (dispatchPhase1 now al st due).1, p.2.id = p.1 := by
  induction due generalizing al st with
  | nil => exact hwf
  | cons id0 rest ih =>
    rw [dispatchPhase1]
    rcases hl : lookupA al id0 with _ | a
    · simp only [hl]
      exact ih al st hwf
    · simp only [hl]
      have haid' : (advancedAlarm a now).id = id0 := by
        simp only [advancedAlarm]
        exact hwf (id0, a) (lookupA_mem _ _ _ hl)
      by_cases hc : a.repeat_ = true ∧ a.interval > 0
      · rw [if_pos hc]
        simp only []
        exact ih _ _ (WFids_insertA al id0 _ hwf haid')
      · rw [if_neg hc]
        simp only []
        exact ih al st hwf

theorem dispatchPhase2_pairwise (al : AlarmMap) (st : Settings)
    (rids : List Int) (hp : List.Pairwise keyLt al) :
    List.Pairwise keyLt (dispatchPhase2 al st rids).1 := by
  induction rids generalizing al st with
  | nil => exact hp
  | cons id0 rest ih =>
    rw [dispatchPhase2]
    rcases hl : lookupA al id0 with _ | a
    · simp only [hl]
      exact ih al st hp
    · simp only [hl]
      exact ih _ _ (pairwise_eraseA _ _ hp)

theorem dispatchPhase2_WFids (al : AlarmMap) (st : Settings)
    (rids : List Int) (hwf : ∀ p ∈ al, p.2.id = p.1) :
    ∀ p ∈ (dispatchPhase2 al st rids).1, p.2.id = p.1 := by
  induction rids generalizing al st with
  | nil => exact hwf
  | cons id0 rest ih =>
    rw [dispatchPhase2]
    rcases hl : lookupA al id0 with _ | a
    · simp only [hl]
      exact ih al st hwf
    · simp only [hl]
      exact ih _ _ (fun p hp => hwf p (mem_eraseA id0 al p hp))

theorem getVal_postIds (b : Bool) (al : AlarmMap) (s : Settings) (k : String)
    (hk : k ≠ kAlarmIdsKey) :
    getVal (if b then PersistAlarmIds al s else s) k = getVal s k := by
  cases b
  · rfl
  · simp [PersistAlarmIds, getVal_setVal, hk]

theorem due_nodup (al : AlarmMap) (now : Int) (hp : List.Pairwise keyLt al) :
    ((al.filter (fun p => p.2.time ≤ now)).map (fun p => p.1)).Nodup := by
  have h1 : List.Pairwise keyLt (al.filter (fun p => p.2.time ≤ now)) :=
    List.Pairwise.filter _ hp
  have h2 := List.Pairwise.map (f := fun p : Int × Alarm => p.1)
    (R := keyLt) (S := (· < ·)) (fun x y h => h) h1
  exact List.Pairwise.imp (fun h => ne_of_lt h) h2

theorem due_mem (al : AlarmMap) (now : Int) (id : Int) (a : Alarm)
    (hp : List.Pairwise keyLt al) (hl : lookupA al id = some a)
    (hdue : a.time ≤ now) :
    id ∈ (al.filter (fun p => p.2.time ≤ now)).map (fun p => p.1) := by
  refine List.mem_map.mpr ⟨(id, a), ?_, rfl⟩
  refine List.mem_filter.mpr ⟨lookupA_mem _ _ _ hl, by
    simp only [decide_eq_true_eq]
    exact hdue⟩

/-! ## Claim C2: the repeat-or-delete policy of the dispatcher -/

/-- C2: a due alarm (`time <= now`) with `repeat` and a positive
`interval` is advanced by the least whole number of interval-minutes
putting it strictly past `now`, kept in the store and re-persisted; any
other due alarm is removed from the store and from all of its durable
keys (new and legacy scheme) and no longer appears in `GetAlarm` or
`GetAlarms`. -/
theorem c2_dispatch_policy (st : MState) (now id : Int) (a : Alarm)
    (hwf : WFmap st.alarms) (hl : lookupA st.alarms id = some a)
    (hdue : a.time ≤ now) :
    (a.repeat_ = true ∧ 0 < a.interval →
      ∃ k : Nat, 1 ≤ k ∧
        now < a.time + k * (a.interval * 60) ∧
        a.time + k * (a.interval * 60) - a.interval * 60 ≤ now ∧
        GetAlarm (OnSchedulerTimer st now).1 id =
          some { a with time := a.time + k * (a.interval * 60) } ∧
        (∀ f, getVal (OnSchedulerTimer st now).1.settings (newKey f id) =
          some (persistVal f
            { a with time := a.time + k * (a.interval * 60) }))) ∧
    (¬(a.repeat_ = true ∧ 0 < a.interval) →
      GetAlarm (OnSchedulerTimer st now).1 id = none ∧
      (∀ b ∈ GetAlarms (OnSchedulerTimer st now).1, b.id ≠ id) ∧
      (∀ f, getVal (OnSchedulerTimer st now).1.settings (newKey f id) = none ∧
        getVal (OnSchedulerTimer st now).1.settings (legKey f id) = none)) := by
  obtain ⟨hch, hids⟩ := hwf
  have hpw : List.Pairwise keyLt st.alarms := (chain'_iff_pairwise_key _).mp hch
  have hdmem : id ∈ dueList st now := due_mem st.alarms now id a hpw hl hdue
  have hdnd : (dueList st now).Nodup := due_nodup st.alarms now hpw
  have hdne : dueList st now ≠ [] := List.ne_nil_of_mem hdmem
  have hOA : (OnSchedulerTimer st now).1.alarms =
      (dispatchPhase2 (dispatchPhase1 now st.alarms st.settings
          (dueList st now)).1
        (dispatchPhase1 now st.alarms st.settings (dueList st now)).2.1
        (dispatchPhase1 now st.alarms st.settings (dueList st now)).2.2.1).1 := by
    rw [OnSchedulerTimer, if_neg hdne]
    simp only [dispatchR2, dispatchR1]
  have hOS : (OnSchedulerTimer st now).1.settings =
      if (dispatchPhase2 (dispatchPhase1 now st.alarms st.settings
            (dueList st now)).1
          (dispatchPhase1 now st.alarms st.settings (dueList st now)).2.1
          (dispatchPhase1 now st.alarms st.settings
            (dueList st now)).2.2.1).2.2.1 then
        PersistAlarmIds (dispatchPhase2 (dispatchPhase1 now st.alarms
            st.settings (dueList st now)).1
          (dispatchPhase1 now st.alarms st.settings (dueList st now)).2.1
          (dispatchPhase1 now st.alarms st.settings (dueList st now)).2.2.1).1
          (dispatchPhase2 (dispatchPhase1 now st.alarms st.settings
              (dueList st now)).1
            (dispatchPhase1 now st.alarms st.settings (dueList st now)).2.1
            (dispatchPhase1 now st.alarms st.settings
              (dueList st now)).2.2.1).2.1
      else (dispatchPhase2 (dispatchPhase1 now st.alarms st.settings
            (dueList st now)).1
          (dispatchPhase1 now st.alarms st.settings (dueList st now)).2.1
          (dispatchPhase1 now st.alarms st.settings
            (dueList st now)).2.2.1).2.1 := by
    rw [OnSchedulerTimer, if_neg hdne]
    simp only [dispatchR2, dispatchR1]
  have hproc := dispatchPhase1_process now st.alarms st.settings
    (dueList st now) hdnd hids id hdmem a hl
  have hrids := dispatchPhase1_rids now st.alarms st.settings
    (dueList st now) hdnd
  constructor
  · intro hc
    have hc' : a.repeat_ = true ∧ a.interval > 0 := ⟨hc.1, hc.2⟩
    obtain ⟨e1, e2, e3, _⟩ := hproc.1 hc'
    obtain ⟨k, hk1, hkt, hkgt, hkmin⟩ := advancedAlarm_spec a now hc.2 hdue
    have hrec : advancedAlarm a now =
        { a with time := a.time + (k : Int) * (a.interval * 60) } := by
      rw [← hkt]
      simp only [advancedAlarm]
    refine ⟨k, hk1, by rw [← hkt]; exact hkgt, by rw [← hkt]; exact hkmin,
      ?_, ?_⟩
    · rw [GetAlarm, hOA, ← hrec,
        dispatchPhase2_lookup_notin _ _ _ id e2]
      exact e1
    · intro f
      rw [hOS, getVal_postIds _ _ _ _ (Ne.symm (idsKey_ne_newKey f id)),
        dispatchPhase2_getVal_frame _ _ _ _ (fun g id' hid' => ?_), ← hrec]
      · exact e3 f
      · constructor
        · intro h
          obtain ⟨_, h2⟩ := newKey_inj f g id id' h
          exact e2 (h2 ▸ hid')
        · exact newKey_ne_legKey f g id id'
  · intro hc
    obtain ⟨e1, e2, e3⟩ := hproc.2 hc
    obtain ⟨hrem1, hrem2⟩ := dispatchPhase2_removed
      (dispatchPhase1 now st.alarms st.settings (dueList st now)).1
      (dispatchPhase1 now st.alarms st.settings (dueList st now)).2.1
      (dispatchPhase1 now st.alarms st.settings (dueList st now)).2.2.1
      hrids.2 id e2 a e1
    have hlook : GetAlarm (OnSchedulerTimer st now).1 id = none := by
      rw [GetAlarm, hOA]
      exact hrem1
    refine ⟨hlook, ?_, ?_⟩
    · intro b hb hbid
      obtain ⟨p, hp, hpb⟩ := List.mem_map.mp hb
      have hpw2 : List.Pairwise keyLt (OnSchedulerTimer st now).1.alarms := by
        rw [hOA]
        exact dispatchPhase2_pairwise _ _ _
          (dispatchPhase1_pairwise now st.alarms st.settings _ hpw)
      have hids2 : ∀ p ∈ (OnSchedulerTimer st now).1.alarms, p.2.id = p.1 := by
        rw [hOA]
        exact dispatchPhase2_WFids _ _ _
          (dispatchPhase1_WFids now st.alarms st.settings _ hids)
      have hp1 : p.1 = id := by
        rw [← hids2 p hp, hpb, hbid]
      have : lookupA (OnSchedulerTimer st now).1.alarms id = some p.2 := by
        rw [← hp1]
        exact mem_lookupA _ _ _ hpw2 (by
          rcases p with ⟨pk, pv⟩
          exact hp)
      rw [← GetAlarm, hlook] at this
      exact Option.noConfusion this
    · intro f
      constructor
      · rw [hOS, getVal_postIds _ _ _ _ (Ne.symm (idsKey_ne_newKey f id))]
        exact (hrem2 f).1
      · rw [hOS, getVal_postIds _ _ _ _ (Ne.symm (idsKey_ne_legKey f id))]
        exact (hrem2 f).2

/-- Witness for C2: a store with a due repeating alarm (id 1) and a due
one-shot alarm (id 2) at `now = 100`. -/
theorem c2_dispatch_policy_witness :
    WFmap ([(2, ⟨40, false, 0, "o", "ALARM1", 2⟩)] : AlarmMap) ∧
    lookupA ([(2, ⟨40, false, 0, "o", "ALARM1", 2⟩)] : AlarmMap) 2 =
      some ⟨40, false, 0, "o", "ALARM1", 2⟩ ∧
    ((40 : Int) ≤ 100) ∧
    (¬((⟨40, false, 0, "o", "ALARM1", 2⟩ : Alarm).repeat_ = true ∧
        0 < (⟨40, false, 0, "o", "ALARM1", 2⟩ : Alarm).interval) →
      GetAlarm (OnSchedulerTimer ⟨[(2, ⟨40, false, 0, "o", "ALARM1", 2⟩)],
        3, []⟩ 100).1 2 = none ∧
      (∀ b ∈ GetAlarms (OnSchedulerTimer
          ⟨[(2, ⟨40, false, 0, "o", "ALARM1", 2⟩)], 3, []⟩ 100).1,
        b.id ≠ 2) ∧
      (∀ f, getVal (OnSchedulerTimer ⟨[(2, ⟨40, false, 0, "o", "ALARM1", 2⟩)],
          3, []⟩ 100).1.settings (newKey f 2) = none ∧
        getVal (OnSchedulerTimer ⟨[(2, ⟨40, false, 0, "o", "ALARM1", 2⟩)],
          3, []⟩ 100).1.settings (legKey f 2) = none)) :=
  ⟨⟨by simp [List.chain'_cons], by decide⟩, by decide, by decide,
    (c2_dispatch_policy ⟨[(2, ⟨40, false, 0, "o", "ALARM1", 2⟩)], 3, []⟩
      100 2 ⟨40, false, 0, "o", "ALARM1", 2⟩
      ⟨by simp [List.chain'_cons], by decide⟩ (by decide) (by decide)).2⟩

/-! ## Claim C3: ordering of handoffs and policy mutations -/

/-- A policy-mutation event (time advance or removal). -/
def isMutEv : DispatchEvent → Bool
  | .advance _ _ => true
  | .remove _ => true
  | _ => false

theorem dispatchPhase1_no_remove (now : Int) (al : AlarmMap) (st : Settings)
    (due : List Int) :
    ∀ e ∈ (dispatchPhase1 now al st due).2.2.2, ∀ id2, e ≠ .remove id2 := by
  induction due generalizing al st with
  | nil => intro e he; exact absurd he (List.not_mem_nil e)
  | cons id0 rest ih =>
    intro e he id2
    rw [dispatchPhase1] at he
    rcases hl : lookupA al id0 with _ | a
    · simp only [hl] at he
      exact ih al st e he id2
    · simp only [hl] at he
      by_cases hc : a.repeat_ = true ∧ a.interval > 0
      · rw [if_pos hc] at he
        simp only [] at he
        rcases List.mem_cons.mp he with h | h
        · rw [h]
          simp
        · rcases List.mem_cons.mp h with h | h
          · rw [h]
            simp
          · exact ih _ _ e h id2
      · rw [if_neg hc] at he
        simp only [] at he
        rcases List.mem_cons.mp he with h | h
        · rw [h]
          simp
        · exact ih al st e h id2

theorem dispatchPhase2_all_remove (al : AlarmMap) (st : Settings)
    (rids : List Int) :
    ∀ e ∈ (dispatchPhase2 al st rids).2.2.2, ∃ id2, e = .remove id2 := by
  induction rids generalizing al st with
  | nil => intro e he; exact absurd he (List.not_mem_nil e)
  | cons id0 rest ih =>
    intro e he
    rw [dispatchPhase2] at he
    rcases hl : lookupA al id0 with _ | a
    · simp only [hl] at he
      exact ih al st e he
    · simp only [hl] at he
      rcases List.mem_cons.mp he with h | h
      · exact ⟨id0, h⟩
      · exact ih _ _ e h

theorem dispatchPhase1_advance_pred (now : Int) (al : AlarmMap) (st : Settings)
    (due : List Int) (hwf : ∀ p ∈ al, p.2.id = p.1) :
    ∀ (i : Nat) (id t : Int),
      (dispatchPhase1 now al st due).2.2.2.get? i = some (.advance id t) →
      1 ≤ i ∧ ∃ a2, (dispatchPhase1 now al st due).2.2.2.get? (i - 1) =
        some (.handoff a2) ∧ a2.id = id := by
  induction due generalizing al st with
  | nil =>
    intro i id t h
    rw [show (dispatchPhase1 now al st []).2.2.2 = [] from rfl] at h
    simp at h
  | cons id0 rest ih =>
    intro i id t h
    rw [dispatchPhase1] at h ⊢
    rcases hl : lookupA al id0 with _ | a
    · simp only [hl] at h ⊢
      exact ih al st hwf i id t h
    · simp only [hl] at h ⊢
      have haid : a.id = id0 := hwf (id0, a) (lookupA_mem _ _ _ hl)
      have haid' : (advancedAlarm a now).id = id0 := by
        simp only [advancedAlarm]
        exact haid
      by_cases hc : a.repeat_ = true ∧ a.interval > 0
      · rw [if_pos hc] at h ⊢
        simp only [] at h ⊢
        match i, h with
        | 1, h =>
          refine ⟨by omega, a, rfl, ?_⟩
          rw [List.get?_cons_succ, List.get?_cons_zero] at h
          injection h with h
          injection h with h1 _
          rw [haid, h1]
        | (n + 2), h =>
          rw [List.get?_cons_succ, List.get?_cons_succ] at h
          obtain ⟨hn1, a2, hpred, ha2⟩ :=
            ih _ (PersistAlarm (advancedAlarm a now) st)
              (WFids_insertA al id0 _ hwf haid') n id t h
          refine ⟨by omega, a2, ?_, ha2⟩
          have : n + 2 - 1 = (n - 1) + 2 := by omega
          rw [this, List.get?_cons_succ, List.get?_cons_succ]
          exact hpred
      · rw [if_neg hc] at h ⊢
        simp only [] at h ⊢
        match i, h with
        | (n + 1), h =>
          rw [List.get?_cons_succ] at h
          obtain ⟨hn1, a2, hpred, ha2⟩ := ih al st hwf n id t h
          refine ⟨by omega, a2, ?_, ha2⟩
          have : n + 1 - 1 = (n - 1) + 1 := by omega
          rw [this, List.get?_cons_succ]
          exact hpred

theorem dispatchPhase1_handoff_src (now : Int) (al al0 : AlarmMap)
    (st : Settings) (due : List Int) (hnd : due.Nodup)
    (hwf : ∀ p ∈ al, p.2.id = p.1)
    (hagree : ∀ id ∈ due, lookupA al id = lookupA al0 id) :
    ∀ a2, DispatchEvent.handoff a2 ∈ (dispatchPhase1 now al st due).2.2.2 →
      lookupA al0 a2.id = some a2 := by
  induction due generalizing al st with
  | nil =>
    intro a2 h
    exact absurd h (List.not_mem_nil _)
  | cons id0 rest ih =>
    rw [List.nodup_cons] at hnd
    obtain ⟨hni, hnd'⟩ := hnd
    intro a2 h
    rw [dispatchPhase1] at h
    rcases hl : lookupA al id0 with _ | a
    · simp only [hl] at h
      exact ih al st hnd' hwf
        (fun id hid => hagree id (List.mem_cons_of_mem id0 hid)) a2 h
    · simp only [hl] at h
      have haid : a.id = id0 := hwf (id0, a) (lookupA_mem _ _ _ hl)
      have haid' : (advancedAlarm a now).id = id0 := by
        simp only [advancedAlarm]
        exact haid
      have hsrc : lookupA al0 a.id = some a := by
        rw [haid, ← hagree id0 (List.mem_cons_self id0 rest)]
        exact hl
      by_cases hc : a.repeat_ = true ∧ a.interval > 0
      · rw [if_pos hc] at h
        simp only [] at h
        rcases List.mem_cons.mp h with h | h
        · injection h with h
          rw [h]
          exact hsrc
        · rcases List.mem_cons.mp h with h | h
          · exact absurd h (by simp)
          · refine ih _ _ hnd' (WFids_insertA al id0 _ hwf haid')
              (fun id hid => ?_) a2 h
            rw [lookupA_insertA,
              if_neg (fun hh : id = id0 => hni (by rw [← hh]; exact hid))]
            exact hagree id (List.mem_cons_of_mem id0 hid)
      · rw [if_neg hc] at h
        simp only [] at h
        rcases List.mem_cons.mp h with h | h
        · injection h with h
          rw [h]
          exact hsrc
        · exact ih al st hnd' hwf
            (fun id hid => hagree id (List.mem_cons_of_mem id0 hid)) a2 h

/-- C3 counterexample: with two due repeating alarms (ids 1 and 2) the
pass emits `[handoff 1, advance 1, handoff 2, advance 2]`: alarm 1's
policy mutation (index 1) happens before alarm 2's notification handoff
(index 2), so it is false that every handoff precedes every mutation. -/
theorem c3_counterexample :
    ¬(∀ (i j : Nat) (a2 : Alarm) (e : DispatchEvent),
        (OnSchedulerTimer ⟨[(1, ⟨0, true, 1, "a", "ALARM1", 1⟩),
            (2, ⟨0, true, 1, "b", "ALARM1", 2⟩)], 3, []⟩ 100).2.get? i =
          some (.handoff a2) →
        (OnSchedulerTimer ⟨[(1, ⟨0, true, 1, "a", "ALARM1", 1⟩),
            (2, ⟨0, true, 1, "b", "ALARM1", 2⟩)], 3, []⟩ 100).2.get? j =
          some e →
        isMutEv e = true → i < j) := by
  intro h
  have h21 := h 2 1 ⟨0, true, 1, "b", "ALARM1", 2⟩
    (DispatchEvent.advance 1 120) (by decide) (by decide) (by decide)
  omega

/-- C3 (amended): within one dispatcher pass, (a) every notification
handoff precedes every removal; (b) every time-advance mutation is
immediately preceded by the same alarm's handoff (so each alarm's
handoff precedes its own mutation); (c) every handoff carries a copy of
the alarm's pre-pass (pre-fire) record. -/
theorem c3_dispatch_order_amended (st : MState) (now : Int)
    (hwf : WFmap st.alarms) :
    (∀ (i j : Nat) (a2 : Alarm) (id2 : Int),
      (OnSchedulerTimer st now).2.get? i = some (.handoff a2) →
      (OnSchedulerTimer st now).2.get? j = some (.remove id2) → i < j) ∧
    (∀ (i : Nat) (id t : Int),
      (OnSchedulerTimer st now).2.get? i = some (.advance id t) →
      1 ≤ i ∧ ∃ a2, (OnSchedulerTimer st now).2.get? (i - 1) =
        some (.handoff a2) ∧ a2.id = id) ∧
    (∀ a2, DispatchEvent.handoff a2 ∈ (OnSchedulerTimer st now).2 →
      lookupA st.alarms a2.id = some a2) := by
  obtain ⟨hch, hids⟩ := hwf
  have hpw : List.Pairwise keyLt st.alarms := (chain'_iff_pairwise_key _).mp hch
  have hdnd : (dueList st now).Nodup := due_nodup st.alarms now hpw
  by_cases hdne : dueList st now = []
  · have hE : (OnSchedulerTimer st now).2 = [] := by
      rw [OnSchedulerTimer, if_pos hdne]
    refine ⟨?_, ?_, ?_⟩
    · intro i j a2 id2 hi _
      rw [hE] at hi
      simp at hi
    · intro i id t hi
      rw [hE] at hi
      simp at hi
    · intro a2 h2
      rw [hE] at h2
      exact absurd h2 (List.not_mem_nil _)
  · have hE : (OnSchedulerTimer st now).2 =
        (dispatchPhase1 now st.alarms st.settings (dueList st now)).2.2.2 ++
        (dispatchPhase2
          (dispatchPhase1 now st.alarms st.settings (dueList st now)).1
          (dispatchPhase1 now st.alarms st.settings (dueList st now)).2.1
          (dispatchPhase1 now st.alarms st.settings
            (dueList st now)).2.2.1).2.2.2 := by
      rw [OnSchedulerTimer, if_neg hdne]
      simp only [dispatchR1, dispatchR2]
    have hnorem := dispatchPhase1_no_remove now st.alarms st.settings
      (dueList st now)
    have hallrem := dispatchPhase2_all_remove
      (dispatchPhase1 now st.alarms st.settings (dueList st now)).1
      (dispatchPhase1 now st.alarms st.settings (dueList st now)).2.1
      (dispatchPhase1 now st.alarms st.settings (dueList st now)).2.2.1
    refine ⟨?_, ?_, ?_⟩
    · intro i j a2 id2 hi hj
      rw [hE] at hi hj
      have hilt : i < (dispatchPhase1 now st.alarms st.settings
          (dueList st now)).2.2.2.length := by
        by_contra hge
        rw [List.get?_append_right (by omega)] at hi
        obtain ⟨id', he⟩ := hallrem _ (List.get?_mem hi)
        exact DispatchEvent.noConfusion he
      have hjge : (dispatchPhase1 now st.alarms st.settings
          (dueList st now)).2.2.2.length ≤ j := by
        by_contra hlt
        rw [List.get?_append (by omega)] at hj
        exact hnorem _ (List.get?_mem hj) id2 rfl
      omega
    · intro i id t hi
      rw [hE] at hi
      have hilt : i < (dispatchPhase1 now st.alarms st.settings
          (dueList st now)).2.2.2.length := by
        by_contra hge
        rw [List.get?_append_right (by omega)] at hi
        obtain ⟨id', he⟩ := hallrem _ (List.get?_mem hi)
        exact DispatchEvent.noConfusion he
      rw [List.get?_append hilt] at hi
      obtain ⟨h1, a2, hpred, ha2⟩ := dispatchPhase1_advance_pred now st.alarms
        st.settings (dueList st now) hids i id t hi
      refine ⟨h1, a2, ?_, ha2⟩
      rw [hE, List.get?_append (by omega)]
      exact hpred
    · intro a2 h2
      rw [hE] at h2
      rcases List.mem_append.mp h2 with h2 | h2
      · exact dispatchPhase1_handoff_src now st.alarms st.alarms st.settings
          (dueList st now) hdnd hids (fun _ _ => rfl) a2 h2
      · obtain ⟨id', he⟩ := hallrem _ h2
        exact DispatchEvent.noConfusion he

/-- Witness for C3 (amended) at the two-repeating-alarm store of the
counterexample. -/
theorem c3_dispatch_order_amended_witness :
    WFmap ([(1, ⟨0, true, 1, "a", "ALARM1", 1⟩),
      (2, ⟨0, true, 1, "b", "ALARM1", 2⟩)] : AlarmMap) ∧
    (∀ a2, DispatchEvent.handoff a2 ∈
        (OnSchedulerTimer ⟨[(1, ⟨0, true, 1, "a", "ALARM1", 1⟩),
          (2, ⟨0, true, 1, "b", "ALARM1", 2⟩)], 3, []⟩ 100).2 →
      lookupA ([(1, ⟨0, true, 1, "a", "ALARM1", 1⟩),
        (2, ⟨0, true, 1, "b", "ALARM1", 2⟩)] : AlarmMap) a2.id = some a2) :=
  ⟨⟨by simp [List.chain'_cons], by decide⟩,
    (c3_dispatch_order_amended ⟨[(1, ⟨0, true, 1, "a", "ALARM1", 1⟩),
        (2, ⟨0, true, 1, "b", "ALARM1", 2⟩)], 3, []⟩ 100
      ⟨by simp [List.chain'_cons], by decide⟩).2.2⟩

/-! ## Effects of the per-field load combinators -/

theorem TryGetString_eq (st st' : Settings) (k : String)
    (h : getVal st' k = getVal st k) : TryGetString st' k = TryGetString st k := by
  rw [TryGetString, TryGetString, h]

theorem TryGetInt_eq (st st' : Settings) (k : String)
    (h : getVal st' k = getVal st k) : TryGetInt st' k = TryGetInt st k := by
  rw [TryGetInt, TryGetInt, h]

theorem TryGetBool_eq (st st' : Settings) (k : String)
    (h : getVal st' k = getVal st k) : TryGetBool st' k = TryGetBool st k := by
  rw [TryGetBool, TryGetBool, h]

theorem effStr_congr (st st' : Settings) (f : FieldK) (id : Int) (fb : String)
    (h1 : getVal st' (newKey f id) = getVal st (newKey f id))
    (h2 : getVal st' (legKey f id) = getVal st (legKey f id)) :
    effStr st' f id fb = effStr st f id fb := by
  rw [effStr, effStr, TryGetString_eq st st' _ h1, TryGetString_eq st st' _ h2]

theorem effInt_congr (st st' : Settings) (f : FieldK) (id : Int) (fb : Int)
    (h1 : getVal st' (newKey f id) = getVal st (newKey f id))
    (h2 : getVal st' (legKey f id) = getVal st (legKey f id)) :
    effInt st' f id fb = effInt st f id fb := by
  rw [effInt, effInt, TryGetInt_eq st st' _ h1, TryGetInt_eq st st' _ h2]

theorem effBool_congr (st st' : Settings) (f : FieldK) (id : Int) (fb : Bool)
    (h1 : getVal st' (newKey f id) = getVal st (newKey f id))
    (h2 : getVal st' (legKey f id) = getVal st (legKey f id)) :
    effBool st' f id fb = effBool st f id fb := by
  rw [effBool, effBool, TryGetBool_eq st st' _ h1, TryGetBool_eq st st' _ h2]

theorem newKey_ne_legKey_self (f : FieldK) (id : Int) :
    newKey f id ≠ legKey f id := newKey_ne_legKey f f id id

theorem loadStringField_fst (st : Settings) (f : FieldK) (id : Int)
    (fb : String) : (loadStringField st f id fb).1 = effStr st f id fb := by
  rw [loadStringField, effStr]
  rcases h1 : TryGetString st (newKey f id) with _ | v
  · simp only [h1]
    rcases h2 : TryGetString st (legKey f id) with _ | lv <;> simp only [h2]
  · simp only [h1]

theorem loadStringField_frame (st : Settings) (f : FieldK) (id : Int)
    (fb : String) (k : String) (hk1 : k ≠ newKey f id) (hk2 : k ≠ legKey f id) :
    getVal (loadStringField st f id fb).2 k = getVal st k := by
  rw [loadStringField]
  rcases h1 : TryGetString st (newKey f id) with _ | v
  · rcases h2 : TryGetString st (legKey f id) with _ | lv
    · simp only [h1, h2, getVal_eraseKey, if_neg hk2]
    · simp only [h1, h2, getVal_eraseKey, if_neg hk2, getVal_setVal,
        if_neg hk1]
  · simp only [h1, getVal_eraseKey, if_neg hk2]

theorem loadStringField_leg_none (st : Settings) (f : FieldK) (id : Int)
    (fb : String) :
    getVal (loadStringField st f id fb).2 (legKey f id) = none := by
  rw [loadStringField]
  rcases h1 : TryGetString st (newKey f id) with _ | v
  · rcases h2 : TryGetString st (legKey f id) with _ | lv
    · simp [h1, h2, getVal_eraseKey]
    · simp [h1, h2, getVal_eraseKey]
  · simp [h1, getVal_eraseKey]

theorem loadStringField_leg_mono (st : Settings) (f : FieldK) (id : Int)
    (fb : String) (g : FieldK) (j : Int)
    (h : getVal st (legKey g j) = none) :
    getVal (loadStringField st f id fb).2 (legKey g j) = none := by
  by_cases hc : legKey g j = legKey f id
  · rw [hc]
    exact loadStringField_leg_none st f id fb
  · rw [loadStringField_frame st f id fb _
      (fun h' => newKey_ne_legKey f g id j h'.symm) hc]
    exact h

theorem loadStringField_eff_self (st : Settings) (f : FieldK) (id : Int)
    (fb fb' : String) :
    effStr (loadStringField st f id fb').2 f id fb = effStr st f id fb := by
  rw [loadStringField]
  rcases h1 : TryGetString st (newKey f id) with _ | v
  · rcases h2 : TryGetString st (legKey f id) with _ | lv
    · simp only [h1, h2]
      have e1 : TryGetString (eraseKey st (legKey f id)) (newKey f id) =
          none := by
        rw [TryGetString_eq st _ _ (by
          rw [getVal_eraseKey, if_neg (newKey_ne_legKey_self f id)]), h1]
      have e2 : TryGetString (eraseKey st (legKey f id)) (legKey f id) =
          none := by
        rw [TryGetString, getVal_eraseKey, if_pos rfl]
      rw [effStr, effStr, e1, e2, h1, h2]
    · simp only [h1, h2]
      have e1 : TryGetString (eraseKey (setVal st (newKey f id) (.s lv))
          (legKey f id)) (newKey f id) = some lv := by
        rw [TryGetString, getVal_eraseKey,
          if_neg (newKey_ne_legKey_self f id), getVal_setVal, if_pos rfl]
      rw [effStr, effStr, e1, h1, h2]
  · simp only [h1]
    have e1 : TryGetString (eraseKey st (legKey f id)) (newKey f id) =
        some v := by
      rw [TryGetString_eq st _ _ (by
        rw [getVal_eraseKey, if_neg (newKey_ne_legKey_self f id)]), h1]
    rw [effStr, effStr, e1, h1]

theorem loadIntField_fst (st : Settings) (f : FieldK) (id : Int)
    (fb : Int) : (loadIntField st f id fb).1 = effInt st f id fb := by
  rw [loadIntField, effInt]
  rcases h1 : TryGetInt st (newKey f id) with _ | v
  · simp only [h1]
    rcases h2 : TryGetInt st (legKey f id) with _ | lv <;> simp only [h2]
  · simp only [h1]

theorem loadIntField_frame (st : Settings) (f : FieldK) (id : Int)
    (fb : Int) (k : String) (hk1 : k ≠ newKey f id) (hk2 : k ≠ legKey f id) :
    getVal (loadIntField st f id fb).2 k = getVal st k := by
  rw [loadIntField]
  rcases h1 : TryGetInt st (newKey f id) with _ | v
  · rcases h2 : TryGetInt st (legKey f id) with _ | lv
    · simp only [h1, h2, getVal_eraseKey, if_neg hk2]
    · simp only [h1, h2, getVal_eraseKey, if_neg hk2, getVal_setVal,
        if_neg hk1]
  · simp only [h1, getVal_eraseKey, if_neg hk2]

theorem loadIntField_leg_none (st : Settings) (f : FieldK) (id : Int)
    (fb : Int) :
    getVal (loadIntField st f id fb).2 (legKey f id) = none := by
  rw [loadIntField]
  rcases h1 : TryGetInt st (newKey f id) with _ | v
  · rcases h2 : TryGetInt st (legKey f id) with _ | lv
    · simp [h1, h2, getVal_eraseKey]
    · simp [h1, h2, getVal_eraseKey]
  · simp [h1, getVal_eraseKey]

theorem loadIntField_leg_mono (st : Settings) (f : FieldK) (id : Int)
    (fb : Int) (g : FieldK) (j : Int)
    (h : getVal st (legKey g j) = none) :
    getVal (loadIntField st f id fb).2 (legKey g j) = none := by
  by_cases hc : legKey g j = legKey f id
  · rw [hc]
    exact loadIntField_leg_none st f id fb
  · rw [loadIntField_frame st f id fb _
      (fun h' => newKey_ne_legKey f g id j h'.symm) hc]
    exact h

theorem loadIntField_eff_self (st : Settings) (f : FieldK) (id : Int)
    (fb fb' : Int) :
    effInt (loadIntField st f id fb').2 f id fb = effInt st f id fb := by
  rw [loadIntField]
  rcases h1 : TryGetInt st (newKey f id) with _ | v
  · rcases h2 : TryGetInt st (legKey f id) with _ | lv
    · simp only [h1, h2]
      have e1 : TryGetInt (eraseKey st (legKey f id)) (newKey f id) =
          none := by
        rw [TryGetInt_eq st _ _ (by
          rw [getVal_eraseKey, if_neg (newKey_ne_legKey_self f id)]), h1]
      have e2 : TryGetInt (eraseKey st (legKey f id)) (legKey f id) =
          none := by
        rw [TryGetInt, getVal_eraseKey, if_pos rfl]
      rw [effInt, effInt, e1, e2, h1, h2]
    · simp only [h1, h2]
      have e1 : TryGetInt (eraseKey (setVal st (newKey f id) (.i lv))
          (legKey f id)) (newKey f id) = some lv := by
        rw [TryGetInt, getVal_eraseKey,
          if_neg (newKey_ne_legKey_self f id), getVal_setVal, if_pos rfl]
      rw [effInt, effInt, e1, h1, h2]
  · simp only [h1]
    have e1 : TryGetInt (eraseKey st (legKey f id)) (newKey f id) =
        some v := by
      rw [TryGetInt_eq st _ _ (by
        rw [getVal_eraseKey, if_neg (newKey_ne_legKey_self f id)]), h1]
    rw [effInt, effInt, e1, h1]

theorem loadBoolField_fst (st : Settings) (f : FieldK) (id : Int)
    (fb : Bool) : (loadBoolField st f id fb).1 = effBool st f id fb := by
  rw [loadBoolField, effBool]
  rcases h1 : TryGetBool st (newKey f id) with _ | v
  · simp only [h1]
    rcases h2 : TryGetBool st (legKey f id) with _ | lv <;> simp only [h2]
  · simp only [h1]

theorem loadBoolField_frame (st : Settings) (f : FieldK) (id : Int)
    (fb : Bool) (k : String) (hk1 : k ≠ newKey f id) (hk2 : k ≠ legKey f id) :
    getVal (loadBoolField st f id fb).2 k = getVal st k := by
  rw [loadBoolField]
  rcases h1 : TryGetBool st (newKey f id) with _ | v
  · rcases h2 : TryGetBool st (legKey f id) with _ | lv
    · simp only [h1, h2, getVal_eraseKey, if_neg hk2]
    · simp only [h1, h2, getVal_eraseKey, if_neg hk2, getVal_setVal,
        if_neg hk1]
  · simp only [h1, getVal_eraseKey, if_neg hk2]

theorem loadBoolField_leg_none (st : Settings) (f : FieldK) (id : Int)
    (fb : Bool) :
    getVal (loadBoolField st f id fb).2 (legKey f id) = none := by
  rw [loadBoolField]
  rcases h1 : TryGetBool st (newKey f id) with _ | v
  · rcases h2 : TryGetBool st (legKey f id) with _ | lv
    · simp [h1, h2, getVal_eraseKey]
    · simp [h1, h2, getVal_eraseKey]
  · simp [h1, getVal_eraseKey]

theorem loadBoolField_leg_mono (st : Settings) (f : FieldK) (id : Int)
    (fb : Bool) (g : FieldK) (j : Int)
    (h : getVal st (legKey g j) = none) :
    getVal (loadBoolField st f id fb).2 (legKey g j) = none := by
  by_cases hc : legKey g j = legKey f id
  · rw [hc]
    exact loadBoolField_leg_none st f id fb
  · rw [loadBoolField_frame st f id fb _
      (fun h' => newKey_ne_legKey f g id j h'.symm) hc]
    exact h

theorem loadBoolField_eff_self (st : Settings) (f : FieldK) (id : Int)
    (fb fb' : Bool) :
    effBool (loadBoolField st f id fb').2 f id fb = effBool st f id fb := by
  rw [loadBoolField]
  rcases h1 : TryGetBool st (newKey f id) with _ | v
  · rcases h2 : TryGetBool st (legKey f id) with _ | lv
    · simp only [h1, h2]
      have e1 : TryGetBool (eraseKey st (legKey f id)) (newKey f id) =
          none := by
        rw [TryGetBool_eq st _ _ (by
          rw [getVal_eraseKey, if_neg (newKey_ne_legKey_self f id)]), h1]
      have e2 : TryGetBool (eraseKey st (legKey f id)) (legKey f id) =
          none := by
        rw [TryGetBool, getVal_eraseKey, if_pos rfl]
      rw [effBool, effBool, e1, e2, h1, h2]
    · simp only [h1, h2]
      have e1 : TryGetBool (eraseKey (setVal st (newKey f id) (.b lv))
          (legKey f id)) (newKey f id) = some lv := by
        rw [TryGetBool, getVal_eraseKey,
          if_neg (newKey_ne_legKey_self f id), getVal_setVal, if_pos rfl]
      rw [effBool, effBool, e1, h1, h2]
  · simp only [h1]
    have e1 : TryGetBool (eraseKey st (legKey f id)) (newKey f id) =
        some v := by
      rw [TryGetBool_eq st _ _ (by
        rw [getVal_eraseKey, if_neg (newKey_ne_legKey_self f id)]), h1]
    rw [effBool, effBool, e1, h1]

/-! ## Cross-field frames: a field load leaves every other field's
effective value unchanged -/

theorem effStr_loadStringField (st : Settings) (f : FieldK) (id : Int)
    (fb : String) (g : FieldK) (j : Int) (fbs : String)
    (h : ¬(g = f ∧ j = id)) :
    effStr (loadStringField st f id fb).2 g j fbs = effStr st g j fbs := by
  apply effStr_congr
  · exact loadStringField_frame st f id fb _
      (fun he => h ⟨(newKey_inj g f j id he).1, (newKey_inj g f j id he).2⟩)
      (newKey_ne_legKey g f j id)
  · exact loadStringField_frame st f id fb _
      (fun he => newKey_ne_legKey f g id j he.symm)
      (fun he => h ⟨(legKey_inj g f j id he).1, (legKey_inj g f j id he).2⟩)

theorem effInt_loadStringField (st : Settings) (f : FieldK) (id : Int)
    (fb : String) (g : FieldK) (j : Int) (fbi : Int)
    (h : ¬(g = f ∧ j = id)) :
    effInt (loadStringField st f id fb).2 g j fbi = effInt st g j fbi := by
  apply effInt_congr
  · exact loadStringField_frame st f id fb _
      (fun he => h ⟨(newKey_inj g f j id he).1, (newKey_inj g f j id he).2⟩)
      (newKey_ne_legKey g f j id)
  · exact loadStringField_frame st f id fb _
      (fun he => newKey_ne_legKey f g id j he.symm)
      (fun he => h ⟨(legKey_inj g f j id he).1, (legKey_inj g f j id he).2⟩)

theorem effBool_loadStringField (st : Settings) (f : FieldK) (id : Int)
    (fb : String) (g : FieldK) (j : Int) (fbb : Bool)
    (h : ¬(g = f ∧ j = id)) :
    effBool (loadStringField st f id fb).2 g j fbb = effBool st g j fbb := by
  apply effBool_congr
  · exact loadStringField_frame st f id fb _
      (fun he => h ⟨(newKey_inj g f j id he).1, (newKey_inj g f j id he).2⟩)
      (newKey_ne_legKey g f j id)
  · exact loadStringField_frame st f id fb _
      (fun he => newKey_ne_legKey f g id j he.symm)
      (fun he => h ⟨(legKey_inj g f j id he).1, (legKey_inj g f j id he).2⟩)

theorem effStr_loadIntField (st : Settings) (f : FieldK) (id : Int)
    (fb : Int) (g : FieldK) (j : Int) (fbs : String)
    (h : ¬(g = f ∧ j = id)) :
    effStr (loadIntField st f id fb).2 g j fbs = effStr st g j fbs := by
  apply effStr_congr
  · exact loadIntField_frame st f id fb _
      (fun he => h ⟨(newKey_inj g f j id he).1, (newKey_inj g f j id he).2⟩)
      (newKey_ne_legKey g f j id)
  · exact loadIntField_frame st f id fb _
      (fun he => newKey_ne_legKey f g id j he.symm)
      (fun he => h ⟨(legKey_inj g f j id he).1, (legKey_inj g f j id he).2⟩)

theorem effStr_loadBoolField (st : Settings) (f : FieldK) (id : Int)
    (fb : Bool) (g : FieldK) (j : Int) (fbs : String)
    (h : ¬(g = f ∧ j = id)) :
    effStr (loadBoolField st f id fb).2 g j fbs = effStr st g j fbs := by
  apply effStr_congr
  · exact loadBoolField_frame st f id fb _
      (fun he => h ⟨(newKey_inj g f j id he).1, (newKey_inj g f j id he).2⟩)
      (newKey_ne_legKey g f j id)
  · exact loadBoolField_frame st f id fb _
      (fun he => newKey_ne_legKey f g id j he.symm)
      (fun he => h ⟨(legKey_inj g f j id he).1, (legKey_inj g f j id he).2⟩)

theorem effInt_loadBoolField (st : Settings) (f : FieldK) (id : Int)
    (fb : Bool) (g : FieldK) (j : Int) (fbi : Int)
    (h : ¬(g = f ∧ j = id)) :
    effInt (loadBoolField st f id fb).2 g j fbi = effInt st g j fbi := by
  apply effInt_congr
  · exact loadBoolField_frame st f id fb _
      (fun he => h ⟨(newKey_inj g f j id he).1, (newKey_inj g f j id he).2⟩)
      (newKey_ne_legKey g f j id)
  · exact loadBoolField_frame st f id fb _
      (fun he => newKey_ne_legKey f g id j he.symm)
      (fun he => h ⟨(legKey_inj g f j id he).1, (legKey_inj g f j id he).2⟩)

/-! ## The per-id load equals `recordOf`, and its settings effects -/

theorem loadOne_fst (tmin tmax : Int) (st : Settings) (id : Int) :
    (loadOne tmin tmax st id).1 = recordOf tmin tmax st id := by
  rw [loadOne, recordOf]
  simp only []
  have ht : (loadStringField (loadStringField st FieldK.fname id "").2
      FieldK.ftime id "0").1 = effStr st FieldK.ftime id "0" := by
    rw [loadStringField_fst]
    exact effStr_loadStringField st FieldK.fname id "" FieldK.ftime id "0"
      (fun hc => FieldK.noConfusion hc.1)
  rw [ht]
  rcases hp : ParseIntegral llMinC llMaxC
      (trimChars (effStr st FieldK.ftime id "0").data) with _ | tv
  · simp only [hp]
  · simp only [hp]
    by_cases hrange : tv < tmin ∨ tv > tmax
    · rw [if_pos hrange, if_pos hrange]
    · rw [if_neg hrange, if_neg hrange]
      have hn : (loadStringField st FieldK.fname id "").1 =
          effStr st FieldK.fname id "" :=
        loadStringField_fst st FieldK.fname id ""
      have hb : (loadBoolField (loadStringField
          (loadStringField st FieldK.fname id "").2 FieldK.ftime id "0").2
          FieldK.frep id false).1 = effBool st FieldK.frep id false := by
        rw [loadBoolField_fst,
          effBool_loadStringField (loadStringField st FieldK.fname id "").2
            FieldK.ftime id "0" FieldK.frep id false
            (fun hc => FieldK.noConfusion hc.1),
          effBool_loadStringField st FieldK.fname id "" FieldK.frep id false
            (fun hc => FieldK.noConfusion hc.1)]
      have hi : (loadIntField (loadBoolField (loadStringField
          (loadStringField st FieldK.fname id "").2 FieldK.ftime id "0").2
          FieldK.frep id false).2 FieldK.fintv id 0).1 =
          effInt st FieldK.fintv id 0 := by
        rw [loadIntField_fst,
          effInt_loadBoolField (loadStringField
              (loadStringField st FieldK.fname id "").2 FieldK.ftime id "0").2
            FieldK.frep id false FieldK.fintv id 0
            (fun hc => FieldK.noConfusion hc.1),
          effInt_loadStringField (loadStringField st FieldK.fname id "").2
            FieldK.ftime id "0" FieldK.fintv id 0
            (fun hc => FieldK.noConfusion hc.1),
          effInt_loadStringField st FieldK.fname id "" FieldK.fintv id 0
            (fun hc => FieldK.noConfusion hc.1)]
      have hsnd : (loadStringField (loadIntField (loadBoolField
          (loadStringField (loadStringField st FieldK.fname id "").2
            FieldK.ftime id "0").2 FieldK.frep id false).2
          FieldK.fintv id 0).2 FieldK.fsound id "ALARM1").1 =
          effStr st FieldK.fsound id "ALARM1" := by
        rw [loadStringField_fst,
          effStr_loadIntField (loadBoolField (loadStringField
              (loadStringField st FieldK.fname id "").2 FieldK.ftime id
              "0").2 FieldK.frep id false).2 FieldK.fintv id 0
            FieldK.fsound id "ALARM1" (fun hc => FieldK.noConfusion hc.1),
          effStr_loadBoolField (loadStringField
              (loadStringField st FieldK.fname id "").2 FieldK.ftime id
              "0").2 FieldK.frep id false FieldK.fsound id "ALARM1"
            (fun hc => FieldK.noConfusion hc.1),
          effStr_loadStringField (loadStringField st FieldK.fname id "").2
            FieldK.ftime id "0" FieldK.fsound id "ALARM1"
            (fun hc => FieldK.noConfusion hc.1),
          effStr_loadStringField st FieldK.fname id "" FieldK.fsound id
            "ALARM1" (fun hc => FieldK.noConfusion hc.1)]
      rw [hn, hb, hi, hsnd]

theorem effBool_loadIntField (st : Settings) (f : FieldK) (id : Int)
    (fb : Int) (g : FieldK) (j : Int) (fbb : Bool)
    (h : ¬(g = f ∧ j = id)) :
    effBool (loadIntField st f id fb).2 g j fbb = effBool st g j fbb := by
  apply effBool_congr
  · exact loadIntField_frame st f id fb _
      (fun he => h ⟨(newKey_inj g f j id he).1, (newKey_inj g f j id he).2⟩)
      (newKey_ne_legKey g f j id)
  · exact loadIntField_frame st f id fb _
      (fun he => newKey_ne_legKey f g id j he.symm)
      (fun he => h ⟨(legKey_inj g f j id he).1, (legKey_inj g f j id he).2⟩)

theorem effBool_loadBoolField (st : Settings) (f : FieldK) (id : Int)
    (fb : Bool) (g : FieldK) (j : Int) (fbb : Bool)
    (h : ¬(g = f ∧ j = id)) :
    effBool (loadBoolField st f id fb).2 g j fbb = effBool st g j fbb := by
  apply effBool_congr
  · exact loadBoolField_frame st f id fb _
      (fun he => h ⟨(newKey_inj g f j id he).1, (newKey_inj g f j id he).2⟩)
      (newKey_ne_legKey g f j id)
  · exact loadBoolField_frame st f id fb _
      (fun he => newKey_ne_legKey f g id j he.symm)
      (fun he => h ⟨(legKey_inj g f j id he).1, (legKey_inj g f j id he).2⟩)

theorem effInt_loadIntField (st : Settings) (f : FieldK) (id : Int)
    (fb : Int) (g : FieldK) (j : Int) (fbi : Int)
    (h : ¬(g = f ∧ j = id)) :
    effInt (loadIntField st f id fb).2 g j fbi = effInt st g j fbi := by
  apply effInt_congr
  · exact loadIntField_frame st f id fb _
      (fun he => h ⟨(newKey_inj g f j id he).1, (newKey_inj g f j id he).2⟩)
      (newKey_ne_legKey g f j id)
  · exact loadIntField_frame st f id fb _
      (fun he => newKey_ne_legKey f g id j he.symm)
      (fun he => h ⟨(legKey_inj g f j id he).1, (legKey_inj g f j id he).2⟩)

theorem effStr_loadStringField_any (st : Settings) (f : FieldK) (id : Int)
    (fb : String) (g : FieldK) (j : Int) (fbs : String) :
    effStr (loadStringField st f id fb).2 g j fbs = effStr st g j fbs := by
  by_cases hc : g = f ∧ j = id
  · rcases hc with ⟨rfl, rfl⟩
    exact loadStringField_eff_self st g j fbs fb
  · exact effStr_loadStringField st f id fb g j fbs hc

theorem effBool_loadBoolField_any (st : Settings) (f : FieldK) (id : Int)
    (fb : Bool) (g : FieldK) (j : Int) (fbb : Bool) :
    effBool (loadBoolField st f id fb).2 g j fbb = effBool st g j fbb := by
  by_cases hc : g = f ∧ j = id
  · rcases hc with ⟨rfl, rfl⟩
    exact loadBoolField_eff_self st g j fbb fb
  · exact effBool_loadBoolField st f id fb g j fbb hc

theorem effInt_loadIntField_any (st : Settings) (f : FieldK) (id : Int)
    (fb : Int) (g : FieldK) (j : Int) (fbi : Int) :
    effInt (loadIntField st f id fb).2 g j fbi = effInt st g j fbi := by
  by_cases hc : g = f ∧ j = id
  · rcases hc with ⟨rfl, rfl⟩
    exact loadIntField_eff_self st g j fbi fb
  · exact effInt_loadIntField st f id fb g j fbi hc

theorem loadOne_effStr (tmin tmax : Int) (st : Settings) (id : Int)
    (g : FieldK) (j : Int) (fbs : String)
    (hg : g = FieldK.fname ∨ g = FieldK.ftime ∨ g = FieldK.fsound) :
    effStr (loadOne tmin tmax st id).2 g j fbs = effStr st g j fbs := by
  have hgr : ¬(g = FieldK.frep ∧ j = id) := by
    rcases hg with rfl | rfl | rfl <;> exact fun hc => FieldK.noConfusion hc.1
  have hgi : ¬(g = FieldK.fintv ∧ j = id) := by
    rcases hg with rfl | rfl | rfl <;> exact fun hc => FieldK.noConfusion hc.1
  rw [loadOne]
  simp only []
  rcases hp : ParseIntegral llMinC llMaxC
      (trimChars (loadStringField (loadStringField st FieldK.fname id "").2
        FieldK.ftime id "0").1.data) with _ | tv
  · simp only [hp]
    rw [effStr_loadStringField_any, effStr_loadStringField_any]
  · simp only [hp]
    by_cases hrange : tv < tmin ∨ tv > tmax
    · simp only [if_pos hrange]
      rw [effStr_loadStringField_any, effStr_loadStringField_any]
    · simp only [if_neg hrange]
      rw [effStr_loadStringField_any,
        effStr_loadIntField _ FieldK.fintv id 0 g j fbs hgi,
        effStr_loadBoolField _ FieldK.frep id false g j fbs hgr,
        effStr_loadStringField_any, effStr_loadStringField_any]

theorem loadOne_effBool (tmin tmax : Int) (st : Settings) (id : Int)
    (j : Int) (fbb : Bool) :
    effBool (loadOne tmin tmax st id).2 FieldK.frep j fbb =
      effBool st FieldK.frep j fbb := by
  have hstr : ∀ f, ¬(FieldK.frep = f ∧ j = id) ∨ f = FieldK.frep := by
    intro f
    cases f
    · exact Or.inl (fun hc => FieldK.noConfusion hc.1)
    · exact Or.inl (fun hc => FieldK.noConfusion hc.1)
    · exact Or.inr rfl
    · exact Or.inl (fun hc => FieldK.noConfusion hc.1)
    · exact Or.inl (fun hc => FieldK.noConfusion hc.1)
  rw [loadOne]
  simp only []
  rcases hp : ParseIntegral llMinC llMaxC
      (trimChars (loadStringField (loadStringField st FieldK.fname id "").2
        FieldK.ftime id "0").1.data) with _ | tv
  · simp only [hp]
    rw [effBool_loadStringField _ FieldK.ftime id "0" FieldK.frep j fbb
        (fun hc => FieldK.noConfusion hc.1),
      effBool_loadStringField st FieldK.fname id "" FieldK.frep j fbb
        (fun hc => FieldK.noConfusion hc.1)]
  · simp only [hp]
    by_cases hrange : tv < tmin ∨ tv > tmax
    · simp only [if_pos hrange]
      rw [effBool_loadStringField _ FieldK.ftime id "0" FieldK.frep j fbb
          (fun hc => FieldK.noConfusion hc.1),
        effBool_loadStringField st FieldK.fname id "" FieldK.frep j fbb
          (fun hc => FieldK.noConfusion hc.1)]
    · simp only [if_neg hrange]
      rw [effBool_loadStringField _ FieldK.fsound id "ALARM1" FieldK.frep j
          fbb (fun hc => FieldK.noConfusion hc.1),
        effBool_loadIntField _ FieldK.fintv id 0 FieldK.frep j fbb
          (fun hc => FieldK.noConfusion hc.1),
        effBool_loadBoolField_any,
        effBool_loadStringField _ FieldK.ftime id "0" FieldK.frep j fbb
          (fun hc => FieldK.noConfusion hc.1),
        effBool_loadStringField st FieldK.fname id "" FieldK.frep j fbb
          (fun hc => FieldK.noConfusion hc.1)]

theorem loadOne_effInt (tmin tmax : Int) (st : Settings) (id : Int)
    (j : Int) (fbi : Int) :
    effInt (loadOne tmin tmax st id).2 FieldK.fintv j fbi =
      effInt st FieldK.fintv j fbi := by
  rw [loadOne]
  simp only []
  rcases hp : ParseIntegral llMinC llMaxC
      (trimChars (loadStringField (loadStringField st FieldK.fname id "").2
        FieldK.ftime id "0").1.data) with _ | tv
  · simp only [hp]
    rw [effInt_loadStringField _ FieldK.ftime id "0" FieldK.fintv j fbi
        (fun hc => FieldK.noConfusion hc.1),
      effInt_loadStringField st FieldK.fname id "" FieldK.fintv j fbi
        (fun hc => FieldK.noConfusion hc.1)]
  · simp only [hp]
    by_cases hrange : tv < tmin ∨ tv > tmax
    · simp only [if_pos hrange]
      rw [effInt_loadStringField _ FieldK.ftime id "0" FieldK.fintv j fbi
          (fun hc => FieldK.noConfusion hc.1),
        effInt_loadStringField st FieldK.fname id "" FieldK.fintv j fbi
          (fun hc => FieldK.noConfusion hc.1)]
    · simp only [if_neg hrange]
      rw [effInt_loadStringField _ FieldK.fsound id "ALARM1" FieldK.fintv j
          fbi (fun hc => FieldK.noConfusion hc.1),
        effInt_loadIntField_any,
        effInt_loadBoolField _ FieldK.frep id false FieldK.fintv j fbi
          (fun hc => FieldK.noConfusion hc.1),
        effInt_loadStringField _ FieldK.ftime id "0" FieldK.fintv j fbi
          (fun hc => FieldK.noConfusion hc.1),
        effInt_loadStringField st FieldK.fname id "" FieldK.fintv j fbi
          (fun hc => FieldK.noConfusion hc.1)]

theorem loadOne_frame (tmin tmax : Int) (st : Settings) (id : Int)
    (k : String) (hnew : ∀ f, k ≠ newKey f id) (hleg : ∀ f, k ≠ legKey f id) :
    getVal (loadOne tmin tmax st id).2 k = getVal st k := by
  rw [loadOne]
  simp only []
  rcases hp : ParseIntegral llMinC llMaxC
      (trimChars (loadStringField (loadStringField st FieldK.fname id "").2
        FieldK.ftime id "0").1.data) with _ | tv
  · simp only [hp]
    rw [loadStringField_frame _ FieldK.ftime id "0" k (hnew _) (hleg _),
      loadStringField_frame st FieldK.fname id "" k (hnew _) (hleg _)]
  · simp only [hp]
    by_cases hrange : tv < tmin ∨ tv > tmax
    · simp only [if_pos hrange]
      rw [loadStringField_frame _ FieldK.ftime id "0" k (hnew _) (hleg _),
        loadStringField_frame st FieldK.fname id "" k (hnew _) (hleg _)]
    · simp only [if_neg hrange]
      rw [loadStringField_frame _ FieldK.fsound id "ALARM1" k (hnew _)
          (hleg _),
        loadIntField_frame _ FieldK.fintv id 0 k (hnew _) (hleg _),
        loadBoolField_frame _ FieldK.frep id false k (hnew _) (hleg _),
        loadStringField_frame _ FieldK.ftime id "0" k (hnew _) (hleg _),
        loadStringField_frame st FieldK.fname id "" k (hnew _) (hleg _)]

theorem loadOne_leg_mono (tmin tmax : Int) (st : Settings) (id : Int)
    (g : FieldK) (j : Int) (h : getVal st (legKey g j) = none) :
    getVal (loadOne tmin tmax st id).2 (legKey g j) = none := by
  rw [loadOne]
  simp only []
  rcases hp : ParseIntegral llMinC llMaxC
      (trimChars (loadStringField (loadStringField st FieldK.fname id "").2
        FieldK.ftime id "0").1.data) with _ | tv
  · simp only [hp]
    exact loadStringField_leg_mono _ FieldK.ftime id "0" g j
      (loadStringField_leg_mono st FieldK.fname id "" g j h)
  · simp only [hp]
    by_cases hrange : tv < tmin ∨ tv > tmax
    · simp only [if_pos hrange]
      exact loadStringField_leg_mono _ FieldK.ftime id "0" g j
        (loadStringField_leg_mono st FieldK.fname id "" g j h)
    · simp only [if_neg hrange]
      exact loadStringField_leg_mono _ FieldK.fsound id "ALARM1" g j
        (loadIntField_leg_mono _ FieldK.fintv id 0 g j
          (loadBoolField_leg_mono _ FieldK.frep id false g j
            (loadStringField_leg_mono _ FieldK.ftime id "0" g j
              (loadStringField_leg_mono st FieldK.fname id "" g j h))))

theorem loadOne_leg_none (tmin tmax : Int) (st : Settings) (id : Int)
    (a : Alarm) (f : FieldK)
    (h : (loadOne tmin tmax st id).1 = some a) :
    getVal (loadOne tmin tmax st id).2 (legKey f id) = none := by
  rw [loadOne] at h ⊢
  simp only [] at h ⊢
  rcases hp : ParseIntegral llMinC llMaxC
      (trimChars (loadStringField (loadStringField st FieldK.fname id "").2
        FieldK.ftime id "0").1.data) with _ | tv
  · simp only [hp] at h
    exact Option.noConfusion h
  · simp only [hp] at h ⊢
    by_cases hrange : tv < tmin ∨ tv > tmax
    · simp only [if_pos hrange] at h
      exact Option.noConfusion h
    · simp only [if_neg hrange]
      cases f
      · exact loadStringField_leg_mono _ FieldK.fsound id "ALARM1"
          FieldK.fname id (loadIntField_leg_mono _ FieldK.fintv id 0
            FieldK.fname id (loadBoolField_leg_mono _ FieldK.frep id false
              FieldK.fname id (loadStringField_leg_mono _ FieldK.ftime id
                "0" FieldK.fname id
                (loadStringField_leg_none st FieldK.fname id ""))))
      · exact loadStringField_leg_mono _ FieldK.fsound id "ALARM1"
          FieldK.ftime id (loadIntField_leg_mono _ FieldK.fintv id 0
            FieldK.ftime id (loadBoolField_leg_mono _ FieldK.frep id false
              FieldK.ftime id (loadStringField_leg_none _ FieldK.ftime id
                "0")))
      · exact loadStringField_leg_mono _ FieldK.fsound id "ALARM1"
          FieldK.frep id (loadIntField_leg_mono _ FieldK.fintv id 0
            FieldK.frep id (loadBoolField_leg_none _ FieldK.frep id false))
      · exact loadStringField_leg_mono _ FieldK.fsound id "ALARM1"
          FieldK.fintv id (loadIntField_leg_none _ FieldK.fintv id 0)
      · exact loadStringField_leg_none _ FieldK.fsound id "ALARM1"

/-! ## The load loop equals `buildMap` of `recordOf` -/

theorem recordOf_congr (tmin tmax : Int) (st st' : Settings) (id : Int)
    (hn : effStr st' FieldK.fname id "" = effStr st FieldK.fname id "")
    (ht : effStr st' FieldK.ftime id "0" = effStr st FieldK.ftime id "0")
    (hr : effBool st' FieldK.frep id false = effBool st FieldK.frep id false)
    (hi : effInt st' FieldK.fintv id 0 = effInt st FieldK.fintv id 0)
    (hs : effStr st' FieldK.fsound id "ALARM1" =
      effStr st FieldK.fsound id "ALARM1") :
    recordOf tmin tmax st' id = recordOf tmin tmax st id := by
  rw [recordOf, recordOf]
  simp only []
  rw [hn, ht, hr, hi, hs]

theorem recordOf_loadOne (tmin tmax : Int) (st : Settings) (i id : Int) :
    recordOf tmin tmax (loadOne tmin tmax st i).2 id =
      recordOf tmin tmax st id :=
  recordOf_congr tmin tmax st _ id
    (loadOne_effStr tmin tmax st i FieldK.fname id "" (Or.inl rfl))
    (loadOne_effStr tmin tmax st i FieldK.ftime id "0" (Or.inr (Or.inl rfl)))
    (loadOne_effBool tmin tmax st i id false)
    (loadOne_effInt tmin tmax st i id 0)
    (loadOne_effStr tmin tmax st i FieldK.fsound id "ALARM1"
      (Or.inr (Or.inr rfl)))

theorem buildMap_congr (f g : Int → Option Alarm) (al : AlarmMap)
    (ids : List Int) (h : ∀ j, f j = g j) :
    buildMap f al ids = buildMap g al ids := by
  induction ids generalizing al with
  | nil => rfl
  | cons id rest ih =>
    rw [buildMap, buildMap]
    simp only [h id]
    exact ih _

theorem loadList_fst (tmin tmax : Int) (al : AlarmMap) (st : Settings)
    (ids : List Int) :
    (loadList tmin tmax al st ids).1 =
      buildMap (recordOf tmin tmax st) al ids := by
  induction ids generalizing al st with
  | nil => rfl
  | cons id rest ih =>
    rw [loadList, buildMap]
    rw [ih, loadOne_fst]
    exact buildMap_congr _ _ _ rest
      (fun j => recordOf_loadOne tmin tmax st id j)

theorem recordOf_loadList (tmin tmax : Int) (al : AlarmMap) (st : Settings)
    (ids : List Int) (id : Int) :
    recordOf tmin tmax (loadList tmin tmax al st ids).2 id =
      recordOf tmin tmax st id := by
  induction ids generalizing al st with
  | nil => rfl
  | cons i rest ih =>
    rw [loadList]
    rw [ih, recordOf_loadOne]

theorem getVal_loadList_frame (tmin tmax : Int) (al : AlarmMap)
    (st : Settings) (ids : List Int) (k : String)
    (hnew : ∀ f j, k ≠ newKey f j) (hleg : ∀ f j, k ≠ legKey f j) :
    getVal (loadList tmin tmax al st ids).2 k = getVal st k := by
  induction ids generalizing al st with
  | nil => rfl
  | cons i rest ih =>
    rw [loadList]
    rw [ih, loadOne_frame tmin tmax st i k (fun f => hnew f i)
      (fun f => hleg f i)]

theorem getVal_loadList_leg_mono (tmin tmax : Int) (al : AlarmMap)
    (st : Settings) (ids : List Int) (g : FieldK) (j : Int)
    (h : getVal st (legKey g j) = none) :
    getVal (loadList tmin tmax al st ids).2 (legKey g j) = none := by
  induction ids generalizing al st with
  | nil => exact h
  | cons i rest ih =>
    rw [loadList]
    exact ih _ _ (loadOne_leg_mono tmin tmax st i g j h)

theorem loadList_leg_none (tmin tmax : Int) (al : AlarmMap) (st : Settings)
    (ids : List Int)
    (hal : ∀ p ∈ al, ∀ f, getVal st (legKey f p.1) = none) :
    ∀ p ∈ (loadList tmin tmax al st ids).1, ∀ f,
      getVal (loadList tmin tmax al st ids).2 (legKey f p.1) = none := by
  induction ids generalizing al st with
  | nil => exact hal
  | cons i rest ih =>
    rw [loadList]
    apply ih
    intro p hp f
    rcases hL : (loadOne tmin tmax st i).1 with _ | a
    · simp only [hL] at hp
      exact loadOne_leg_mono tmin tmax st i f p.1 (hal p hp f)
    · simp only [hL] at hp
      rcases mem_insertIfAbsentA i a al p hp with hep | hmem
      · rw [hep]
        exact loadOne_leg_none tmin tmax st i a f hL
      · exact loadOne_leg_mono tmin tmax st i f p.1 (hal p hmem f)

/-! ## `LoadAlarms` characterization -/

theorem LoadAlarms_alarms (tmin tmax : Int) (st : Settings) :
    (LoadAlarms tmin tmax st).alarms =
      if GetString st kAlarmIdsKey "" ≠ ""
      then buildMap (recordOf tmin tmax st) []
        (ParseIdList (GetString st kAlarmIdsKey ""))
      else [] := by
  rw [LoadAlarms]
  simp only []
  by_cases h : GetString st kAlarmIdsKey "" ≠ ""
  · rw [if_pos h, if_pos h]
    exact loadList_fst tmin tmax [] st _
  · rw [if_neg h, if_neg h]

theorem LoadAlarms_recordOf (tmin tmax : Int) (st : Settings) (id : Int) :
    recordOf tmin tmax (LoadAlarms tmin tmax st).settings id =
      recordOf tmin tmax st id := by
  rw [LoadAlarms]
  simp only []
  by_cases h : GetString st kAlarmIdsKey "" ≠ ""
  · rw [if_pos h]
    exact recordOf_loadList tmin tmax [] st _ id
  · rw [if_neg h]

theorem getVal_LoadAlarms_frame (tmin tmax : Int) (st : Settings)
    (k : String) (hnew : ∀ f j, k ≠ newKey f j)
    (hleg : ∀ f j, k ≠ legKey f j) :
    getVal (LoadAlarms tmin tmax st).settings k = getVal st k := by
  rw [LoadAlarms]
  simp only []
  by_cases h : GetString st kAlarmIdsKey "" ≠ ""
  · rw [if_pos h]
    exact getVal_loadList_frame tmin tmax [] st _ k hnew hleg
  · rw [if_neg h]

theorem LoadAlarms_leg_none (tmin tmax : Int) (st : Settings) :
    ∀ p ∈ (LoadAlarms tmin tmax st).alarms, ∀ f,
      getVal (LoadAlarms tmin tmax st).settings (legKey f p.1) = none := by
  rw [LoadAlarms]
  simp only []
  by_cases h : GetString st kAlarmIdsKey "" ≠ ""
  · rw [if_pos h]
    exact loadList_leg_none tmin tmax [] st _ (fun p hp => absurd hp
      (List.not_mem_nil p))
  · rw [if_neg h]
    exact fun p hp => absurd hp (List.not_mem_nil p)

theorem LoadAlarms_pairwise (tmin tmax : Int) (st : Settings) :
    List.Pairwise keyLt (LoadAlarms tmin tmax st).alarms := by
  rw [LoadAlarms]
  simp only []
  by_cases h : GetString st kAlarmIdsKey "" ≠ ""
  · rw [if_pos h]
    exact loadList_pairwise tmin tmax [] st _ List.Pairwise.nil
  · rw [if_neg h]
    exact List.Pairwise.nil

/-! ## Structure of `recordOf` and `buildMap` -/

theorem recordOf_some (tmin tmax : Int) (st : Settings) (id : Int)
    (a : Alarm) (h : recordOf tmin tmax st id = some a) :
    a.id = id ∧ tmin ≤ a.time ∧ a.time ≤ tmax ∧
      IsValidSound a.sound = true := by
  rw [recordOf] at h
  simp only [] at h
  rcases hp : ParseIntegral llMinC llMaxC
      (trimChars (effStr st FieldK.ftime id "0").data) with _ | tv
  · simp only [hp] at h
    exact Option.noConfusion h
  · simp only [hp] at h
    by_cases hrange : tv < tmin ∨ tv > tmax
    · rw [if_pos hrange] at h
      exact Option.noConfusion h
    · rw [if_neg hrange] at h
      rcases Option.some.inj h with rfl
      refine ⟨rfl, ?_, ?_, ?_⟩
      · show tmin ≤ tv
        omega
      · show tv ≤ tmax
        omega
      · show IsValidSound
          (if IsValidSound (effStr st FieldK.fsound id "ALARM1")
           then effStr st FieldK.fsound id "ALARM1" else "ALARM1") = true
        by_cases hv : IsValidSound (effStr st FieldK.fsound id "ALARM1")
        · simp only [if_pos hv]
          exact hv
        · simp only [if_neg hv]
          decide

theorem mem_buildMap (f : Int → Option Alarm) (al : AlarmMap)
    (ids : List Int) (p : Int × Alarm) (h : p ∈ buildMap f al ids) :
    p ∈ al ∨ (p.1 ∈ ids ∧ f p.1 = some p.2) := by
  induction ids generalizing al with
  | nil => exact Or.inl h
  | cons j rest ih =>
    rw [buildMap] at h
    rcases hf : f j with _ | b
    · simp only [hf] at h
      rcases ih _ h with hmem | ⟨hin, hfp⟩
      · exact Or.inl hmem
      · exact Or.inr ⟨List.mem_cons_of_mem j hin, hfp⟩
    · simp only [hf] at h
      rcases ih _ h with hmem | ⟨hin, hfp⟩
      · rcases mem_insertIfAbsentA j b al p hmem with hep | hmem2
        · subst hep
          exact Or.inr ⟨List.mem_cons_self j rest, hf⟩
        · exact Or.inl hmem2
      · exact Or.inr ⟨List.mem_cons_of_mem j hin, hfp⟩

theorem lookupA_buildMap (f : Int → Option Alarm) (al : AlarmMap)
    (ids : List Int) (id : Int) (hp : List.Pairwise keyLt al) :
    lookupA (buildMap f al ids) id =
      match lookupA al id with
      | some v => some v
      | none => if id ∈ ids then f id else none := by
  induction ids generalizing al with
  | nil =>
    rcases h : lookupA al id with _ | v <;> simp [buildMap, h]
  | cons j rest ih =>
    rw [buildMap]
    rcases hf : f j with _ | b
    · simp only [hf]
      rw [ih al hp]
      rcases h : lookupA al id with _ | v
      · simp only []
        by_cases hj : id = j
        · subst hj
          by_cases hr : id ∈ rest
          · rw [if_pos hr, if_pos (List.mem_cons_self id rest)]
          · rw [if_neg hr, if_pos (List.mem_cons_self id rest), hf]
        · by_cases hr : id ∈ rest
          · rw [if_pos hr, if_pos (List.mem_cons_of_mem j hr)]
          · rw [if_neg hr,
              if_neg (fun hm => (List.mem_cons.mp hm).elim hj hr)]
      · simp only []
    · simp only [hf]
      rw [ih _ (pairwise_insertIfAbsentA j b al hp),
        lookupA_insertIfAbsentA j b al id hp]
      by_cases hj : id = j
      · subst hj
        rw [if_pos rfl]
        simp only []
        rcases h : lookupA al id with _ | v
        · simp [hf]
        · simp
      · rw [if_neg hj]
        rcases h : lookupA al id with _ | v
        · simp only []
          by_cases hr : id ∈ rest
          · rw [if_pos hr, if_pos (List.mem_cons_of_mem j hr)]
          · rw [if_neg hr,
              if_neg (fun hm => (List.mem_cons.mp hm).elim hj hr)]
        · simp only []

theorem insertIfAbsentA_cons_gt (k : Int) (v : Alarm) (p : Int × Alarm)
    (al : AlarmMap) (h : p.1 < k) :
    insertIfAbsentA k v (p :: al) = p :: insertIfAbsentA k v al := by
  rcases p with ⟨pk, pv⟩
  have h' : pk < k := h
  rw [insertIfAbsentA, if_neg (by omega), if_neg (by omega)]

theorem buildMap_cons_acc (f : Int → Option Alarm) (p : Int × Alarm)
    (al : AlarmMap) (ids : List Int) (h : ∀ j ∈ ids, p.1 < j) :
    buildMap f (p :: al) ids = p :: buildMap f al ids := by
  induction ids generalizing al with
  | nil => rfl
  | cons j rest ih =>
    rw [buildMap, buildMap]
    rcases hf : f j with _ | b
    · simp only [hf]
      exact ih al (fun q hq => h q (List.mem_cons_of_mem j hq))
    · simp only [hf]
      rw [insertIfAbsentA_cons_gt j b p al (h j (List.mem_cons_self j rest))]
      exact ih _ (fun q hq => h q (List.mem_cons_of_mem j hq))

theorem buildMap_eq_self (f : Int → Option Alarm) (al : AlarmMap)
    (hp : List.Pairwise keyLt al) (h : ∀ p ∈ al, f p.1 = some p.2) :
    buildMap f [] (al.map (fun p => p.1)) = al := by
  induction al with
  | nil => rfl
  | cons p rest ih =>
    rw [List.map_cons, buildMap]
    rw [List.pairwise_cons] at hp
    simp only [h p (List.mem_cons_self p rest)]
    rw [show insertIfAbsentA p.1 p.2 [] = [p] from rfl]
    rw [buildMap_cons_acc f p [] (rest.map (fun q => q.1))
      (fun j hj => by
        obtain ⟨q, hq, hqe⟩ := List.mem_map.mp hj
        rw [← hqe]
        exact hp.1 q hq)]
    rw [ih hp.2 (fun q hq => h q (List.mem_cons_of_mem p hq))]

theorem fromCharsInt_range (lo hi : Int) (l : List Char) (v : Int)
    (h : fromCharsInt lo hi l = some v) : lo ≤ v ∧ v ≤ hi := by
  rcases l with _ | ⟨c, cs⟩
  · simp only [fromCharsInt] at h
    exact Option.noConfusion h
  · simp only [fromCharsInt] at h
    split_ifs at h with h1 h2 h3 h4 h5
    all_goals first
      | exact Option.noConfusion h
      | (rcases Option.some.inj h with rfl; assumption)

theorem ParseIdList_range (s : String) :
    ∀ id ∈ ParseIdList s, intMinC ≤ id ∧ id ≤ intMaxC := by
  intro id hid
  rw [ParseIdList] at hid
  obtain ⟨tok, htok, hsome⟩ := List.mem_filterMap.mp hid
  simp only [] at hsome
  by_cases ht : trimChars tok = []
  · rw [if_pos ht] at hsome
    exact Option.noConfusion hsome
  · rw [if_neg ht] at hsome
    exact fromCharsInt_range _ _ _ _ hsome

theorem JoinIds_ne_empty (p : Int × Alarm) (al : AlarmMap) :
    JoinIds (p :: al) ≠ "" := by
  rw [JoinIds]
  intro hcon
  have hl : joinTokens ((p :: al).map (fun q => intToChars q.1)) = [] :=
    congrArg String.data hcon
  rcases al with _ | ⟨q, al'⟩
  · simp only [List.map_cons, List.map_nil, joinTokens] at hl
    exact intToChars_ne_nil p.1 hl
  · simp only [List.map_cons, joinTokens] at hl
    simp at hl

theorem LoadAlarms_mem (tmin tmax : Int) (st : Settings) :
    ∀ p ∈ (LoadAlarms tmin tmax st).alarms,
      recordOf tmin tmax st p.1 = some p.2 ∧
        intMinC ≤ p.1 ∧ p.1 ≤ intMaxC := by
  intro p hp
  rw [LoadAlarms_alarms] at hp
  by_cases h : GetString st kAlarmIdsKey "" ≠ ""
  · rw [if_pos h] at hp
    rcases mem_buildMap _ _ _ p hp with hnil | ⟨hin, hrec⟩
    · exact absurd hnil (List.not_mem_nil p)
    · exact ⟨hrec, (ParseIdList_range _ p.1 hin).1,
        (ParseIdList_range _ p.1 hin).2⟩
  · rw [if_neg h] at hp
    exact absurd hp (List.not_mem_nil p)

theorem LoadAlarms_WFids (tmin tmax : Int) (st : Settings) :
    ∀ p ∈ (LoadAlarms tmin tmax st).alarms, p.2.id = p.1 :=
  fun p hp =>
    (recordOf_some tmin tmax st p.1 p.2 (LoadAlarms_mem tmin tmax st p hp).1).1

/-! ## Re-persisting a loaded set -/

theorem getVal_foldl_persist_frame (al : AlarmMap) (st : Settings)
    (k : String) (hk : ∀ q ∈ al, ∀ f, k ≠ newKey f q.2.id) :
    getVal (al.foldl (fun acc q => PersistAlarm q.2 acc) st) k =
      getVal st k := by
  induction al generalizing st with
  | nil => rfl
  | cons q rest ih =>
    rw [List.foldl_cons,
      ih _ (fun r hr f => hk r (List.mem_cons_of_mem q hr) f)]
    exact getVal_PersistAlarm_other q.2 st k
      (fun f => hk q (List.mem_cons_self q rest) f)

theorem getVal_foldl_persist_mem (al : AlarmMap) :
    ∀ (st : Settings) (p : Int × Alarm), p ∈ al →
    (∀ q ∈ al, q.2.id = q.1) → List.Pairwise keyLt al → ∀ f : FieldK,
    getVal (al.foldl (fun acc q => PersistAlarm q.2 acc) st)
      (newKey f p.2.id) = some (persistVal f p.2) := by
  induction al with
  | nil =>
    intro st p hp _ _ f
    exact absurd hp (List.not_mem_nil p)
  | cons q rest ih =>
    intro st p hp hid hnd f
    rw [List.foldl_cons]
    rw [List.pairwise_cons] at hnd
    rcases List.mem_cons.mp hp with heq | hmem
    · subst heq
      refine Eq.trans
        (getVal_foldl_persist_frame rest (PersistAlarm p.2 st) _ ?_)
        (getVal_PersistAlarm_own p.2 st f)
      intro r hr g he
      have h1 := (newKey_inj f g p.2.id r.2.id he).2
      have hp1 := hid p (List.mem_cons_self p rest)
      have hr1 := hid r (List.mem_cons_of_mem p hr)
      have h3 : p.1 < r.1 := hnd.1 r hr
      omega
    · exact ih _ p hmem (fun r hr => hid r (List.mem_cons_of_mem q hr))
        hnd.2 f

theorem getVal_persistAllAlarms_field (al : AlarmMap) (nid : Int)
    (st : Settings) (p : Int × Alarm) (hp : p ∈ al)
    (hid : ∀ q ∈ al, q.2.id = q.1) (hnd : List.Pairwise keyLt al)
    (f : FieldK) :
    getVal (persistAllAlarms al nid st) (newKey f p.2.id) =
      some (persistVal f p.2) := by
  rw [persistAllAlarms]
  rw [getVal_setVal, if_neg (fun he => nextIdKey_ne_newKey f p.2.id he.symm),
    PersistAlarmIds, getVal_setVal,
    if_neg (fun he => idsKey_ne_newKey f p.2.id he.symm)]
  exact getVal_foldl_persist_mem al st p hp hid hnd f

theorem getVal_persistAllAlarms_ids (al : AlarmMap) (nid : Int)
    (st : Settings) :
    getVal (persistAllAlarms al nid st) kAlarmIdsKey =
      some (.s (JoinIds al)) := by
  rw [persistAllAlarms]
  rw [getVal_setVal, if_neg (fun he => nextIdKey_ne_idsKey he.symm),
    PersistAlarmIds, getVal_setVal, if_pos rfl]

theorem recordOf_persistAllAlarms (tmin tmax : Int) (al : AlarmMap)
    (nid : Int) (st : Settings) (p : Int × Alarm) (hp : p ∈ al)
    (hid : ∀ q ∈ al, q.2.id = q.1) (hnd : List.Pairwise keyLt al)
    (ht1 : llMinC ≤ p.2.time) (ht2 : p.2.time ≤ llMaxC)
    (hr1 : ¬(p.2.time < tmin ∨ p.2.time > tmax))
    (hsound : IsValidSound p.2.sound = true) :
    recordOf tmin tmax (persistAllAlarms al nid st) p.2.id = some p.2 := by
  have hname : TryGetString (persistAllAlarms al nid st)
      (newKey FieldK.fname p.2.id) = some p.2.name := by
    rw [TryGetString,
      getVal_persistAllAlarms_field al nid st p hp hid hnd FieldK.fname]
    rfl
  have htime : TryGetString (persistAllAlarms al nid st)
      (newKey FieldK.ftime p.2.id) = some (intToString p.2.time) := by
    rw [TryGetString,
      getVal_persistAllAlarms_field al nid st p hp hid hnd FieldK.ftime]
    rfl
  have hrep : TryGetBool (persistAllAlarms al nid st)
      (newKey FieldK.frep p.2.id) = some p.2.repeat_ := by
    rw [TryGetBool,
      getVal_persistAllAlarms_field al nid st p hp hid hnd FieldK.frep]
    rfl
  have hintv : TryGetInt (persistAllAlarms al nid st)
      (newKey FieldK.fintv p.2.id) = some p.2.interval := by
    rw [TryGetInt,
      getVal_persistAllAlarms_field al nid st p hp hid hnd FieldK.fintv]
    rfl
  have hsnd : TryGetString (persistAllAlarms al nid st)
      (newKey FieldK.fsound p.2.id) = some p.2.sound := by
    rw [TryGetString,
      getVal_persistAllAlarms_field al nid st p hp hid hnd FieldK.fsound]
    show some (NormalizeSound p.2.sound) = some p.2.sound
    rw [NormalizeSound, if_pos hsound]
  rw [recordOf]
  simp only []
  rw [show effStr (persistAllAlarms al nid st) FieldK.ftime p.2.id "0" =
      intToString p.2.time from by rw [effStr, htime]]
  rw [show (intToString p.2.time).data = intToChars p.2.time from rfl,
    trimChars_intToChars,
    ParseIntegral_intToChars llMinC llMaxC p.2.time ht1 ht2]
  simp only []
  rw [if_neg hr1]
  rw [show effStr (persistAllAlarms al nid st) FieldK.fname p.2.id "" =
      p.2.name from by rw [effStr, hname]]
  rw [show effBool (persistAllAlarms al nid st) FieldK.frep p.2.id false =
      p.2.repeat_ from by rw [effBool, hrep]]
  rw [show effInt (persistAllAlarms al nid st) FieldK.fintv p.2.id 0 =
      p.2.interval from by rw [effInt, hintv]]
  rw [show effStr (persistAllAlarms al nid st) FieldK.fsound p.2.id
      "ALARM1" = p.2.sound from by rw [effStr, hsnd]]
  rw [if_pos hsound]

/-! ## Claim C5: load / re-persist / reload round trip -/

/-- C5: loading a durable state, then loading again from the resulting
settings, yields the same alarm set; loading, re-persisting the loaded
set unchanged and loading again also yields the same alarm set; and
after one load no legacy-scheme key of any loaded alarm's field remains
(`tmin`/`tmax` are the `time_t` limits, contained in `long long`). -/
theorem c5_load_roundtrip (tmin tmax : Int) (st : Settings)
    (h1 : llMinC ≤ tmin) (h2 : tmax ≤ llMaxC) :
    (LoadAlarms tmin tmax (LoadAlarms tmin tmax st).settings).alarms =
      (LoadAlarms tmin tmax st).alarms ∧
    (LoadAlarms tmin tmax
        (persistAllAlarms (LoadAlarms tmin tmax st).alarms
          (LoadAlarms tmin tmax st).next_alarm_id
          (LoadAlarms tmin tmax st).settings)).alarms =
      (LoadAlarms tmin tmax st).alarms ∧
    (∀ p ∈ (LoadAlarms tmin tmax st).alarms, ∀ f,
      getVal (LoadAlarms tmin tmax st).settings (legKey f p.1) = none) := by
  have hGS : GetString (LoadAlarms tmin tmax st).settings kAlarmIdsKey "" =
      GetString st kAlarmIdsKey "" := by
    rw [GetString, GetString, TryGetString_eq st _ _
      (getVal_LoadAlarms_frame tmin tmax st kAlarmIdsKey
        (fun f j => idsKey_ne_newKey f j) (fun f j => idsKey_ne_legKey f j))]
  have hA : (LoadAlarms tmin tmax (LoadAlarms tmin tmax st).settings).alarms =
      (LoadAlarms tmin tmax st).alarms := by
    rw [LoadAlarms_alarms tmin tmax (LoadAlarms tmin tmax st).settings, hGS,
      LoadAlarms_alarms tmin tmax st]
    by_cases h : GetString st kAlarmIdsKey "" ≠ ""
    · rw [if_pos h, if_pos h]
      exact buildMap_congr _ _ [] _
        (fun j => LoadAlarms_recordOf tmin tmax st j)
    · rw [if_neg h, if_neg h]
  have hWFi := LoadAlarms_WFids tmin tmax st
  have hPW := LoadAlarms_pairwise tmin tmax st
  have hmem := LoadAlarms_mem tmin tmax st
  have hfun : ∀ p ∈ (LoadAlarms tmin tmax st).alarms,
      recordOf tmin tmax
        (persistAllAlarms (LoadAlarms tmin tmax st).alarms
          (LoadAlarms tmin tmax st).next_alarm_id
          (LoadAlarms tmin tmax st).settings) p.1 = some p.2 := by
    intro p hp
    obtain ⟨hidp, ht1, ht2, hv⟩ :=
      recordOf_some tmin tmax st p.1 p.2 (hmem p hp).1
    have hrec := recordOf_persistAllAlarms tmin tmax
      (LoadAlarms tmin tmax st).alarms
      (LoadAlarms tmin tmax st).next_alarm_id
      (LoadAlarms tmin tmax st).settings p hp hWFi hPW
      (le_trans h1 ht1) (le_trans ht2 h2) (by omega) hv
    rw [hidp] at hrec
    exact hrec
  refine ⟨hA, ?_, LoadAlarms_leg_none tmin tmax st⟩
  rw [LoadAlarms_alarms tmin tmax
    (persistAllAlarms (LoadAlarms tmin tmax st).alarms
      (LoadAlarms tmin tmax st).next_alarm_id
      (LoadAlarms tmin tmax st).settings)]
  have hids : GetString
      (persistAllAlarms (LoadAlarms tmin tmax st).alarms
        (LoadAlarms tmin tmax st).next_alarm_id
        (LoadAlarms tmin tmax st).settings) kAlarmIdsKey "" =
      JoinIds (LoadAlarms tmin tmax st).alarms := by
    rw [GetString, TryGetString, getVal_persistAllAlarms_ids]
    rfl
  rw [hids]
  rcases hM : (LoadAlarms tmin tmax st).alarms with _ | ⟨p0, rest0⟩
  · rw [show JoinIds ([] : AlarmMap) = "" from rfl,
      if_neg (not_not_intro rfl)]
  · rw [hM] at hmem hfun hWFi hPW
    rw [if_pos (JoinIds_ne_empty p0 rest0)]
    rw [idlist_joinIds_eq (p0 :: rest0)
      (fun p hp => ⟨(hmem p hp).2.1, (hmem p hp).2.2⟩)]
    exact buildMap_eq_self _ (p0 :: rest0) hPW hfun

/-- Witness for C5 at a one-alarm legacy-keyed durable state. -/
theorem c5_load_roundtrip_witness :
    llMinC ≤ llMinC ∧ llMaxC ≤ llMaxC ∧
    (LoadAlarms llMinC llMaxC
        (persistAllAlarms
          (LoadAlarms llMinC llMaxC
            [(kAlarmIdsKey, SVal.s "1"), ("alarm_1", SVal.s "wake"),
             ("alarm_time_1", SVal.s "5")]).alarms
          (LoadAlarms llMinC llMaxC
            [(kAlarmIdsKey, SVal.s "1"), ("alarm_1", SVal.s "wake"),
             ("alarm_time_1", SVal.s "5")]).next_alarm_id
          (LoadAlarms llMinC llMaxC
            [(kAlarmIdsKey, SVal.s "1"), ("alarm_1", SVal.s "wake"),
             ("alarm_time_1", SVal.s "5")]).settings)).alarms =
      (LoadAlarms llMinC llMaxC
        [(kAlarmIdsKey, SVal.s "1"), ("alarm_1", SVal.s "wake"),
         ("alarm_time_1", SVal.s "5")]).alarms :=
  ⟨le_refl llMinC, le_refl llMaxC,
    (c5_load_roundtrip llMinC llMaxC
      [(kAlarmIdsKey, SVal.s "1"), ("alarm_1", SVal.s "wake"),
       ("alarm_time_1", SVal.s "5")] (le_refl llMinC) (le_refl llMaxC)).2.1⟩

/-! ## Claim C6: the time-validation drop policy on load -/

/-- C6 (corrected: a record whose persisted time is ABSENT is not
dropped): an id in the persisted list yields exactly `recordOf`, which is
`none` (record dropped) iff the effective time string is non-numeric or
parses out of `[tmin, tmax]`; when both time keys are absent the loader
falls back to the string "0", so the record is kept with time 0 whenever
0 is in range. -/
theorem c6_time_validation_amended (tmin tmax : Int) (st : Settings)
    (id : Int) :
    lookupA (LoadAlarms tmin tmax st).alarms id =
      if GetString st kAlarmIdsKey "" ≠ "" ∧
          id ∈ ParseIdList (GetString st kAlarmIdsKey "")
      then recordOf tmin tmax st id else none := by
  rw [LoadAlarms_alarms]
  by_cases h : GetString st kAlarmIdsKey "" ≠ ""
  · rw [if_pos h, lookupA_buildMap _ [] _ id List.Pairwise.nil]
    simp only [lookupA]
    by_cases hm : id ∈ ParseIdList (GetString st kAlarmIdsKey "")
    · rw [if_pos hm, if_pos ⟨h, hm⟩]
    · rw [if_neg hm, if_neg (fun hc => hm hc.2)]
  · rw [if_neg h, show lookupA ([] : AlarmMap) id = none from rfl,
      if_neg (fun hc => h hc.1)]

/-- Counterexample to C6 as stated: id 7 is in the persisted id list but
has no persisted time at all (neither the new-scheme nor the legacy
key), yet after load a record for id 7 IS in the store, with time 0. -/
theorem c6_counterexample :
    TryGetString ([(kAlarmIdsKey, SVal.s "7")] : Settings)
        (newKey FieldK.ftime 7) = none ∧
    TryGetString ([(kAlarmIdsKey, SVal.s "7")] : Settings)
        (legKey FieldK.ftime 7) = none ∧
    lookupA (LoadAlarms llMinC llMaxC
        [(kAlarmIdsKey, SVal.s "7")]).alarms 7 =
      some ⟨0, false, 0, "", "ALARM1", 7⟩ := by
  decide

/-! ## Claim C8: sound normalization -/

theorem IsValidSound_NormalizeSound (s : String) :
    IsValidSound (NormalizeSound s) = true := by
  by_cases h : IsValidSound s = true
  · rw [NormalizeSound, if_pos h]
    exact h
  · rw [NormalizeSound, if_neg h]
    decide

/-- Counterexample to C8 as stated: loading a state whose only sound
information is an invalid legacy value migrates that raw value verbatim
under the durable new-scheme sound key, so an invalid sound IS written
to durable storage (the in-memory record alone gets the ALARM1
fallback). -/
theorem c8_counterexample :
    getVal (LoadAlarms llMinC llMaxC
        [(kAlarmIdsKey, SVal.s "1"),
         ("alarm_sound_1", SVal.s "BOGUS")]).settings
      (newKey FieldK.fsound 1) = some (SVal.s "BOGUS") ∧
    IsValidSound "BOGUS" = false ∧
    lookupA (LoadAlarms llMinC llMaxC
        [(kAlarmIdsKey, SVal.s "1"),
         ("alarm_sound_1", SVal.s "BOGUS")]).alarms 1 =
      some ⟨0, false, 0, "", "ALARM1", 1⟩ := by
  decide

/-- C8 (corrected: the one-time legacy migration copies a raw,
unvalidated sound string to the durable new-scheme key): sounds are
normalized into {ALARM1, ALARM2, ALARM3} in every in-memory record
(`AddAlarm`, `UpdateAlarm`, every loaded record) and in every
`PersistAlarm` durable write, but not in the migration write performed
by a load. -/
theorem c8_sound_normalization_amended (tmin tmax : Int) (st2 : Settings)
    (mst : MState) (a : Alarm) (now : Int) (st : Settings) :
    IsValidSound (NormalizeSound a.sound) = true ∧
    getVal (PersistAlarm a st2) (newKey FieldK.fsound a.id) =
      some (SVal.s (NormalizeSound a.sound)) ∧
    ((∀ p ∈ mst.alarms, IsValidSound p.2.sound = true) →
      ∀ p ∈ (AddAlarm mst a now).2.1.alarms,
        IsValidSound p.2.sound = true) ∧
    ((∀ p ∈ mst.alarms, IsValidSound p.2.sound = true) →
      ∀ p ∈ (UpdateAlarm mst a now).2.1.alarms,
        IsValidSound p.2.sound = true) ∧
    (∀ p ∈ (LoadAlarms tmin tmax st).alarms,
      IsValidSound p.2.sound = true) := by
  refine ⟨IsValidSound_NormalizeSound a.sound, ?_, ?_, ?_, ?_⟩
  · rw [getVal_PersistAlarm_own a st2 FieldK.fsound]
    rfl
  · intro hst p hp
    simp only [AddAlarm] at hp
    rcases mem_insertA _ _ _ _ hp with he | hm
    · rw [he]
      by_cases hc : ({ a with sound := NormalizeSound a.sound } : Alarm).id ≤ 0
      · rw [if_pos hc]
        exact IsValidSound_NormalizeSound a.sound
      · rw [if_neg hc]
        exact IsValidSound_NormalizeSound a.sound
    · exact hst p hm
  · intro hst p hp
    rcases hl : lookupA mst.alarms a.id with _ | b
    · simp only [UpdateAlarm, hl] at hp
      exact hst p hp
    · simp only [UpdateAlarm, hl] at hp
      rcases mem_insertA _ _ _ _ hp with he | hm
      · rw [he]
        exact IsValidSound_NormalizeSound a.sound
      · exact hst p hm
  · exact fun p hp =>
      (recordOf_some tmin tmax st p.1 p.2
        (LoadAlarms_mem tmin tmax st p hp).1).2.2.2
